import Mathlib

/-!
# Unix file system simulation: a shallow embedding

The C program keeps a tree of `FileNode` records linked by three pointers
(`parent`, `fChild`, `nSibling`).  The embedding keeps that representation:

* a C string is the list of its characters before the terminating NUL;
  a `const char *` that may be `NULL` is an `Option (List Char)`;
* a pointer is an `Option Nat` (`none` is `NULL`), an address is a `Nat`;
* the heap is a list of cells, a cell is `some node` when it is allocated and
  `none` when it was never allocated or has been passed to `free`;
* `time(NULL)` is an explicit argument `now`;
* every function that dereferences a pointer returns an `Option`: `none` means
  that the run has no result (it dereferences an invalid pointer, writes outside
  a fixed-size array, or walks a cyclic list for ever).

Loops that walk a linked list take the number of heap cells as fuel.  A walk
that visits more cells than the heap has visits one cell twice, and then the C
loop never ends, so running out of fuel is non-termination of the C program.
-/

namespace UnixFS

/-! ## Constants and the node record -/

def MAX_NAME : Nat := 256
def MAX_CONTENT : Nat := 1024
def MAX_PATH_LENGTH : Nat := 4096
def MAX_QUEUE : Nat := 1000
/-- Capacity of the local array `FileNode *stack[100]` of `printPath`. -/
def STACK_SIZE : Nat := 100

inductive NodeType where
  | TYPE_FILE
  | TYPE_FOLDER
  deriving DecidableEq, Repr

abbrev Ptr := Option Nat

structure FileNode where
  fileName : List Char
  fileContent : List Char
  type : NodeType
  createdTime : Nat
  modifiedTime : Nat
  parent : Ptr
  fChild : Ptr
  nSibling : Ptr
  deriving DecidableEq, Repr

abbrev Heap := List (Option FileNode)

/-- Dereference an address: `none` when the cell is not allocated. -/
def Heap.read (h : Heap) (p : Nat) : Option FileNode := (h.get? p).join

/-- Store a node at an address. -/
def Heap.write (h : Heap) (p : Nat) (n : FileNode) : Heap := h.set p (some n)

/-- The call `free(p)`: the cell is no longer allocated. -/
def Heap.free (h : Heap) (p : Nat) : Heap := h.set p none

/-- The call `malloc(sizeof(FileNode))` followed by the initialisation of the
cell: a cell is added at the first address past the heap. -/
def Heap.malloc (h : Heap) (n : FileNode) : Heap × Nat := (h ++ [some n], h.length)

/-! ## isValidName -/

/-- The string literal `"/\\:*?\"<>|"` of `isValidName`. -/
def invalidChars : List Char := ['/', '\\', ':', '*', '?', '"', '<', '>', '|']

def isValidName : Option (List Char) → Nat
  | none => 0
  | some name =>
    if name.length = 0 ∨ name.length ≥ MAX_NAME then 0
    else if name.any (fun c => invalidChars.contains c) then 0
    else if name = ['.'] ∨ name = ['.', '.'] then 0
    else 1

/-! ## createNode -/

/-- Result of `strncpy(dst, src, n - 1); dst[n - 1] = 0` read back as a string. -/
def strncpyz (src : List Char) (n : Nat) : List Char := src.take (n - 1)

/-- The `if (content)` statement of `createNode`: what is stored as content. -/
def createNode.content (content : Option (List Char)) : List Char :=
  match content with
  | some c => strncpyz c MAX_CONTENT
  | none => []

def createNode (h : Heap) (now : Nat) (name : Option (List Char))
    (content : Option (List Char)) (type : NodeType) : Heap × Ptr :=
  if isValidName name = 0 then (h, none)
  else
    match name with
    | none => (h, none)
    | some nm =>
      let node : FileNode :=
        { fileName := strncpyz nm MAX_NAME
          fileContent := createNode.content content
          type := type
          createdTime := now
          modifiedTime := now
          parent := none
          fChild := none
          nSibling := none }
      let r := h.malloc node
      (r.1, some r.2)

/-! ## findNode -/

/-- The statement `if (rear < MAX_QUEUE) queue[rear++] = p;`.  The queue is the
list of the slots written so far, so `rear` is its length. -/
def enqueue (queue : List Nat) (p : Nat) : List Nat :=
  if queue.length < MAX_QUEUE then queue ++ [p] else queue

/-- The inner loop of `findNode`: `while (sibling) { enqueue; sibling = sibling->nSibling; }`. -/
def findNode.siblings (h : Heap) : Nat → Ptr → List Nat → Option (List Nat)
  | _, none, queue => some queue
  | 0, some _, _ => none
  | fuel + 1, some s, queue =>
    match h.read s with
    | none => none
    | some sn => findNode.siblings h fuel sn.nSibling (enqueue queue s)

/-- The statement under `// Add first child`. -/
def findNode.firstChild (queue : List Nat) (cn : FileNode) : List Nat :=
  match cn.fChild with
  | some c => enqueue queue c
  | none => queue

/-- The outer loop of `findNode`, `while (front < rear)`.  It returns the
pointer the C function returns together with the final contents of the queue. -/
def findNode.loop (h : Heap) (name : List Char) :
    Nat → List Nat → Nat → Option (Ptr × List Nat)
  | fuel, queue, front =>
    if front < queue.length then
      match fuel with
      | 0 => none
      | fuel + 1 =>
        match queue[front]? with
        | none => none
        | some curr =>
          match h.read curr with
          | none => none
          | some cn =>
            if cn.fileName = name then some (some curr, queue)
            else
              match findNode.siblings h h.length cn.nSibling
                  (findNode.firstChild queue cn) with
              | none => none
              | some queue2 => findNode.loop h name fuel queue2 (front + 1)
    else some (none, queue)

/-- The run of `findNode` with the final queue kept.  `front` grows by one in
every iteration and stays below `rear ≤ MAX_QUEUE`, so `MAX_QUEUE` iterations
are all the outer loop can make. -/
def findNode.run (h : Heap) (root : Ptr) (name : Option (List Char)) :
    Option (Ptr × List Nat) :=
  match root, name with
  | none, _ => some (none, [])
  | _, none => some (none, [])
  | some r, some nm => findNode.loop h nm MAX_QUEUE [r] 0

def findNode (h : Heap) (root : Ptr) (name : Option (List Char)) : Option Ptr :=
  (findNode.run h root name).map Prod.fst

/-! ## The search loop with a two-list queue

`findNode.fastLoop` runs the loop of `findNode` on another representation of
the queue: the slots from `front` on are kept as a list `pending` followed by
the reverse of a list `back`, and `rear` is kept as a number.  It is proved
below to return what `findNode` returns; it is used to evaluate `findNode` on
trees that fill the queue. -/

/-- The statement `if (rear < MAX_QUEUE) queue[rear++] = p;` on `(back, rear)`. -/
def findNode.fastEnqueue (st : List Nat × Nat) (p : Nat) : List Nat × Nat :=
  if st.2 < MAX_QUEUE then (p :: st.1, st.2 + 1) else st

def findNode.fastSiblings (h : Heap) : Nat → Ptr → List Nat × Nat → Option (List Nat × Nat)
  | _, none, st => some st
  | 0, some _, _ => none
  | fuel + 1, some s, st =>
    match h.read s with
    | none => none
    | some sn => findNode.fastSiblings h fuel sn.nSibling (findNode.fastEnqueue st s)

def findNode.fastFirstChild (st : List Nat × Nat) (cn : FileNode) : List Nat × Nat :=
  match cn.fChild with
  | some c => findNode.fastEnqueue st c
  | none => st

/-- When `pending` is used up, the slots of `back` become the pending ones. -/
def findNode.fastPending (pending back : List Nat) : List Nat × List Nat :=
  match pending with
  | [] => (back.reverse, [])
  | _ :: _ => (pending, back)

def findNode.fastLoop (h : Heap) (name : List Char) :
    Nat → List Nat → List Nat → Nat → Option Ptr
  | fuel, pending, back, rear =>
    match findNode.fastPending pending back with
    | ([], _) => some none
    | (curr :: rest, back1) =>
      match fuel with
      | 0 => none
      | fuel + 1 =>
        match h.read curr with
        | none => none
        | some cn =>
          if cn.fileName = name then some (some curr)
          else
            match findNode.fastSiblings h h.length cn.nSibling
                (findNode.fastFirstChild (back1, rear) cn) with
            | none => none
            | some st2 => findNode.fastLoop h name fuel rest st2.1 st2.2

/-- The search of `findNode` run with the two-list queue. -/
def findNode.fast (h : Heap) (root : Nat) (name : List Char) : Option Ptr :=
  findNode.fastLoop h name MAX_QUEUE [root] [] 1

/-! ## findParent -/

def findParent.loop (h : Heap) (parentFolder : Nat) (name : List Char) :
    Nat → Ptr → Ptr → Option Ptr
  | _, none, _ => some none
  | 0, some _, _ => none
  | fuel + 1, some c, prev =>
    match h.read c with
    | none => none
    | some cn =>
      if cn.fileName = name then
        some (match prev with
          | some pv => some pv
          | none => some parentFolder)
      else findParent.loop h parentFolder name fuel cn.nSibling (some c)

def findParent (h : Heap) (parentFolder : Ptr) (name : Option (List Char)) : Option Ptr :=
  match parentFolder, name with
  | none, _ => some none
  | _, none => some none
  | some pf, some nm =>
    match h.read pf with
    | none => none
    | some pn => findParent.loop h pf nm h.length pn.fChild none

/-! ## insertNode -/

/-- The duplicate-name loop of `insertNode`: `some true` when a child with the
name is met, `some false` when the list ends without one. -/
def insertNode.hasDuplicate (h : Heap) (name : List Char) : Nat → Ptr → Option Bool
  | _, none => some false
  | 0, some _ => none
  | fuel + 1, some c =>
    match h.read c with
    | none => none
    | some cn =>
      if cn.fileName = name then some true
      else insertNode.hasDuplicate h name fuel cn.nSibling

/-- The loop `while (temp->nSibling) temp = temp->nSibling;`: the address of
the last cell of the list that starts at `temp`. -/
def insertNode.lastSibling (h : Heap) : Nat → Nat → Option Nat
  | 0, _ => none
  | fuel + 1, temp =>
    match h.read temp with
    | none => none
    | some tn =>
      match tn.nSibling with
      | none => some temp
      | some s => insertNode.lastSibling h fuel s

/-- The function `insertNode`: the heap after the call and the returned `int`. -/
def insertNode (h : Heap) (now : Nat) (parent newNode : Ptr) : Option (Heap × Nat) :=
  match parent, newNode with
  | none, _ => some (h, 0)
  | _, none => some (h, 0)
  | some p, some n =>
    match h.read p with
    | none => none
    | some pn =>
      if pn.type ≠ NodeType.TYPE_FOLDER then some (h, 0)
      else
        match h.read n with
        | none => none
        | some nn =>
          match insertNode.hasDuplicate h nn.fileName h.length pn.fChild with
          | none => none
          | some true => some (h, 0)
          | some false =>
            -- newNode->parent = parent;
            let h1 := h.write n { nn with parent := some p }
            match h1.read p with
            | none => none
            | some pn1 =>
              let linked : Option Heap :=
                match pn1.fChild with
                | none => some (h1.write p { pn1 with fChild := some n })
                | some c =>
                  match insertNode.lastSibling h1 h1.length c with
                  | none => none
                  | some t =>
                    match h1.read t with
                    | none => none
                    | some tn => some (h1.write t { tn with nSibling := some n })
              match linked with
              | none => none
              | some h2 =>
                -- parent->modifiedTime = time(NULL);
                match h2.read p with
                | none => none
                | some pn2 => some (h2.write p { pn2 with modifiedTime := now }, 1)

/-! ## deleteNode -/

/-- The statements of `deleteNode` under `// Remove from linked list`, for the
child `c` (whose record is `cn`) with predecessor `prev`. -/
def deleteNode.remove (h : Heap) (now : Nat) (parent c : Nat) (cn : FileNode)
    (prev : Ptr) : Option (Heap × Nat) :=
  let unlinked : Option Heap :=
    match prev with
    | some pv =>
      match h.read pv with
      | none => none
      | some pvn => some (h.write pv { pvn with nSibling := cn.nSibling })
    | none =>
      match h.read parent with
      | none => none
      | some pn => some (h.write parent { pn with fChild := cn.nSibling })
  match unlinked with
  | none => none
  | some h1 =>
    let h2 := h1.free c
    -- parent->modifiedTime = time(NULL);
    match h2.read parent with
    | none => none
    | some pn2 => some (h2.write parent { pn2 with modifiedTime := now }, 1)

def deleteNode.loop (h : Heap) (now : Nat) (parent : Nat) (name : List Char) :
    Nat → Ptr → Ptr → Option (Heap × Nat)
  | _, none, _ => some (h, 0)
  | 0, some _, _ => none
  | fuel + 1, some c, prev =>
    match h.read c with
    | none => none
    | some cn =>
      if cn.fileName = name then
        if cn.type = NodeType.TYPE_FOLDER ∧ cn.fChild ≠ none then some (h, 0)
        else deleteNode.remove h now parent c cn prev
      else deleteNode.loop h now parent name fuel cn.nSibling (some c)

/-- The function `deleteNode`; its first argument `root` is not used by the C code. -/
def deleteNode (h : Heap) (now : Nat) (root : Ptr) (parent : Ptr)
    (name : Option (List Char)) : Option (Heap × Nat) :=
  match parent, name with
  | none, _ => some (h, 0)
  | _, none => some (h, 0)
  | some p, some nm =>
    match h.read p with
    | none => none
    | some pn => deleteNode.loop h now p nm h.length pn.fChild none

/-! ## listDirectory -/

/-- One line printed by `listDirectory` for a child, without its newline.
`fmt` is `getCurrentTime` (the C library formats the time). -/
def listDirectory.line (fmt : Nat → List Char) (showDetails : Bool) (cn : FileNode) :
    List Char :=
  if showDetails then
    let typeChar : Char := if cn.type = NodeType.TYPE_FOLDER then 'd' else '-'
    [typeChar, ' ', ' '] ++ fmt cn.modifiedTime ++ [' ', ' '] ++ cn.fileName
  else if cn.type = NodeType.TYPE_FOLDER then cn.fileName ++ ['/']
  else cn.fileName

def listDirectory.loop (h : Heap) (fmt : Nat → List Char) (showDetails : Bool) :
    Nat → Ptr → Option (List (List Char))
  | _, none => some []
  | 0, some _ => none
  | fuel + 1, some c =>
    match h.read c with
    | none => none
    | some cn =>
      match listDirectory.loop h fmt showDetails fuel cn.nSibling with
      | none => none
      | some rest => some (listDirectory.line fmt showDetails cn :: rest)

/-- The function `listDirectory`: the lines it prints, in order. -/
def listDirectory (h : Heap) (fmt : Nat → List Char) (node : Ptr) (showDetails : Bool) :
    Option (List (List Char)) :=
  match node with
  | none => some []
  | some d =>
    match h.read d with
    | none => none
    | some dn => listDirectory.loop h fmt showDetails h.length dn.fChild

/-! ## printPath -/

/-- The first loop of `printPath`: `stack[++top] = temp; temp = temp->parent`.
The stack is a list with its top in front; the fuel is the number of free
slots of `stack`, and a push with no free slot writes outside the array. -/
def printPath.push (h : Heap) : Nat → Ptr → List Nat → Option (List Nat)
  | _, none, stack => some stack
  | 0, some _, _ => none
  | free + 1, some t, stack =>
    match h.read t with
    | none => none
    | some tn => printPath.push h free tn.parent (t :: stack)

/-- The call `strcat(path, s)` on the buffer `char path[MAX_PATH_LENGTH]`: the
result and its terminating NUL must fit. -/
def strcatPath (path s : List Char) : Option (List Char) :=
  if (path ++ s).length < MAX_PATH_LENGTH then some (path ++ s) else none

/-- The second loop of `printPath`, from the top of the stack down. -/
def printPath.render (h : Heap) : List Nat → List Char → Option (List Char)
  | [], path => some path
  | t :: rest, path =>
    match h.read t with
    | none => none
    | some tn =>
      match strcatPath path tn.fileName with
      | none => none
      | some path1 =>
        if rest ≠ [] then
          match strcatPath path1 ['/'] with
          | none => none
          | some path2 => printPath.render h rest path2
        else printPath.render h rest path1

/-- The contents of the buffer `path` when `printPath` reaches its `printf`. -/
def printPath.path (h : Heap) (node : Nat) : Option (List Char) :=
  match printPath.push h STACK_SIZE (some node) [] with
  | none => none
  | some stack => printPath.render h stack []

/-- The function `printPath`: the text it prints. -/
def printPath (h : Heap) (node : Ptr) : Option (List Char) :=
  match node with
  | none => some []
  | some n => (printPath.path h n).map (fun path => path ++ ['\n'])

/-! ## The commands of `main`

Each branch of the command loop is a function of the heap; `current` is the
working directory, `root` the root.  A command reads the clock each time the
C code calls `time`.  Messages printed on errors are not part of the state. -/

/-- What the `cat` command prints. -/
inductive CatOutput where
  | content (text : List Char)
  | isDirectory
  | notFound
  deriving DecidableEq, Repr

/-- The child loop of the `cat` branch. -/
def cat.loop (h : Heap) (name : List Char) : Nat → Ptr → Option CatOutput
  | _, none => some CatOutput.notFound
  | 0, some _ => none
  | fuel + 1, some c =>
    match h.read c with
    | none => none
    | some cn =>
      if cn.fileName = name then
        if cn.type = NodeType.TYPE_FILE then some (CatOutput.content cn.fileContent)
        else some CatOutput.isDirectory
      else cat.loop h name fuel cn.nSibling

/-- The `cat <name>` branch. -/
def cat (h : Heap) (current : Nat) (name : List Char) : Option CatOutput :=
  match h.read current with
  | none => none
  | some cur => cat.loop h name h.length cur.fChild

/-- The child loop of the `cd` branch: the first child with the name. -/
def cd.loop (h : Heap) (dir : List Char) : Nat → Ptr → Option Ptr
  | _, none => some none
  | 0, some _ => none
  | fuel + 1, some c =>
    match h.read c with
    | none => none
    | some cn =>
      if cn.fileName = dir then some (some c)
      else cd.loop h dir fuel cn.nSibling

/-- The `cd <dir>` branch: the working directory after the command. -/
def cd (h : Heap) (root current : Nat) (dir : List Char) : Option Nat :=
  match h.read current with
  | none => none
  | some cur =>
    if dir = ['.', '.'] then
      match cur.parent with
      | some p => some p
      | none => some current
    else if dir = ['~'] ∨ dir = ['/'] then some root
    else
      match cd.loop h dir h.length cur.fChild with
      | none => none
      | some none => some current
      | some (some target) =>
        match h.read target with
        | none => none
        | some tn => if tn.type = NodeType.TYPE_FOLDER then some target else some current

/-- The shared tail of `mkdir`, `touch`, `echo` and `cp`: insert the node that
`createNode` returned, and `free` it when the insertion is refused. -/
def insertOrFree (r : Heap × Ptr) (now : Nat) (current : Nat) : Option Heap :=
  match r with
  | (h1, none) => some h1
  | (h1, some newNode) =>
    match insertNode h1 now (some current) (some newNode) with
    | none => none
    | some (h2, ok) => if ok = 0 then some (h2.free newNode) else some h2

/-- The `mkdir <name>` branch. -/
def mkdir (h : Heap) (nowCreate nowInsert : Nat) (current : Nat) (name : List Char) :
    Option Heap :=
  insertOrFree (createNode h nowCreate (some name) (some []) NodeType.TYPE_FOLDER)
    nowInsert current

/-- The `touch <name>` branch. -/
def touch (h : Heap) (nowCreate nowInsert : Nat) (current : Nat) (name : List Char) :
    Option Heap :=
  insertOrFree (createNode h nowCreate (some name) (some []) NodeType.TYPE_FILE)
    nowInsert current

/-- The `rm <name>` branch. -/
def rm (h : Heap) (now : Nat) (root current : Nat) (name : List Char) : Option Heap :=
  (deleteNode h now (some root) (some current) (some name)).map Prod.fst

/-- The statements of the `mv` branch under `if (child == srcNode)`: the child
`c` (whose record is `cn`) is taken out of the list after `prev`. -/
def mv.unlink (h : Heap) (srcParent c : Nat) (cn : FileNode) (prev : Ptr) : Option Heap :=
  let unlinked : Option Heap :=
    match prev with
    | some pv =>
      match h.read pv with
      | none => none
      | some pvn => some (h.write pv { pvn with nSibling := cn.nSibling })
    | none =>
      match h.read srcParent with
      | none => none
      | some pn => some (h.write srcParent { pn with fChild := cn.nSibling })
  match unlinked with
  | none => none
  | some h1 =>
    -- child->nSibling = NULL;
    match h1.read c with
    | none => none
    | some cn1 => some (h1.write c { cn1 with nSibling := none })

/-- The loop of the `mv` branch that takes `srcNode` out of the child list of
`srcParent`. -/
def mv.detach (h : Heap) (srcParent srcNode : Nat) : Nat → Ptr → Ptr → Option Heap
  | _, none, _ => some h
  | 0, some _, _ => none
  | fuel + 1, some c, prev =>
    match h.read c with
    | none => none
    | some cn =>
      if c = srcNode then mv.unlink h srcParent c cn prev
      else mv.detach h srcParent srcNode fuel cn.nSibling (some c)

/-- The `mv <src> <dst>` branch.  The C code ignores the value of the final
`insertNode`; it is kept here as the second component (0 when the branch prints
an error and does not reach the call). -/
def mv (h : Heap) (now : Nat) (root : Nat) (src dst : List Char) : Option (Heap × Nat) :=
  match findNode h (some root) (some src), findNode h (some root) (some dst) with
  | none, _ => none
  | _, none => none
  | some none, some _ => some (h, 0)
  | some (some _), some none => some (h, 0)
  | some (some srcNode), some (some dstNode) =>
    match h.read dstNode with
    | none => none
    | some dn =>
      if dn.type ≠ NodeType.TYPE_FOLDER then some (h, 0)
      else
        match h.read srcNode with
        | none => none
        | some sn =>
          let detached : Option Heap :=
            match sn.parent with
            | none => some h
            | some srcParent =>
              match h.read srcParent with
              | none => none
              | some pn => mv.detach h srcParent srcNode h.length pn.fChild none
          match detached with
          | none => none
          | some h1 => insertNode h1 now (some dstNode) (some srcNode)

/-- What the `rename` command reports. -/
inductive RenameOutput where
  | renamed
  | invalidName
  | notFound
  deriving DecidableEq, Repr

/-- The child loop of the `rename` branch.  `strncpy(child->fileName, newName,
MAX_NAME - 1)` leaves the last byte of `fileName` as it is, and that byte is the
NUL that `createNode` stored, so the name read back is `strncpyz newName MAX_NAME`. -/
def rename.loop (h : Heap) (now : Nat) (oldName newName : List Char) :
    Nat → Ptr → Option (Heap × RenameOutput)
  | _, none => some (h, RenameOutput.notFound)
  | 0, some _ => none
  | fuel + 1, some c =>
    match h.read c with
    | none => none
    | some cn =>
      if cn.fileName = oldName then
        some (h.write c { cn with fileName := strncpyz newName MAX_NAME, modifiedTime := now },
          RenameOutput.renamed)
      else rename.loop h now oldName newName fuel cn.nSibling

/-- The `rename <old> <new>` branch. -/
def rename (h : Heap) (now : Nat) (current : Nat) (oldName newName : List Char) :
    Option (Heap × RenameOutput) :=
  if isValidName (some newName) = 0 then some (h, RenameOutput.invalidName)
  else
    match h.read current with
    | none => none
    | some cur => rename.loop h now oldName newName h.length cur.fChild

/-- The child loop of the `cp` branch. -/
def cp.loop (h : Heap) (nowCreate nowInsert : Nat) (current : Nat) (src dst : List Char) :
    Nat → Ptr → Option Heap
  | _, none => some h
  | 0, some _ => none
  | fuel + 1, some c =>
    match h.read c with
    | none => none
    | some cn =>
      if cn.fileName = src then
        if cn.type = NodeType.TYPE_FILE then
          insertOrFree (createNode h nowCreate (some dst) (some cn.fileContent)
            NodeType.TYPE_FILE) nowInsert current
        else some h
      else cp.loop h nowCreate nowInsert current src dst fuel cn.nSibling

/-- The `cp <src> <dst>` branch. -/
def cp (h : Heap) (nowCreate nowInsert : Nat) (current : Nat) (src dst : List Char) :
    Option Heap :=
  match h.read current with
  | none => none
  | some cur => cp.loop h nowCreate nowInsert current src dst h.length cur.fChild

/-- `insertNode` of the nodes of a list, one after another, into `parent`;
the run stops with `none` when one call is refused. -/
def insertAll (h : Heap) (now : Nat) (parent : Nat) : List Nat → Option Heap
  | [] => some h
  | n :: rest =>
    match insertNode h now (some parent) (some n) with
    | none => none
    | some (h1, ok) => if ok = 1 then insertAll h1 now parent rest else none

/-- The heap of `main` before the first command: the root alone. -/
def initialHeap : Heap :=
  (createNode [] 0 (some "root".toList) (some []) NodeType.TYPE_FOLDER).1

/-- The `mkdir` command run for each name of a list, in the directory `current`. -/
def mkdirAll (h : Heap) (current : Nat) : List String → Option Heap
  | [] => some h
  | name :: names =>
    match mkdir h 0 0 current name.toList with
    | none => none
    | some h1 => mkdirAll h1 current names

/-- The commands `mkdir d`, `cd d` run `k` times from the directory `current`. -/
def nestDirs : Nat → Heap → Nat → Option (Heap × Nat)
  | 0, h, current => some (h, current)
  | k + 1, h, current =>
    match mkdir h 0 0 current ['d'] with
    | none => none
    | some h1 =>
      match cd h1 0 current ['d'] with
      | none => none
      | some current1 => nestDirs k h1 current1

/-! ## Observations used to state the properties -/

/-- The addresses met by following the link `next` from `p` until `NULL`. -/
def walk (next : FileNode → Ptr) (h : Heap) : Nat → Ptr → Option (List Nat)
  | _, none => some []
  | 0, some _ => none
  | fuel + 1, some c =>
    match h.read c with
    | none => none
    | some cn => (walk next h fuel (next cn)).map (fun l => c :: l)

/-- The child list of a directory: the `nSibling` chain of its first child. -/
def children (h : Heap) (p : Nat) : Option (List Nat) :=
  match h.read p with
  | none => none
  | some pn => walk FileNode.nSibling h h.length pn.fChild

/-- The chain node, parent, ..., root of a node, following `parent`. -/
def ancestors (h : Heap) (p : Nat) : Option (List Nat) :=
  walk FileNode.parent h h.length (some p)

/-- The name stored at an address (empty when the cell is not allocated). -/
def nameOf (h : Heap) (p : Nat) : List Char :=
  match h.read p with
  | some n => n.fileName
  | none => []

/-- The parent pointer stored at an address. -/
def parentOf (h : Heap) (p : Nat) : Ptr :=
  match h.read p with
  | some n => n.parent
  | none => none

/-- `Follows next h p l`: following the link `next` from `p` visits exactly the
allocated cells `l` and then reaches `NULL`. -/
def Follows (next : FileNode → Ptr) (h : Heap) : Ptr → List Nat → Prop
  | none, [] => True
  | none, _ :: _ => False
  | some _, [] => False
  | some p, q :: l => p = q ∧ ∃ n, h.read p = some n ∧ Follows next h (next n) l

/-- A sibling list: the cells `l` linked by `nSibling` from `p` to `NULL`. -/
abbrev IsChain (h : Heap) (p : Ptr) (l : List Nat) : Prop := Follows FileNode.nSibling h p l

/-- An ancestor chain: the cells `l` linked by `parent` from `p` to `NULL`. -/
abbrev IsUp (h : Heap) (p : Ptr) (l : List Nat) : Prop := Follows FileNode.parent h p l

/-- Reachability from `r` through `fChild` and `nSibling` links. -/
inductive Reach (h : Heap) (r : Nat) : Nat → Prop
  | root : Reach h r r
  | child {p c : Nat} {n : FileNode} :
      Reach h r p → h.read p = some n → n.fChild = some c → Reach h r c
  | sibling {p s : Nat} {n : FileNode} :
      Reach h r p → h.read p = some n → n.nSibling = some s → Reach h r s

/-- Every cell reachable from the root is allocated and its sibling list ends. -/
def WellLinked (h : Heap) (r : Nat) : Prop :=
  ∀ p, Reach h r p → ∃ n, h.read p = some n ∧ ∃ l, IsChain h n.nSibling l

/-- The fields of a cell that no operation on links changes. -/
def FileNode.data (n : FileNode) : List Char × List Char × NodeType × Nat :=
  (n.fileName, n.fileContent, n.type, n.createdTime)

/-- The heap `h'` has the cells of `h`, with the same names, contents, kinds and
creation times. -/
def SameData (h h' : Heap) : Prop :=
  h'.length = h.length ∧ ∀ q, (h'.read q).map FileNode.data = (h.read q).map FileNode.data

/-- The names on a list of addresses joined by `/`. -/
def joinNames (h : Heap) : List Nat → List Char
  | [] => []
  | [p] => nameOf h p
  | p :: q :: l => nameOf h p ++ '/' :: joinNames h (q :: l)

/-- `Processed h nm Q x`: the cell `x` has been taken from the queue `Q` without
a match, and its first child and its next sibling are in `Q`. -/
def Processed (h : Heap) (nm : List Char) (Q : List Nat) (x : Nat) : Prop :=
  ∃ n, h.read x = some n ∧ n.fileName ≠ nm ∧
    (∀ c, n.fChild = some c → c ∈ Q) ∧ (∀ s, n.nSibling = some s → s ∈ Q)

/-- A check of the links of every cell: the first child is allocated and the
`nSibling` chain ends.  It implies `WellLinked` for every allocated root. -/
def linksCheck (h : Heap) : Bool :=
  h.all (fun c =>
    match c with
    | none => true
    | some n =>
      (match n.fChild with
        | none => true
        | some c => (h.read c).isSome) &&
      (walk FileNode.nSibling h h.length n.nSibling).isSome)

/-! ## Tree shape

The invariants of the specification as predicates on the heap.  They quantify
over the addresses below the length of the heap, so they can be evaluated on a
given heap. -/

/-- The child list of a cell; empty when the cell is free or its list does not end. -/
def childList (h : Heap) (p : Nat) : List Nat := (children h p).getD []

/-- Every allocated cell has a child list that ends. -/
def ChildrenDefined (h : Heap) : Prop :=
  ∀ D < h.length, (h.read D).isSome → (children h D).isSome

instance ChildrenDefined.decidable (h : Heap) : Decidable (ChildrenDefined h) :=
  inferInstanceAs (Decidable (∀ D < h.length, (h.read D).isSome → (children h D).isSome))

/-- Every cell on the child list of `D` has `D` as its parent (one half of I5). -/
def PointBack (h : Heap) : Prop :=
  ∀ D < h.length, ∀ c ∈ childList h D, parentOf h c = some D

instance PointBack.decidable (h : Heap) : Decidable (PointBack h) :=
  inferInstanceAs (Decidable (∀ D < h.length, ∀ c ∈ childList h D, parentOf h c = some D))

/-- A cell with parent `A` is on the child list of `A` (the other half of I5). -/
def ParentListed (h : Heap) : Prop :=
  ∀ c < h.length, ∀ A ∈ parentOf h c, c ∈ childList h A

instance ParentListed.decidable (h : Heap) : Decidable (ParentListed h) :=
  inferInstanceAs (Decidable (∀ c < h.length, ∀ A ∈ parentOf h c, c ∈ childList h A))

/-- A cell without a parent (the root, a node just created) has no sibling. -/
def ParentlessAlone (h : Heap) : Prop :=
  ∀ c < h.length, ∀ n ∈ h.read c, n.parent = none → n.nSibling = none

instance ParentlessAlone.decidable (h : Heap) : Decidable (ParentlessAlone h) :=
  inferInstanceAs
    (Decidable (∀ c < h.length, ∀ n ∈ h.read c, n.parent = none → n.nSibling = none))

/-- The names on every child list are pairwise distinct (I2). -/
def DistinctNames (h : Heap) : Prop :=
  ∀ D < h.length, ((childList h D).map (nameOf h)).Nodup

instance DistinctNames.decidable (h : Heap) : Decidable (DistinctNames h) :=
  inferInstanceAs (Decidable (∀ D < h.length, ((childList h D).map (nameOf h)).Nodup))

/-! ## Sample heaps -/

/-- An allocated cell with empty content and both times 0. -/
def cell (name : String) (type : NodeType) (parent fChild nSibling : Ptr) :
    Option FileNode :=
  some ⟨name.toList, [], type, 0, 0, parent, fChild, nSibling⟩

/-- The tree `root/a` (cells 0 and 1), a new file `b` (cell 2) and a new
directory `a` (cell 3) that are not linked yet. -/
def sampleNew : Heap :=
  [cell "root" NodeType.TYPE_FOLDER none (some 1) none,
   cell "a" NodeType.TYPE_FILE (some 0) none none,
   cell "b" NodeType.TYPE_FILE none none none,
   cell "a" NodeType.TYPE_FOLDER none none none]

/-- The tree `root/{docs/{a.txt}, b}`: cells 0 (root), 1 (docs), 2 (a.txt,
with content `hi`) and 3 (b). -/
def sampleDocs : Heap :=
  [cell "root" NodeType.TYPE_FOLDER none (some 1) none,
   cell "docs" NodeType.TYPE_FOLDER (some 0) (some 2) (some 3),
   some ⟨"a.txt".toList, "hi".toList, NodeType.TYPE_FILE, 0, 0, some 1, none, none⟩,
   cell "b" NodeType.TYPE_FILE (some 0) none none]

/-- The heap `sampleDocs` after `rm a.txt` in `docs` at time 7. -/
def sampleDocsRm : Heap :=
  [cell "root" NodeType.TYPE_FOLDER none (some 1) none,
   some ⟨"docs".toList, [], NodeType.TYPE_FOLDER, 0, 7, some 0, none, some 3⟩,
   none,
   cell "b" NodeType.TYPE_FILE (some 0) none none]

/-- The tree built by `mkdir a`, `touch x`, `cd a`, `touch x`: cell 0 is
`root`, cell 1 is `root/a`, cell 2 is `root/x` and cell 3 is `root/a/x`. -/
def sampleShadow : Heap :=
  [cell "root" NodeType.TYPE_FOLDER none (some 1) none,
   cell "a" NodeType.TYPE_FOLDER (some 0) (some 3) (some 2),
   cell "x" NodeType.TYPE_FILE (some 0) none none,
   cell "x" NodeType.TYPE_FILE (some 1) none none]

/-- The tree built by twelve `mkdir d0` ... `mkdir d11` in the root, then `cd d11`,
`mkdir e0`, `cd e0`, `mkdir e1`, `cd e1`, `mkdir e2`: cell 0 is `root`, cells 1 to 12
are `d0` to `d11`, cells 13, 14 and 15 are `e0`, `e1` and the empty directory `e2`. -/
def sampleWide : Heap :=
  [cell "root" NodeType.TYPE_FOLDER none (some 1) none,
   cell "d0" NodeType.TYPE_FOLDER (some 0) none (some 2),
   cell "d1" NodeType.TYPE_FOLDER (some 0) none (some 3),
   cell "d2" NodeType.TYPE_FOLDER (some 0) none (some 4),
   cell "d3" NodeType.TYPE_FOLDER (some 0) none (some 5),
   cell "d4" NodeType.TYPE_FOLDER (some 0) none (some 6),
   cell "d5" NodeType.TYPE_FOLDER (some 0) none (some 7),
   cell "d6" NodeType.TYPE_FOLDER (some 0) none (some 8),
   cell "d7" NodeType.TYPE_FOLDER (some 0) none (some 9),
   cell "d8" NodeType.TYPE_FOLDER (some 0) none (some 10),
   cell "d9" NodeType.TYPE_FOLDER (some 0) none (some 11),
   cell "d10" NodeType.TYPE_FOLDER (some 0) none (some 12),
   cell "d11" NodeType.TYPE_FOLDER (some 0) (some 13) none,
   cell "e0" NodeType.TYPE_FOLDER (some 12) (some 14) none,
   cell "e1" NodeType.TYPE_FOLDER (some 13) (some 15) none,
   cell "e2" NodeType.TYPE_FOLDER (some 14) none none]

/-- The heap `sampleWide` after `touch new` in `e2` (created at time 1,
inserted at time 2): the new file is cell 16. -/
def sampleWideNew : Heap :=
  sampleWide.set 15 (some ⟨"e2".toList, [], NodeType.TYPE_FOLDER, 0, 2, some 14, some 16, none⟩)
    ++ [some ⟨"new".toList, [], NodeType.TYPE_FILE, 1, 1, some 15, none, none⟩]

/-- A chain of 100 nested directories `root/d/d/.../d`: cell 0 is the root and
cell `i` is the directory of depth `i`. -/
def deepChain : Heap :=
  (List.range 101).map (fun i =>
    cell (if i = 0 then "root" else "d") NodeType.TYPE_FOLDER
      (if i = 0 then none else some (i - 1)) (if i < 100 then some (i + 1) else none) none)

/-- The tree `root/sub` with an empty directory `sub`: cells 0 and 1. -/
def sampleDir : Heap :=
  [cell "root" NodeType.TYPE_FOLDER none (some 1) none,
   cell "sub" NodeType.TYPE_FOLDER (some 0) none none]

/-- The heap `sampleDocs` after `mv a.txt root` at time 7. -/
def sampleDocsMv : Heap :=
  [some ⟨"root".toList, [], NodeType.TYPE_FOLDER, 0, 7, none, some 1, none⟩,
   cell "docs" NodeType.TYPE_FOLDER (some 0) none (some 3),
   some ⟨"a.txt".toList, "hi".toList, NodeType.TYPE_FILE, 0, 0, some 0, none, none⟩,
   cell "b" NodeType.TYPE_FILE (some 0) none (some 2)]

/-- The tree `root/{b, a}` with two files: cells 0, 1 (`b`) and 2 (`a`). -/
def sampleBA : Heap :=
  [cell "root" NodeType.TYPE_FOLDER none (some 1) none,
   cell "b" NodeType.TYPE_FILE (some 0) none (some 2),
   cell "a" NodeType.TYPE_FILE (some 0) none none]

/-- A root directory without children (cell 0) and two nodes as `createNode`
returns them: the file `x` (cell 1) and the directory `y` (cell 2). -/
def sampleLoose : Heap :=
  [cell "root" NodeType.TYPE_FOLDER none none none,
   cell "x" NodeType.TYPE_FILE none none none,
   cell "y" NodeType.TYPE_FOLDER none none none]

/-- The tree `root/{a/{f}, c/{f}}`: cells 0 (root), 1 (`a`), 2 (`a/f`), 3 (`c`)
and 4 (`c/f`). -/
def sampleClash : Heap :=
  [cell "root" NodeType.TYPE_FOLDER none (some 1) none,
   cell "a" NodeType.TYPE_FOLDER (some 0) (some 2) (some 3),
   cell "f" NodeType.TYPE_FILE (some 1) none none,
   cell "c" NodeType.TYPE_FOLDER (some 0) (some 4) none,
   cell "f" NodeType.TYPE_FILE (some 3) none none]

/-! # Properties -/

/-! ## Heap cells -/

theorem Heap.read_lt {h : Heap} {p : Nat} {n : FileNode} (hr : h.read p = some n) :
    p < h.length := by
  by_contra hlt
  have : h[p]? = none := List.getElem?_eq_none (by omega)
  simp [Heap.read, this] at hr

theorem Heap.length_write (h : Heap) (p : Nat) (n : FileNode) :
    (h.write p n).length = h.length := by
  simp [Heap.write]

theorem Heap.length_free (h : Heap) (p : Nat) : (h.free p).length = h.length := by
  simp [Heap.free]

theorem Heap.read_write_same {h : Heap} {p : Nat} (n : FileNode) (hp : p < h.length) :
    (h.write p n).read p = some n := by
  simp [Heap.read, Heap.write, List.getElem?_set, hp]

theorem Heap.read_write_ne {h : Heap} {p q : Nat} (n : FileNode) (hne : p ≠ q) :
    (h.write p n).read q = h.read q := by
  simp [Heap.read, Heap.write, List.getElem?_set, hne]

theorem Heap.read_free_same (h : Heap) (p : Nat) : (h.free p).read p = none := by
  by_cases hp : p < h.length
  · simp [Heap.read, Heap.free, List.getElem?_set, hp]
  · simp [Heap.read, Heap.free, List.getElem?_set, hp]

theorem Heap.read_free_ne {h : Heap} {p q : Nat} (hne : p ≠ q) :
    (h.free p).read q = h.read q := by
  simp [Heap.read, Heap.free, List.getElem?_set, hne]

theorem Heap.read_append_lt {h : Heap} {p : Nat} (c : Option FileNode) (hp : p < h.length) :
    Heap.read (h ++ [c]) p = h.read p := by
  simp [Heap.read, List.getElem?_append_left hp]

theorem Heap.read_append_length (h : Heap) (n : FileNode) :
    Heap.read (h ++ [some n]) h.length = some n := by
  simp [Heap.read]

/-! ## isValidName -/

theorem isValidName_zero_or_one (name : Option (List Char)) :
    isValidName name = 0 ∨ isValidName name = 1 := by
  cases name with
  | none => left; rfl
  | some s =>
    simp only [isValidName]
    split_ifs <;> simp

theorem invalidChars_contains (c : Char) :
    invalidChars.contains c = true ↔
      (c = '/' ∨ c = '\\' ∨ c = ':' ∨ c = '*' ∨ c = '?' ∨ c = '"' ∨
          c = '<' ∨ c = '>' ∨ c = '|') := by
  simp [invalidChars]

/-- What `isValidName` accepts. -/
theorem isValidName_eq_one (s : List Char) :
    isValidName (some s) = 1 ↔
      1 ≤ s.length ∧ s.length ≤ 255 ∧
        (∀ c ∈ s, c ≠ '/' ∧ c ≠ '\\' ∧ c ≠ ':' ∧ c ≠ '*' ∧ c ≠ '?' ∧ c ≠ '"' ∧
          c ≠ '<' ∧ c ≠ '>' ∧ c ≠ '|') ∧
        s ≠ ['.'] ∧ s ≠ ['.', '.'] := by
  simp only [isValidName, MAX_NAME]
  constructor
  · intro hv
    split_ifs at hv with h1 h2 h3
    refine ⟨by omega, by omega, ?_, ?_, ?_⟩
    · intro c hc
      simp only [List.any_eq_true, not_exists, not_and] at h2
      have := h2 c hc
      rw [invalidChars_contains] at this
      simpa [not_or] using this
    · exact fun e => h3 (Or.inl e)
    · exact fun e => h3 (Or.inr e)
  · rintro ⟨h1, h2, h3, h4, h5⟩
    rw [if_neg (by omega), if_neg, if_neg]
    · rintro (e | e)
      · exact h4 e
      · exact h5 e
    · simp only [List.any_eq_true, not_exists, not_and]
      intro c hc
      have := h3 c hc
      rw [invalidChars_contains]
      tauto

/-- C1: `isValidName` returns 1 exactly for a non-null name of 1 to 255
characters that has none of the nine characters `/ \ : * ? " < > |` and is
neither `.` nor `..`, and it returns 0 for every other argument. -/
theorem isValidName_iff (name : Option (List Char)) :
    (isValidName name = 1 ↔
      ∃ s, name = some s ∧ 1 ≤ s.length ∧ s.length ≤ 255 ∧
        (∀ c ∈ s, c ≠ '/' ∧ c ≠ '\\' ∧ c ≠ ':' ∧ c ≠ '*' ∧ c ≠ '?' ∧ c ≠ '"' ∧
          c ≠ '<' ∧ c ≠ '>' ∧ c ≠ '|') ∧
        s ≠ ['.'] ∧ s ≠ ['.', '.']) ∧
    (isValidName name ≠ 1 → isValidName name = 0) := by
  refine ⟨?_, fun hne => (isValidName_zero_or_one name).resolve_right hne⟩
  cases name with
  | none => simp [isValidName]
  | some s =>
    rw [isValidName_eq_one]
    simp

/-! ## Linked chains -/

section chains

variable {next : FileNode → Ptr} {h h' : Heap}

theorem Follows.none_iff {l : List Nat} : Follows next h none l ↔ l = [] := by
  cases l <;> simp [Follows]

theorem Follows.some_iff {p : Nat} {l : List Nat} :
    Follows next h (some p) l ↔
      ∃ n l', h.read p = some n ∧ l = p :: l' ∧ Follows next h (next n) l' := by
  cases l with
  | nil => simp [Follows]
  | cons q l =>
    simp only [Follows, List.cons.injEq]
    constructor
    · rintro ⟨rfl, n, hn, hl⟩
      exact ⟨n, l, hn, ⟨rfl, rfl⟩, hl⟩
    · rintro ⟨n, l', hn, ⟨rfl, rfl⟩, hl⟩
      exact ⟨rfl, n, hn, hl⟩

theorem Follows.cons {p : Nat} {n : FileNode} {l : List Nat} (hn : h.read p = some n)
    (hl : Follows next h (next n) l) : Follows next h (some p) (p :: l) :=
  ⟨rfl, n, hn, hl⟩

theorem Follows.unique {p : Ptr} {l l' : List Nat} (h1 : Follows next h p l)
    (h2 : Follows next h p l') : l = l' := by
  induction l generalizing p l' with
  | nil =>
    cases p with
    | none => exact (Follows.none_iff.mp h2).symm
    | some p => simp [Follows] at h1
  | cons q l ih =>
    cases p with
    | none => simp [Follows] at h1
    | some p =>
      obtain ⟨rfl, n, hn, hl⟩ := h1
      obtain ⟨n', l'', hn', rfl, hl'⟩ := Follows.some_iff.mp h2
      rw [hn] at hn'
      cases hn'
      rw [ih hl hl']

theorem Follows.cells_allocated {p : Ptr} {l : List Nat} (h1 : Follows next h p l) :
    ∀ q ∈ l, ∃ n, h.read q = some n := by
  induction l generalizing p with
  | nil => simp
  | cons q l ih =>
    cases p with
    | none => simp [Follows] at h1
    | some p =>
      obtain ⟨rfl, n, hn, hl⟩ := h1
      intro q hq
      rcases List.mem_cons.mp hq with rfl | hq
      · exact ⟨n, hn⟩
      · exact ih hl q hq

/-- The part of a chain that starts at one of its cells is a chain. -/
theorem Follows.tail_from {p : Ptr} {a b : List Nat} {q : Nat}
    (h1 : Follows next h p (a ++ q :: b)) : Follows next h (some q) (q :: b) := by
  induction a generalizing p with
  | nil =>
    cases p with
    | none => simp [Follows] at h1
    | some p =>
      obtain ⟨rfl, n, hn, hl⟩ := h1
      exact ⟨rfl, n, hn, hl⟩
  | cons x a ih =>
    cases p with
    | none => simp [Follows] at h1
    | some p =>
      obtain ⟨rfl, n, hn, hl⟩ := h1
      exact ih hl

theorem Follows.nodup {p : Ptr} {l : List Nat} (h1 : Follows next h p l) : l.Nodup := by
  induction l generalizing p with
  | nil => exact List.nodup_nil
  | cons q l ih =>
    cases p with
    | none => simp [Follows] at h1
    | some p =>
      obtain ⟨rfl, n, hn, hl⟩ := h1
      refine List.nodup_cons.mpr ⟨?_, ih hl⟩
      intro hmem
      obtain ⟨a, b, rfl⟩ := List.append_of_mem hmem
      have h2 : Follows next h (some p) (p :: b) := Follows.tail_from hl
      have h3 : Follows next h (some p) (p :: (a ++ p :: b)) := ⟨rfl, n, hn, hl⟩
      have := Follows.unique h2 h3
      have hlen := congrArg List.length this
      simp at hlen
      omega

theorem Follows.length_le {p : Ptr} {l : List Nat} (h1 : Follows next h p l) :
    l.length ≤ h.length := by
  have hsub : l ⊆ List.range h.length := by
    intro q hq
    obtain ⟨n, hn⟩ := h1.cells_allocated q hq
    exact List.mem_range.mpr (Heap.read_lt hn)
  have := (List.subperm_of_subset h1.nodup hsub).length_le
  simpa using this

/-- A chain only depends on the links of its own cells. -/
theorem Follows.congr {p : Ptr} {l : List Nat}
    (hsame : ∀ q ∈ l, (h'.read q).map next = (h.read q).map next)
    (h1 : Follows next h p l) : Follows next h' p l := by
  induction l generalizing p with
  | nil => cases p <;> simp_all [Follows]
  | cons q l ih =>
    cases p with
    | none => simp [Follows] at h1
    | some p =>
      obtain ⟨rfl, n, hn, hl⟩ := h1
      have hq := hsame p (List.mem_cons_self _ _)
      rw [hn] at hq
      cases hr : h'.read p with
      | none => simp [hr] at hq
      | some n' =>
        simp only [hr, Option.map_some', Option.some.injEq] at hq
        refine ⟨rfl, n', hr, ?_⟩
        rw [hq]
        exact ih (fun q hq => hsame q (List.mem_cons_of_mem _ hq)) hl

theorem walk_of_follows {p : Ptr} {l : List Nat} (h1 : Follows next h p l)
    {fuel : Nat} (hf : l.length ≤ fuel) : walk next h fuel p = some l := by
  induction l generalizing p fuel with
  | nil =>
    cases p with
    | none => cases fuel <;> rfl
    | some p => simp [Follows] at h1
  | cons q l ih =>
    cases p with
    | none => simp [Follows] at h1
    | some p =>
      obtain ⟨rfl, n, hn, hl⟩ := h1
      cases fuel with
      | zero => simp at hf
      | succ fuel =>
        simp only [walk, hn]
        rw [ih hl (by simpa using hf)]
        rfl

theorem follows_of_walk {p : Ptr} {l : List Nat} {fuel : Nat}
    (h1 : walk next h fuel p = some l) : Follows next h p l := by
  induction fuel generalizing p l with
  | zero =>
    cases p with
    | none => simp [walk] at h1; subst h1; trivial
    | some p => simp [walk] at h1
  | succ fuel ih =>
    cases p with
    | none => simp [walk] at h1; subst h1; trivial
    | some p =>
      simp only [walk] at h1
      cases hr : h.read p with
      | none => simp [hr] at h1
      | some n =>
        simp only [hr, Option.map_eq_some'] at h1
        obtain ⟨l', hl', rfl⟩ := h1
        exact ⟨rfl, n, hr, ih hl'⟩

theorem walk_iff_follows {p : Ptr} {l : List Nat} :
    walk next h h.length p = some l ↔ Follows next h p l :=
  ⟨follows_of_walk, fun h1 => walk_of_follows h1 h1.length_le⟩

theorem children_eq_some {p : Nat} {l : List Nat} :
    children h p = some l ↔ ∃ n, h.read p = some n ∧ IsChain h n.fChild l := by
  unfold children
  cases hr : h.read p with
  | none => simp
  | some n => simp [walk_iff_follows]

theorem ancestors_eq_some {p : Nat} {l : List Nat} :
    ancestors h p = some l ↔ IsUp h (some p) l := walk_iff_follows

end chains

/-! ## Writes that keep a field -/

theorem Heap.map_read_write {α : Type} (f : FileNode → α) {h : Heap} {p : Nat}
    {n : FileNode} (n' : FileNode) (hr : h.read p = some n) (hf : f n' = f n) (q : Nat) :
    ((h.write p n').read q).map f = (h.read q).map f := by
  by_cases hq : p = q
  · subst hq
    rw [Heap.read_write_same _ (Heap.read_lt hr), hr]
    simp [hf]
  · rw [Heap.read_write_ne _ hq]

theorem Heap.read_write_some {h : Heap} {p : Nat} {n : FileNode} (n' : FileNode)
    (hr : h.read p = some n) {q : Nat} {m : FileNode} (hq : h.read q = some m) :
    ∃ m', (h.write p n').read q = some m' := by
  by_cases hpq : p = q
  · subst hpq
    exact ⟨n', Heap.read_write_same _ (Heap.read_lt hr)⟩
  · exact ⟨m, by rw [Heap.read_write_ne _ hpq, hq]⟩

/-! ## The loops of insertNode -/

theorem hasDuplicate_of_chain {h : Heap} (name : List Char) {p : Ptr} {l : List Nat}
    (hc : IsChain h p l) {fuel : Nat} (hf : l.length ≤ fuel) :
    insertNode.hasDuplicate h name fuel p =
      some (l.any (fun c => decide (nameOf h c = name))) := by
  induction l generalizing p fuel with
  | nil =>
    cases p with
    | none => cases fuel <;> rfl
    | some p => simp [Follows] at hc
  | cons q l ih =>
    cases p with
    | none => simp [Follows] at hc
    | some p =>
      obtain ⟨rfl, n, hn, hl⟩ := hc
      cases fuel with
      | zero => simp at hf
      | succ fuel =>
        simp only [insertNode.hasDuplicate, hn, List.any_cons, nameOf]
        by_cases hnm : n.fileName = name
        · simp [hnm]
        · rw [if_neg hnm, ih hl (by simpa using hf)]
          simp [hnm, nameOf]

theorem Follows.last_link {next : FileNode → Ptr} {h : Heap} {p : Ptr} {a : List Nat}
    {t : Nat} (hc : Follows next h p (a ++ [t])) :
    ∃ tn, h.read t = some tn ∧ next tn = none := by
  have h1 : Follows next h (some t) (t :: []) := Follows.tail_from hc
  obtain ⟨_, tn, htn, hnil⟩ := h1
  exact ⟨tn, htn, by cases hx : next tn <;> simp_all [Follows]⟩

theorem lastSibling_of_chain {h : Heap} {c : Nat} {a : List Nat} {t : Nat}
    (hc : IsChain h (some c) (a ++ [t])) {fuel : Nat} (hf : (a ++ [t]).length ≤ fuel) :
    insertNode.lastSibling h fuel c = some t := by
  induction a generalizing c fuel with
  | nil =>
    obtain ⟨rfl, n, hn, hl⟩ := hc
    cases fuel with
    | zero => simp at hf
    | succ fuel =>
      have : n.nSibling = none := by
        cases hx : n.nSibling <;> simp_all [Follows]
      simp [insertNode.lastSibling, hn, this]
  | cons x a ih =>
    obtain ⟨rfl, n, hn, hl⟩ := hc
    cases fuel with
    | zero => simp at hf
    | succ fuel =>
      cases hx : n.nSibling with
      | none =>
        rw [hx] at hl
        cases a <;> simp [Follows] at hl
      | some s =>
        rw [hx] at hl
        simp only [insertNode.lastSibling, hn, hx]
        exact ih hl (by simpa using hf)

/-- Linking a cell with no sibling after the last cell of a chain. -/
theorem Follows.snoc {next : FileNode → Ptr} {h h' : Heap} {p : Ptr} {a : List Nat}
    {t x : Nat} {tn' xn' : FileNode}
    (hc : Follows next h p (a ++ [t]))
    (hsame : ∀ q ∈ a, (h'.read q).map next = (h.read q).map next)
    (ht : h'.read t = some tn') (htx : next tn' = some x)
    (hx : h'.read x = some xn') (hxn : next xn' = none) :
    Follows next h' p (a ++ [t, x]) := by
  induction a generalizing p with
  | nil =>
    cases p with
    | none => simp [Follows] at hc
    | some p =>
      obtain ⟨rfl, -⟩ := hc
      refine ⟨rfl, tn', ht, ?_⟩
      rw [htx]
      refine ⟨rfl, xn', hx, ?_⟩
      rw [hxn]
      trivial
  | cons y a ih =>
    cases p with
    | none => simp [Follows] at hc
    | some p =>
      obtain ⟨rfl, n, hn, hl⟩ := hc
      have hq := hsame p (List.mem_cons_self _ _)
      rw [hn] at hq
      cases hr : h'.read p with
      | none => simp [hr] at hq
      | some n' =>
        simp only [hr, Option.map_some', Option.some.injEq] at hq
        refine ⟨rfl, n', hr, ?_⟩
        rw [hq]
        exact ih hl (fun q hq => hsame q (List.mem_cons_of_mem _ hq))

theorem SameData.refl (h : Heap) : SameData h h := ⟨rfl, fun _ => rfl⟩

theorem SameData.trans {h1 h2 h3 : Heap} (a : SameData h1 h2) (b : SameData h2 h3) :
    SameData h1 h3 :=
  ⟨b.1.trans a.1, fun q => (b.2 q).trans (a.2 q)⟩

theorem SameData.write {h : Heap} {p : Nat} {n n' : FileNode} (hr : h.read p = some n)
    (hd : n'.data = n.data) : SameData h (h.write p n') :=
  ⟨Heap.length_write _ _ _, Heap.map_read_write _ _ hr hd⟩

theorem map_read_eq_some {α : Type} {f : FileNode → α} {h : Heap} {q : Nat} {v : α}
    (hq : (h.read q).map f = some v) : ∃ n, h.read q = some n ∧ f n = v := by
  cases hr : h.read q with
  | none => simp [hr] at hq
  | some n => exact ⟨n, rfl, by simpa [hr] using hq⟩

theorem SameData.nameOf_eq {h h' : Heap} (hs : SameData h h') (q : Nat) :
    nameOf h' q = nameOf h q := by
  have := hs.2 q
  unfold UnixFS.nameOf
  cases h1 : h'.read q <;> cases h2 : h.read q <;> simp_all [FileNode.data]

theorem SameData.read_some {h h' : Heap} (hs : SameData h h') {q : Nat} {n : FileNode}
    (hq : h.read q = some n) : ∃ n', h'.read q = some n' ∧ n'.data = n.data := by
  have := hs.2 q
  rw [hq] at this
  exact map_read_eq_some this

/-- A successful `insertNode`: what it returns and what it changes. -/
theorem insertNode_ok {h : Heap} (now : Nat) {P N : Nat} {pn nn : FileNode} {l : List Nat}
    (hP : h.read P = some pn) (hty : pn.type = NodeType.TYPE_FOLDER)
    (hN : h.read N = some nn) (hl : IsChain h pn.fChild l)
    (hNl : N ∉ l) (hsib : nn.nSibling = none)
    (hdup : ∀ c ∈ l, nameOf h c ≠ nn.fileName) :
    ∃ h', insertNode h now (some P) (some N) = some (h', 1) ∧
      SameData h h' ∧
      children h' P = some (l ++ [N]) ∧
      parentOf h' N = some P ∧
      (∀ q, q ≠ N → (h'.read q).map FileNode.parent = (h.read q).map FileNode.parent) ∧
      (∀ q, q ≠ P → (h'.read q).map FileNode.fChild = (h.read q).map FileNode.fChild) ∧
      (∀ q, q ≠ P →
        (h'.read q).map FileNode.modifiedTime = (h.read q).map FileNode.modifiedTime) ∧
      (h'.read P).map FileNode.modifiedTime = some now ∧
      (∀ q, l.getLast? ≠ some q →
        (h'.read q).map FileNode.nSibling = (h.read q).map FileNode.nSibling) := by
  have hdupeq : insertNode.hasDuplicate h nn.fileName h.length pn.fChild = some false := by
    rw [hasDuplicate_of_chain _ hl hl.length_le]
    simp only [Option.some.injEq, List.any_eq_false, decide_eq_true_eq]
    exact hdup
  -- newNode->parent = parent
  obtain ⟨pn1, hpn1⟩ := Heap.read_write_some { nn with parent := some P } hN hP
  have hfc1 : pn1.fChild = pn.fChild := by
    have := Heap.map_read_write FileNode.fChild { nn with parent := some P } hN rfl P
    simpa [hpn1, hP] using this
  have hpar1 : ∀ q, q = N ∨ q = P →
      ((h.write N { nn with parent := some P }).read q).map FileNode.parent =
        if q = N then some (some P) else (h.read q).map FileNode.parent := by
    intro q _
    by_cases hq : q = N
    · subst hq
      rw [Heap.read_write_same _ (Heap.read_lt hN)]
      simp
    · rw [Heap.read_write_ne _ (Ne.symm hq), if_neg hq]
  have hl1 : IsChain (h.write N { nn with parent := some P }) pn.fChild l :=
    hl.congr (fun q _ => Heap.map_read_write FileNode.nSibling _ hN (by rfl) q)
  have hlen1 := Heap.length_write h N { nn with parent := some P }
  unfold insertNode
  simp only [hP, hty, hN, hdupeq, hpn1, hfc1, ne_eq, not_true_eq_false, if_false]
  generalize hh1 : h.write N { nn with parent := some P } = h1 at *
  rcases List.eq_nil_or_concat' l with rfl | ⟨a, t, rfl⟩
  · -- the parent has no child
    have hnone : pn.fChild = none := by
      cases hx : pn.fChild <;> simp_all [Follows]
    have hP2 := Heap.read_write_same { pn1 with fChild := some N } (Heap.read_lt hpn1)
    simp only [hnone, hP2]
    generalize hh2 : h1.write P { pn1 with fChild := some N } = h2 at *
    have hP3 := Heap.read_write_same
      { ({ pn1 with fChild := some N } : FileNode) with modifiedTime := now } (Heap.read_lt hP2)
    generalize hh3 : h2.write P
      { ({ pn1 with fChild := some N } : FileNode) with modifiedTime := now } = h3 at *
    have keep23 : ∀ {α : Type} (f : FileNode → α),
        (∀ n v, f { n with fChild := v } = f n) →
        (∀ n v, f { n with modifiedTime := v } = f n) →
        ∀ q, (h3.read q).map f = (h1.read q).map f := by
      intro α f f2 f3 q
      rw [← hh3, Heap.map_read_write f _ hP2 (f3 _ _), ← hh2,
        Heap.map_read_write f _ hpn1 (f2 _ _)]
    have keep : ∀ {α : Type} (f : FileNode → α),
        (∀ n v, f { n with parent := v } = f n) → (∀ n v, f { n with fChild := v } = f n) →
        (∀ n v, f { n with modifiedTime := v } = f n) →
        ∀ q, (h3.read q).map f = (h.read q).map f := by
      intro α f f1 f2 f3 q
      rw [keep23 f f2 f3, ← hh1, Heap.map_read_write f _ hN (f1 _ _)]
    have other : ∀ {α : Type} (f : FileNode → α),
        (∀ n v, f { n with parent := v } = f n) →
        ∀ q, q ≠ P → (h3.read q).map f = (h.read q).map f := by
      intro α f f1 q hq
      rw [← hh3, Heap.read_write_ne _ (Ne.symm hq), ← hh2, Heap.read_write_ne _ (Ne.symm hq),
        ← hh1, Heap.map_read_write f _ hN (f1 _ _)]
    refine ⟨h3, rfl, ?_, ?_, ?_, ?_, ?_, ?_, ?_, ?_⟩
    · exact ⟨by rw [← hh3, Heap.length_write, ← hh2, Heap.length_write, hlen1],
        keep FileNode.data (fun _ _ => rfl) (fun _ _ => rfl) (fun _ _ => rfl)⟩
    · rw [children_eq_some]
      refine ⟨_, hP3, ?_⟩
      have hs := keep FileNode.nSibling (fun _ _ => rfl) (fun _ _ => rfl) (fun _ _ => rfl) N
      rw [hN, Option.map_some', hsib] at hs
      obtain ⟨x, hx, hxs⟩ := map_read_eq_some hs
      refine ⟨rfl, x, hx, ?_⟩
      rw [hxs]
      trivial
    · have hs := keep23 FileNode.parent (fun _ _ => rfl) (fun _ _ => rfl) N
      rw [hpar1 N (Or.inl rfl), if_pos rfl] at hs
      obtain ⟨x, hx, hxs⟩ := map_read_eq_some hs
      simp [parentOf, hx, hxs]
    · intro q hq
      rw [keep23 FileNode.parent (fun _ _ => rfl) (fun _ _ => rfl), ← hh1,
        Heap.read_write_ne _ (Ne.symm hq)]
    · exact other FileNode.fChild (fun _ _ => rfl)
    · exact other FileNode.modifiedTime (fun _ _ => rfl)
    · rw [hP3]
      rfl
    · intro q _
      exact keep FileNode.nSibling (fun _ _ => rfl) (fun _ _ => rfl) (fun _ _ => rfl) q
  · -- the parent has children, the last one is `t`
    obtain ⟨c, hc⟩ : ∃ c, pn.fChild = some c := by
      cases hx : pn.fChild with
      | none =>
        rw [hx] at hl
        cases a <;> simp [Follows] at hl
      | some c => exact ⟨c, rfl⟩
    rw [hc] at hl hl1
    have hlast : insertNode.lastSibling h1 h1.length c = some t :=
      lastSibling_of_chain hl1 hl1.length_le
    obtain ⟨tn, htn⟩ := hl1.cells_allocated t (by simp)
    obtain ⟨pn2, hpn2⟩ := Heap.read_write_some { tn with nSibling := some N } htn hpn1
    simp only [hc, hlast, htn, hpn2]
    have hfc2 : pn2.fChild = pn.fChild := by
      have := Heap.map_read_write FileNode.fChild { tn with nSibling := some N } htn
        (by rfl) P
      rw [hpn2, hpn1] at this
      simpa [hfc1] using this
    have hT2 := Heap.read_write_same { tn with nSibling := some N } (Heap.read_lt htn)
    generalize hh2 : h1.write t { tn with nSibling := some N } = h2 at *
    have hP3 := Heap.read_write_same { pn2 with modifiedTime := now } (Heap.read_lt hpn2)
    generalize hh3 : h2.write P { pn2 with modifiedTime := now } = h3 at *
    have ht_mem : t ∈ a ++ [t] := by simp
    have hNt : N ≠ t := fun e => hNl (e ▸ ht_mem)
    have keep3 : ∀ {α : Type} (f : FileNode → α),
        (∀ n v, f { n with modifiedTime := v } = f n) →
        ∀ q, (h3.read q).map f = (h2.read q).map f := by
      intro α f f3 q
      rw [← hh3, Heap.map_read_write f _ hpn2 (f3 _ _)]
    have keep1 : ∀ {α : Type} (f : FileNode → α),
        (∀ n v, f { n with parent := v } = f n) →
        ∀ q, (h1.read q).map f = (h.read q).map f := by
      intro α f f1 q
      rw [← hh1, Heap.map_read_write f _ hN (f1 _ _)]
    have keep2 : ∀ {α : Type} (f : FileNode → α),
        (∀ n v, f { n with nSibling := v } = f n) →
        ∀ q, (h2.read q).map f = (h1.read q).map f := by
      intro α f f2 q
      rw [← hh2, Heap.map_read_write f _ htn (f2 _ _)]
    have sib : ∀ q, q ≠ t →
        (h3.read q).map FileNode.nSibling = (h.read q).map FileNode.nSibling := by
      intro q hq
      rw [keep3 FileNode.nSibling (fun _ _ => rfl), ← hh2, Heap.read_write_ne _ (Ne.symm hq),
        keep1 FileNode.nSibling (fun _ _ => rfl)]
    refine ⟨h3, rfl, ?_, ?_, ?_, ?_, ?_, ?_, ?_, ?_⟩
    · refine ⟨by rw [← hh3, Heap.length_write, ← hh2, Heap.length_write, hlen1], fun q => ?_⟩
      rw [keep3 FileNode.data (fun _ _ => rfl), keep2 FileNode.data (fun _ _ => rfl),
        keep1 FileNode.data (fun _ _ => rfl)]
    · rw [children_eq_some]
      refine ⟨_, hP3, ?_⟩
      show IsChain h3 pn2.fChild (a ++ [t] ++ [N])
      rw [hfc2, hc, List.append_assoc]
      have hnd := hl.nodup
      have hta : t ∉ a := by
        intro hmem
        have := List.nodup_append.mp hnd
        exact this.2.2 hmem (by simp)
      have h3t : (h3.read t).map FileNode.nSibling = some (some N) := by
        rw [keep3 FileNode.nSibling (fun _ _ => rfl), hT2]
        rfl
      have h3N : (h3.read N).map FileNode.nSibling = some none := by
        rw [sib N hNt, hN, Option.map_some', hsib]
      obtain ⟨tn', htn', htn's⟩ := map_read_eq_some h3t
      obtain ⟨xn', hxn', hxn's⟩ := map_read_eq_some h3N
      exact Follows.snoc hl (fun q hq => sib q (fun e => hta (e ▸ hq))) htn' htn's hxn' hxn's
    · have hs : (h3.read N).map FileNode.parent = some (some P) := by
        rw [keep3 FileNode.parent (fun _ _ => rfl), keep2 FileNode.parent (fun _ _ => rfl),
          hpar1 N (Or.inl rfl), if_pos rfl]
      obtain ⟨x, hx, hxs⟩ := map_read_eq_some hs
      simp [parentOf, hx, hxs]
    · intro q hq
      rw [keep3 FileNode.parent (fun _ _ => rfl), keep2 FileNode.parent (fun _ _ => rfl),
        ← hh1, Heap.read_write_ne _ (Ne.symm hq)]
    · intro q _
      rw [keep3 FileNode.fChild (fun _ _ => rfl), keep2 FileNode.fChild (fun _ _ => rfl),
        keep1 FileNode.fChild (fun _ _ => rfl)]
    · intro q hq
      rw [← hh3, Heap.read_write_ne _ (Ne.symm hq),
        keep2 FileNode.modifiedTime (fun _ _ => rfl),
        keep1 FileNode.modifiedTime (fun _ _ => rfl)]
    · rw [hP3]
      rfl
    · intro q hq
      refine sib q (fun e => hq ?_)
      rw [e]
      simp

theorem nameOf_of_read {h : Heap} {q : Nat} {n : FileNode} (hq : h.read q = some n) :
    nameOf h q = n.fileName := by
  simp [nameOf, hq]

/-- `insertNode` into a node that is not a directory changes nothing. -/
theorem insertNode_not_folder {h : Heap} (now : Nat) {P N : Nat} {pn : FileNode}
    (hP : h.read P = some pn) (hty : pn.type ≠ NodeType.TYPE_FOLDER) :
    insertNode h now (some P) (some N) = some (h, 0) := by
  simp [insertNode, hP, hty]

/-- `insertNode` of a name that a child already has changes nothing. -/
theorem insertNode_duplicate {h : Heap} (now : Nat) {P N : Nat} {pn nn : FileNode}
    {l : List Nat} (hP : h.read P = some pn) (hN : h.read N = some nn)
    (hl : IsChain h pn.fChild l) (hdup : ∃ c ∈ l, nameOf h c = nn.fileName) :
    insertNode h now (some P) (some N) = some (h, 0) := by
  have hdupeq : insertNode.hasDuplicate h nn.fileName h.length pn.fChild = some true := by
    rw [hasDuplicate_of_chain _ hl hl.length_le]
    simp only [Option.some.injEq, List.any_eq_true, decide_eq_true_eq]
    exact hdup
  unfold insertNode
  simp only [hP, hN, hdupeq]
  split_ifs <;> rfl

/-- C2: for a parent `P` whose child list is `l` and a new node `N` (allocated,
without sibling, not in `l`), `insertNode` returns 1 exactly when `P` is a
directory and no child of `P` has the name of `N`; when it returns 1 the child
list of `P` is `l` with `N` appended and the parent of `N` is `P`. -/
theorem insertNode_succeeds_iff (h : Heap) (now : Nat) (P N : Nat) (pn nn : FileNode)
    (l : List Nat) (hP : h.read P = some pn) (hN : h.read N = some nn)
    (hl : children h P = some l) (hNl : N ∉ l) (hsib : nn.nSibling = none) :
    ∃ h' r, insertNode h now (some P) (some N) = some (h', r) ∧
      (r = 1 ↔ pn.type = NodeType.TYPE_FOLDER ∧ ∀ c ∈ l, nameOf h c ≠ nameOf h N) ∧
      (r = 1 → children h' P = some (l ++ [N]) ∧ parentOf h' N = some P) := by
  obtain ⟨pn', hP', hc⟩ := children_eq_some.mp hl
  rw [hP] at hP'
  cases hP'
  rw [nameOf_of_read hN]
  by_cases hty : pn.type = NodeType.TYPE_FOLDER
  · by_cases hdup : ∃ c ∈ l, nameOf h c = nn.fileName
    · refine ⟨h, 0, insertNode_duplicate now hP hN hc hdup, ?_, by simp⟩
      simp only [zero_ne_one, false_iff, not_and, not_forall, not_not]
      intro _
      obtain ⟨c, hc1, hc2⟩ := hdup
      exact ⟨c, hc1, hc2⟩
    · have hdup' : ∀ c ∈ l, nameOf h c ≠ nn.fileName := by
        intro c hc1 hc2
        exact hdup ⟨c, hc1, hc2⟩
      obtain ⟨h', hins, -, hch, hpar, -⟩ := insertNode_ok now hP hty hN hc hNl hsib hdup'
      exact ⟨h', 1, hins, ⟨fun _ => ⟨hty, hdup'⟩, fun _ => rfl⟩, fun _ => ⟨hch, hpar⟩⟩
  · exact ⟨h, 0, insertNode_not_folder now hP hty, by simp [hty], by simp⟩

theorem insertNode_succeeds_iff_witness :
    ∃ h' r, insertNode sampleNew 7 (some 0) (some 2) = some (h', r) ∧
      (r = 1 ↔ NodeType.TYPE_FOLDER = NodeType.TYPE_FOLDER ∧
        ∀ c ∈ [1], nameOf sampleNew c ≠ nameOf sampleNew 2) ∧
      (r = 1 → children h' 0 = some ([1] ++ [2]) ∧ parentOf h' 2 = some 0) :=
  insertNode_succeeds_iff sampleNew 7 0 2 _ _ [1] (by rfl) (by rfl) (by decide) (by decide)
    (by rfl)

/-- C3: when `P` is a file, or a child of the directory `P` already has the
name of `N`, `insertNode` returns 0 and the heap is the one before the call, so
the child list of `P` and the parent pointer of `N` are what they were. -/
theorem insertNode_refused_unchanged (h : Heap) (now : Nat) (P N : Nat) (pn nn : FileNode)
    (l : List Nat) (hP : h.read P = some pn) (hN : h.read N = some nn)
    (hl : children h P = some l)
    (hcase : pn.type = NodeType.TYPE_FILE ∨ ∃ c ∈ l, nameOf h c = nameOf h N) :
    ∃ h', insertNode h now (some P) (some N) = some (h', 0) ∧ h' = h ∧
      children h' P = some l ∧ parentOf h' N = parentOf h N := by
  obtain ⟨pn', hP', hc⟩ := children_eq_some.mp hl
  rw [hP] at hP'
  cases hP'
  refine ⟨h, ?_, rfl, hl, rfl⟩
  rcases hcase with hty | hdup
  · exact insertNode_not_folder now hP (by rw [hty]; decide)
  · rw [nameOf_of_read hN] at hdup
    by_cases hty : pn.type = NodeType.TYPE_FOLDER
    · exact insertNode_duplicate now hP hN hc hdup
    · exact insertNode_not_folder now hP hty

theorem insertNode_refused_unchanged_witness :
    ∃ h', insertNode sampleNew 7 (some 0) (some 3) = some (h', 0) ∧ h' = sampleNew ∧
      children h' 0 = some [1] ∧ parentOf h' 3 = parentOf sampleNew 3 :=
  insertNode_refused_unchanged sampleNew 7 0 3 _ _ [1] (by rfl) (by rfl) (by decide)
    (Or.inr ⟨1, by decide, by decide⟩)

/-! ## deleteNode -/

/-- Taking a cell out of a chain: its predecessor gets its link. -/
theorem Follows.unlink {next : FileNode → Ptr} {h h' : Heap} {p : Ptr} {a b : List Nat}
    {pv c : Nat} {cn pvn' : FileNode}
    (hc : Follows next h p (a ++ pv :: c :: b)) (hcn : h.read c = some cn)
    (hpv : h'.read pv = some pvn') (hlink : next pvn' = next cn)
    (hsame : ∀ q, q ∈ a ∨ q ∈ b → (h'.read q).map next = (h.read q).map next) :
    Follows next h' p (a ++ pv :: b) := by
  induction a generalizing p with
  | nil =>
    cases p with
    | none => simp [Follows] at hc
    | some p =>
      obtain ⟨rfl, n, hn, hl⟩ := hc
      cases hx : next n with
      | none => rw [hx] at hl; simp [Follows] at hl
      | some s =>
        rw [hx] at hl
        obtain ⟨rfl, cn', hcn', hb⟩ := hl
        rw [hcn] at hcn'
        cases hcn'
        refine ⟨rfl, pvn', hpv, ?_⟩
        rw [hlink]
        exact hb.congr (fun q hq => hsame q (Or.inr hq))
  | cons y a ih =>
    cases p with
    | none => simp [Follows] at hc
    | some p =>
      obtain ⟨rfl, n, hn, hl⟩ := hc
      have hq := hsame p (Or.inl (List.mem_cons_self _ _))
      rw [hn] at hq
      obtain ⟨n', hr, hq⟩ := map_read_eq_some hq
      refine ⟨rfl, n', hr, ?_⟩
      rw [hq]
      refine ih hl (fun q hq => hsame q ?_)
      rcases hq with hq | hq
      · exact Or.inl (List.mem_cons_of_mem _ hq)
      · exact Or.inr hq

theorem deleteNode_loop_absent {h : Heap} (now P : Nat) {nm : List Char} {p : Ptr}
    {l : List Nat} (hc : IsChain h p l) {fuel : Nat} (hf : l.length ≤ fuel)
    (habs : ∀ c ∈ l, nameOf h c ≠ nm) (prev : Ptr) :
    deleteNode.loop h now P nm fuel p prev = some (h, 0) := by
  induction l generalizing p fuel prev with
  | nil =>
    cases p with
    | none => cases fuel <;> rfl
    | some p => simp [Follows] at hc
  | cons q l ih =>
    cases p with
    | none => simp [Follows] at hc
    | some p =>
      obtain ⟨rfl, n, hn, hl⟩ := hc
      cases fuel with
      | zero => simp at hf
      | succ fuel =>
        have hne : n.fileName ≠ nm := by
          have := habs p (List.mem_cons_self _ _)
          rwa [nameOf_of_read hn] at this
        simp only [deleteNode.loop, hn, if_neg hne]
        exact ih hl (by simpa using hf) (fun c hc => habs c (List.mem_cons_of_mem _ hc)) _

theorem deleteNode_loop_found {h : Heap} (now P : Nat) {nm : List Char} {p : Ptr}
    {r1 r2 : List Nat} {c : Nat} {cn : FileNode}
    (hc : IsChain h p (r1 ++ c :: r2)) {fuel : Nat} (hf : (r1 ++ c :: r2).length ≤ fuel)
    (hr1 : ∀ q ∈ r1, nameOf h q ≠ nm) (hcn : h.read c = some cn) (hnm : cn.fileName = nm)
    (prev : Ptr) :
    deleteNode.loop h now P nm fuel p prev =
      if cn.type = NodeType.TYPE_FOLDER ∧ cn.fChild ≠ none then some (h, 0)
      else deleteNode.remove h now P c cn (r1.getLast?.or prev) := by
  induction r1 generalizing p fuel prev with
  | nil =>
    cases p with
    | none => simp [Follows] at hc
    | some p =>
      obtain ⟨rfl, n, hn, hl⟩ := hc
      rw [hcn] at hn
      cases hn
      cases fuel with
      | zero => simp at hf
      | succ fuel => simp [deleteNode.loop, hcn, hnm]
  | cons x r1 ih =>
    cases p with
    | none => simp [Follows] at hc
    | some p =>
      obtain ⟨rfl, n, hn, hl⟩ := hc
      cases fuel with
      | zero => simp at hf
      | succ fuel =>
        have hne : n.fileName ≠ nm := by
          have := hr1 p (List.mem_cons_self _ _)
          rwa [nameOf_of_read hn] at this
        simp only [deleteNode.loop, hn, if_neg hne]
        rw [ih hl (by simpa using hf) (fun q hq => hr1 q (List.mem_cons_of_mem _ hq))]
        have : r1.getLast?.or (some p) = (p :: r1).getLast?.or prev := by
          rw [List.getLast?_cons]
          cases r1.getLast? <;> rfl
        rw [this]

/-- The removal step of `deleteNode` for the child `c` of `P`: the result and
every cell of the heap afterwards. -/
theorem deleteNode_remove_ok {h : Heap} (now : Nat) {P c : Nat} {pn cn : FileNode}
    {r1 r2 : List Nat} (hP : h.read P = some pn)
    (hl : IsChain h pn.fChild (r1 ++ c :: r2)) (hPl : P ∉ r1 ++ c :: r2)
    (hcn : h.read c = some cn) :
    ∃ h', deleteNode.remove h now P c cn r1.getLast? = some (h', 1) ∧
      h'.length = h.length ∧
      children h' P = some (r1 ++ r2) ∧
      h'.read c = none ∧
      h'.read P = some { pn with
        fChild := if r1 = [] then cn.nSibling else pn.fChild, modifiedTime := now } ∧
      (∀ pv, r1.getLast? = some pv →
        ∃ pvn, h.read pv = some pvn ∧ h'.read pv = some { pvn with nSibling := cn.nSibling }) ∧
      (∀ q, q ≠ c → q ≠ P → r1.getLast? ≠ some q → h'.read q = h.read q) := by
  have hnd := hl.nodup
  have hPc : P ≠ c := fun e => hPl (by simp [e])
  have hcr2 : c ∉ r2 := by
    have := (List.nodup_append.mp hnd).2.1
    exact (List.nodup_cons.mp this).1
  have hcr1 : c ∉ r1 := by
    intro hmem
    exact (List.nodup_append.mp hnd).2.2 hmem (List.mem_cons_self _ _)
  rcases List.eq_nil_or_concat' r1 with rfl | ⟨a, pv, rfl⟩
  · -- `c` is the first child
    simp only [List.nil_append] at hl hPl
    have hfc : IsChain h (some c) (c :: r2) := by
      cases hx : pn.fChild with
      | none => rw [hx] at hl; simp [Follows] at hl
      | some s =>
        rw [hx] at hl
        have hsc := hl.1
        subst hsc
        exact hl
    obtain ⟨-, cn', hcn', hr2⟩ := hfc
    rw [hcn] at hcn'
    cases hcn'
    have hP1 := Heap.read_write_same { pn with fChild := cn.nSibling } (Heap.read_lt hP)
    have hlen1 := Heap.length_write h P { pn with fChild := cn.nSibling }
    unfold deleteNode.remove
    simp only [List.getLast?_nil, hP]
    generalize hh1 : h.write P { pn with fChild := cn.nSibling } = h1 at *
    have hP2 : (h1.free c).read P = some { pn with fChild := cn.nSibling } := by
      rw [Heap.read_free_ne (Ne.symm hPc), hP1]
    have hlen2 := Heap.length_free h1 c
    simp only [hP2]
    have hc2 : (h1.free c).read c = none := Heap.read_free_same _ _
    generalize hh2 : h1.free c = h2 at *
    have hP3 := Heap.read_write_same
      { ({ pn with fChild := cn.nSibling } : FileNode) with modifiedTime := now }
      (Heap.read_lt hP2)
    have hlen3 := Heap.length_write h2 P
      { ({ pn with fChild := cn.nSibling } : FileNode) with modifiedTime := now }
    generalize hh3 : h2.write P
      { ({ pn with fChild := cn.nSibling } : FileNode) with modifiedTime := now } = h3 at *
    have hother : ∀ q, q ≠ c → q ≠ P → h3.read q = h.read q := by
      intro q hqc hqP
      rw [← hh3, Heap.read_write_ne _ (Ne.symm hqP), ← hh2, Heap.read_free_ne (Ne.symm hqc),
        ← hh1, Heap.read_write_ne _ (Ne.symm hqP)]
    refine ⟨h3, rfl, by omega, ?_, ?_, ?_, ?_, ?_⟩
    · rw [children_eq_some]
      refine ⟨_, hP3, ?_⟩
      refine hr2.congr (fun q hq => ?_)
      rw [hother q (fun e => hcr2 (e ▸ hq)) (fun e => hPl (e ▸ List.mem_cons_of_mem _ hq))]
    · rw [← hh3, Heap.read_write_ne _ hPc, hc2]
    · rw [hP3]
      simp
    · intro pv hpv
      simp at hpv
    · intro q hqc hqP _
      exact hother q hqc hqP
  · -- `c` follows `pv`
    have hPpv : P ≠ pv := fun e => hPl (by simp [e])
    have hpvc : pv ≠ c := fun e => hcr1 (by simp [← e])
    obtain ⟨pvn, hpvn⟩ := hl.cells_allocated pv (by simp)
    have hV1 := Heap.read_write_same { pvn with nSibling := cn.nSibling } (Heap.read_lt hpvn)
    have hlen1 := Heap.length_write h pv { pvn with nSibling := cn.nSibling }
    unfold deleteNode.remove
    simp only [List.getLast?_concat, hpvn]
    generalize hh1 : h.write pv { pvn with nSibling := cn.nSibling } = h1 at *
    have hP2 : (h1.free c).read P = some pn := by
      rw [Heap.read_free_ne (Ne.symm hPc), ← hh1, Heap.read_write_ne _ (Ne.symm hPpv), hP]
    have hlen2 := Heap.length_free h1 c
    simp only [hP2]
    have hc2 : (h1.free c).read c = none := Heap.read_free_same _ _
    have hV2 : (h1.free c).read pv = some { pvn with nSibling := cn.nSibling } := by
      rw [Heap.read_free_ne (Ne.symm hpvc), hV1]
    generalize hh2 : h1.free c = h2 at *
    have hP3 := Heap.read_write_same { pn with modifiedTime := now } (Heap.read_lt hP2)
    have hlen3 := Heap.length_write h2 P { pn with modifiedTime := now }
    generalize hh3 : h2.write P { pn with modifiedTime := now } = h3 at *
    have hV3 : h3.read pv = some { pvn with nSibling := cn.nSibling } := by
      rw [← hh3, Heap.read_write_ne _ hPpv, hV2]
    have hother : ∀ q, q ≠ c → q ≠ P → q ≠ pv → h3.read q = h.read q := by
      intro q hqc hqP hqv
      rw [← hh3, Heap.read_write_ne _ (Ne.symm hqP), ← hh2, Heap.read_free_ne (Ne.symm hqc),
        ← hh1, Heap.read_write_ne _ (Ne.symm hqv)]
    refine ⟨h3, rfl, by omega, ?_, ?_, ?_, ?_, ?_⟩
    · rw [children_eq_some]
      refine ⟨_, hP3, ?_⟩
      show IsChain h3 pn.fChild (a ++ [pv] ++ r2)
      rw [List.append_assoc, List.singleton_append]
      rw [List.append_assoc, List.singleton_append] at hl hnd hPl
      refine Follows.unlink hl hcn hV3 rfl (fun q hq => ?_)
      have hqn : q ≠ c ∧ q ≠ pv ∧ q ≠ P := by
        have h1' := List.nodup_append.mp hnd
        have h2' := List.nodup_cons.mp h1'.2.1
        have h3' := List.nodup_cons.mp h2'.2
        rcases hq with hq | hq
        · refine ⟨?_, ?_, ?_⟩
          · intro e
            exact h1'.2.2 hq (by rw [e]; simp)
          · intro e
            exact h1'.2.2 hq (by rw [e]; simp)
          · intro e
            exact hPl (by simp [← e, hq])
        · refine ⟨?_, ?_, ?_⟩
          · intro e
            exact h3'.1 (e ▸ hq)
          · intro e
            exact h2'.1 (by simp [← e, hq])
          · intro e
            exact hPl (by simp [← e, hq])
      rw [hother q hqn.1 hqn.2.2 hqn.2.1]
    · rw [← hh3, Heap.read_write_ne _ hPc, hc2]
    · rw [hP3]
      simp
    · intro pv' hpv'
      simp only [Option.some.injEq] at hpv'
      subst hpv'
      exact ⟨pvn, hpvn, hV3⟩
    · intro q hqc hqP hqv
      exact hother q hqc hqP (fun e => hqv (by simp [e]))

/-- The first cell of a list with a given name splits the list. -/
theorem first_named_split (h : Heap) (nm : List Char) (l : List Nat)
    (hex : ∃ c ∈ l, nameOf h c = nm) :
    ∃ r1 c r2, l = r1 ++ c :: r2 ∧ nameOf h c = nm ∧ (∀ q ∈ r1, nameOf h q ≠ nm) ∧
      l.find? (fun q => decide (nameOf h q = nm)) = some c := by
  have hsome : (l.find? (fun q => decide (nameOf h q = nm))).isSome := by
    rw [List.find?_isSome]
    obtain ⟨c, hc, hn⟩ := hex
    exact ⟨c, hc, by simpa using hn⟩
  obtain ⟨c, hc⟩ := Option.isSome_iff_exists.mp hsome
  obtain ⟨hp, r1, r2, hl, hr1⟩ := List.find?_eq_some.mp hc
  refine ⟨r1, c, r2, hl, by simpa using hp, ?_, hc⟩
  intro q hq
  simpa using hr1 q hq

/-- The three ways `deleteNode` can run on a directory with child list `l`. -/
theorem deleteNode_cases {h : Heap} (now : Nat) (root : Ptr) {P : Nat} {pn : FileNode}
    {l : List Nat} (nm : List Char) (hP : h.read P = some pn)
    (hc : IsChain h pn.fChild l) :
    ((∀ c ∈ l, nameOf h c ≠ nm) ∧
        deleteNode h now root (some P) (some nm) = some (h, 0)) ∨
    ∃ r1 c r2 cn, l = r1 ++ c :: r2 ∧ (∀ q ∈ r1, nameOf h q ≠ nm) ∧
      l.find? (fun q => decide (nameOf h q = nm)) = some c ∧
      h.read c = some cn ∧ cn.fileName = nm ∧
      ((cn.type = NodeType.TYPE_FOLDER ∧ cn.fChild ≠ none ∧
          deleteNode h now root (some P) (some nm) = some (h, 0)) ∨
        (¬(cn.type = NodeType.TYPE_FOLDER ∧ cn.fChild ≠ none) ∧
          deleteNode h now root (some P) (some nm) =
            deleteNode.remove h now P c cn r1.getLast?)) := by
  by_cases hex : ∃ c ∈ l, nameOf h c = nm
  · right
    obtain ⟨r1, c, r2, rfl, hcn, hr1, hfind⟩ := first_named_split h nm l hex
    obtain ⟨cn, hcr⟩ := hc.cells_allocated c (by simp)
    rw [nameOf_of_read hcr] at hcn
    have hloop := deleteNode_loop_found now P hc hc.length_le hr1 hcr hcn none
    rw [Option.or_none] at hloop
    refine ⟨r1, c, r2, cn, rfl, hr1, hfind, hcr, hcn, ?_⟩
    by_cases hdir : cn.type = NodeType.TYPE_FOLDER ∧ cn.fChild ≠ none
    · left
      refine ⟨hdir.1, hdir.2, ?_⟩
      simp only [deleteNode, hP, hloop, if_pos hdir]
    · right
      refine ⟨hdir, ?_⟩
      simp only [deleteNode, hP, hloop, if_neg hdir]
  · left
    have habs : ∀ c ∈ l, nameOf h c ≠ nm := fun c hc1 hc2 => hex ⟨c, hc1, hc2⟩
    refine ⟨habs, ?_⟩
    simp only [deleteNode, hP]
    exact deleteNode_loop_absent now P hc hc.length_le habs none

/-- C4: for a directory `P` with child list `l`, `deleteNode` returns 0 exactly
when no child of `P` has the name, or the first child with the name is a
directory that has a child; and when it returns 0 the heap is unchanged. -/
theorem deleteNode_fails_iff (h : Heap) (now : Nat) (root : Ptr) (P : Nat) (pn : FileNode)
    (l : List Nat) (nm : List Char) (hP : h.read P = some pn)
    (hl : children h P = some l) (hPl : P ∉ l) :
    ∃ h' r, deleteNode h now root (some P) (some nm) = some (h', r) ∧
      (r = 0 ↔ (∀ c ∈ l, nameOf h c ≠ nm) ∨
        ∃ c cn, l.find? (fun q => decide (nameOf h q = nm)) = some c ∧
          h.read c = some cn ∧ cn.type = NodeType.TYPE_FOLDER ∧ cn.fChild ≠ none) ∧
      (r = 0 → h' = h) := by
  obtain ⟨pn', hP', hc⟩ := children_eq_some.mp hl
  rw [hP] at hP'
  cases hP'
  rcases deleteNode_cases now root nm hP hc with ⟨habs, hdel⟩ |
    ⟨r1, c, r2, cn, rfl, hr1, hfind, hcr, hcn, ⟨hty, hfc, hdel⟩ | ⟨hdir, hdel⟩⟩
  · exact ⟨h, 0, hdel, ⟨fun _ => Or.inl habs, fun _ => rfl⟩, fun _ => rfl⟩
  · refine ⟨h, 0, hdel, ?_, fun _ => rfl⟩
    simp only [true_iff]
    exact Or.inr ⟨c, cn, hfind, hcr, hty, hfc⟩
  · obtain ⟨h', hrem, -⟩ := deleteNode_remove_ok now hP hc hPl hcr
    refine ⟨h', 1, hdel.trans hrem, ?_, by simp⟩
    simp only [one_ne_zero, false_iff, not_or]
    constructor
    · intro hall
      exact hall c (by simp) (by rw [nameOf_of_read hcr, hcn])
    · rintro ⟨c', cn', hf', hr', hty', hfc'⟩
      rw [hfind] at hf'
      cases hf'
      rw [hcr] at hr'
      cases hr'
      exact hdir ⟨hty', hfc'⟩

theorem deleteNode_fails_iff_witness :
    ∃ h' r, deleteNode sampleDocs 7 (some 0) (some 0) (some "docs".toList) = some (h', r) ∧
      (r = 0 ↔ (∀ c ∈ [1, 3], nameOf sampleDocs c ≠ "docs".toList) ∨
        ∃ c cn, [1, 3].find? (fun q => decide (nameOf sampleDocs q = "docs".toList)) = some c ∧
          sampleDocs.read c = some cn ∧ cn.type = NodeType.TYPE_FOLDER ∧ cn.fChild ≠ none) ∧
      (r = 0 → h' = sampleDocs) :=
  deleteNode_fails_iff sampleDocs 7 (some 0) 0 _ [1, 3] "docs".toList (by rfl) (by decide)
    (by decide)

theorem cat_loop_absent {h : Heap} {nm : List Char} {p : Ptr} {l : List Nat}
    (hc : IsChain h p l) {fuel : Nat} (hf : l.length ≤ fuel)
    (habs : ∀ c ∈ l, nameOf h c ≠ nm) :
    cat.loop h nm fuel p = some CatOutput.notFound := by
  induction l generalizing p fuel with
  | nil =>
    cases p with
    | none => cases fuel <;> rfl
    | some p => simp [Follows] at hc
  | cons q l ih =>
    cases p with
    | none => simp [Follows] at hc
    | some p =>
      obtain ⟨rfl, n, hn, hl⟩ := hc
      cases fuel with
      | zero => simp at hf
      | succ fuel =>
        have hne : n.fileName ≠ nm := by
          have := habs p (List.mem_cons_self _ _)
          rwa [nameOf_of_read hn] at this
        simp only [cat.loop, hn, if_neg hne]
        exact ih hl (by simpa using hf) (fun c hc => habs c (List.mem_cons_of_mem _ hc))

/-- C5: when the children of `P` have pairwise distinct names and `deleteNode`
returns 1, the child list of `P` is the old one without the child named `nm`,
the other children keep their order and names, and the lookup that `cat` makes
for `nm` in `P` finds nothing. -/
theorem deleteNode_removes_child (h : Heap) (now : Nat) (root : Ptr) (P : Nat)
    (pn : FileNode) (l : List Nat) (nm : List Char) (h' : Heap)
    (hP : h.read P = some pn) (hl : children h P = some l) (hPl : P ∉ l)
    (hnames : (l.map (nameOf h)).Nodup)
    (hdel : deleteNode h now root (some P) (some nm) = some (h', 1)) :
    ∃ c, c ∈ l ∧ nameOf h c = nm ∧ children h' P = some (l.erase c) ∧
      (∀ q ∈ l.erase c, nameOf h' q = nameOf h q ∧ nameOf h' q ≠ nm) ∧
      cat h' P nm = some CatOutput.notFound := by
  obtain ⟨pn', hP', hc⟩ := children_eq_some.mp hl
  rw [hP] at hP'
  cases hP'
  rcases deleteNode_cases now root nm hP hc with ⟨habs, hdel0⟩ |
    ⟨r1, c, r2, cn, rfl, hr1, hfind, hcr, hcn, ⟨hty, hfc, hdel0⟩ | ⟨hdir, hdel1⟩⟩
  · rw [hdel0] at hdel
    simp at hdel
  · rw [hdel0] at hdel
    simp at hdel
  · obtain ⟨h'', hrem, hlen, hch, hcnone, hPr, hpv, hother⟩ :=
      deleteNode_remove_ok now hP hc hPl hcr
    rw [hdel1, hrem] at hdel
    simp only [Option.some.injEq, Prod.mk.injEq, and_true] at hdel
    subst hdel
    have hnd := hc.nodup
    have hcr1 : c ∉ r1 := fun hmem =>
      (List.nodup_append.mp hnd).2.2 hmem (List.mem_cons_self _ _)
    have herase : (r1 ++ c :: r2).erase c = r1 ++ r2 := by
      rw [List.erase_append_right _ hcr1, List.erase_cons_head]
    have hcname : nameOf h c = nm := by rw [nameOf_of_read hcr, hcn]
    have hrest : ∀ q ∈ r1 ++ r2, nameOf h'' q = nameOf h q ∧ nameOf h'' q ≠ nm := by
      intro q hq
      have hql : q ∈ r1 ++ c :: r2 := by
        rcases List.mem_append.mp hq with hq | hq
        · exact List.mem_append_left _ hq
        · exact List.mem_append_right _ (List.mem_cons_of_mem _ hq)
      have hqc : q ≠ c := by
        rintro rfl
        rcases List.mem_append.mp hq with hq | hq
        · exact hcr1 hq
        · exact (List.nodup_cons.mp (List.nodup_append.mp hnd).2.1).1 hq
      have hqP : q ≠ P := fun e => hPl (e ▸ hql)
      have hsame : nameOf h'' q = nameOf h q := by
        by_cases hlast : r1.getLast? = some q
        · obtain ⟨pvn, hpvn, hpvn'⟩ := hpv q hlast
          rw [nameOf_of_read hpvn, nameOf_of_read hpvn']
        · unfold nameOf
          rw [hother q hqc hqP hlast]
      refine ⟨hsame, ?_⟩
      rw [hsame]
      intro hqn
      exact hqc (List.inj_on_of_nodup_map hnames hql (by simp) (hqn.trans hcname.symm))
    refine ⟨c, by simp, hcname, ?_, ?_, ?_⟩
    · rw [herase]
      exact hch
    · rw [herase]
      exact hrest
    · obtain ⟨pn2, hP2, hc2⟩ := children_eq_some.mp hch
      simp only [cat, hP2]
      exact cat_loop_absent hc2 hc2.length_le (fun q hq => (hrest q hq).2)

theorem deleteNode_removes_child_witness :
    ∃ c, c ∈ [2] ∧ nameOf sampleDocs c = "a.txt".toList ∧
      children sampleDocsRm 1 = some ([2].erase c) ∧
      (∀ q ∈ [2].erase c,
        nameOf sampleDocsRm q = nameOf sampleDocs q ∧ nameOf sampleDocsRm q ≠ "a.txt".toList) ∧
      cat sampleDocsRm 1 "a.txt".toList = some CatOutput.notFound :=
  deleteNode_removes_child sampleDocs 7 (some 0) 1 _ [2] "a.txt".toList sampleDocsRm (by rfl)
    (by decide) (by decide) (by decide) (by decide)

/-! ## findNode -/

/-- C7: in the tree `root/{a/{x}, x}` the search for `x` returns the node
`root/a/x` of depth 2 (its ancestor chain has three cells), although `root/x`
of depth 1 has the name as well: `findNode` puts the first child of `a` in the
queue before the siblings of `a`, so it is not a level-order search. -/
theorem findNode_not_level_order :
    findNode sampleShadow (some 0) (some "x".toList) = some (some 3) ∧
      ancestors sampleShadow 3 = some [3, 1, 0] ∧
      nameOf sampleShadow 2 = "x".toList ∧
      ancestors sampleShadow 2 = some [2, 0] ∧
      children sampleShadow 0 = some [1, 2] ∧
      children sampleShadow 1 = some [3] := by
  decide

theorem enqueue_mem {q : List Nat} {p x : Nat} (hx : x ∈ enqueue q p) : x ∈ q ∨ x = p := by
  unfold enqueue at hx
  split_ifs at hx
  · simpa using hx
  · exact Or.inl hx

theorem enqueue_length_le {q : List Nat} (p : Nat) (hq : q.length ≤ MAX_QUEUE) :
    (enqueue q p).length ≤ MAX_QUEUE := by
  unfold enqueue
  split_ifs
  · simp
    omega
  · exact hq

theorem siblings_reach {h : Heap} {r : Nat} {fuel : Nat} {p : Ptr} {q q' : List Nat}
    (hq : ∀ x ∈ q, Reach h r x) (hp : ∀ s, p = some s → Reach h r s)
    (hrun : findNode.siblings h fuel p q = some q') : ∀ x ∈ q', Reach h r x := by
  induction fuel generalizing p q with
  | zero =>
    cases p with
    | none =>
      simp only [findNode.siblings, Option.some.injEq] at hrun
      subst hrun
      exact hq
    | some s => simp [findNode.siblings] at hrun
  | succ fuel ih =>
    cases p with
    | none =>
      simp only [findNode.siblings, Option.some.injEq] at hrun
      subst hrun
      exact hq
    | some s =>
      simp only [findNode.siblings] at hrun
      cases hs : h.read s with
      | none => simp [hs] at hrun
      | some sn =>
        simp only [hs] at hrun
        refine ih ?_ ?_ hrun
        · intro x hx
          rcases enqueue_mem hx with hx | rfl
          · exact hq x hx
          · exact hp _ rfl
        · intro s' hs'
          exact Reach.sibling (hp s rfl) hs hs'

theorem siblings_length_le {h : Heap} {fuel : Nat} {p : Ptr} {q q' : List Nat}
    (hq : q.length ≤ MAX_QUEUE)
    (hrun : findNode.siblings h fuel p q = some q') : q'.length ≤ MAX_QUEUE := by
  induction fuel generalizing p q with
  | zero =>
    cases p with
    | none =>
      simp only [findNode.siblings, Option.some.injEq] at hrun
      subst hrun
      exact hq
    | some s => simp [findNode.siblings] at hrun
  | succ fuel ih =>
    cases p with
    | none =>
      simp only [findNode.siblings, Option.some.injEq] at hrun
      subst hrun
      exact hq
    | some s =>
      simp only [findNode.siblings] at hrun
      cases hs : h.read s with
      | none => simp [hs] at hrun
      | some sn =>
        simp only [hs] at hrun
        exact ih (enqueue_length_le _ hq) hrun

theorem siblings_of_chain {h : Heap} {p : Ptr} {l : List Nat} (hc : IsChain h p l)
    {fuel : Nat} (hf : l.length ≤ fuel) (q : List Nat) :
    findNode.siblings h fuel p q = some (l.foldl enqueue q) := by
  induction l generalizing p fuel q with
  | nil =>
    cases p with
    | none => cases fuel <;> rfl
    | some p => simp [Follows] at hc
  | cons x l ih =>
    cases p with
    | none => simp [Follows] at hc
    | some p =>
      obtain ⟨rfl, n, hn, hl⟩ := hc
      cases fuel with
      | zero => simp at hf
      | succ fuel =>
        simp only [findNode.siblings, hn, List.foldl_cons]
        exact ih hl (by simpa using hf) _

theorem firstChild_mem {q : List Nat} {cn : FileNode} {x : Nat}
    (hx : x ∈ findNode.firstChild q cn) : x ∈ q ∨ cn.fChild = some x := by
  unfold findNode.firstChild at hx
  cases hfc : cn.fChild with
  | none =>
    rw [hfc] at hx
    exact Or.inl hx
  | some c =>
    rw [hfc] at hx
    rcases enqueue_mem hx with hx | rfl
    · exact Or.inl hx
    · exact Or.inr rfl

theorem firstChild_length_le {q : List Nat} (cn : FileNode) (hq : q.length ≤ MAX_QUEUE) :
    (findNode.firstChild q cn).length ≤ MAX_QUEUE := by
  unfold findNode.firstChild
  cases cn.fChild with
  | none => exact hq
  | some c => exact enqueue_length_le c hq

theorem findNode_loop_exit (h : Heap) (nm : List Char) (fuel : Nat) {q : List Nat}
    {front : Nat} (hge : ¬ front < q.length) :
    findNode.loop h nm fuel q front = some (none, q) := by
  unfold findNode.loop
  rw [if_neg hge]

theorem findNode_loop_step (h : Heap) (nm : List Char) (fuel : Nat) {q : List Nat}
    {front curr : Nat} {cn : FileNode} (hg : q[front]? = some curr)
    (hr : h.read curr = some cn) :
    findNode.loop h nm (fuel + 1) q front =
      if cn.fileName = nm then some (some curr, q)
      else
        match findNode.siblings h h.length cn.nSibling (findNode.firstChild q cn) with
        | none => none
        | some queue2 => findNode.loop h nm fuel queue2 (front + 1) := by
  have hlt : front < q.length := by
    by_contra hge
    rw [List.getElem?_eq_none (by omega)] at hg
    cases hg
  rw [findNode.loop, if_pos hlt]
  simp only [hg, hr]

/-- One iteration of the outer loop, read backwards from its result. -/
theorem findNode_loop_inv {h : Heap} {nm : List Char} {fuel : Nat} {q : List Nat}
    {front : Nat} {res : Ptr} {q' : List Nat}
    (hrun : findNode.loop h nm fuel q front = some (res, q')) :
    (¬ front < q.length ∧ res = none ∧ q' = q) ∨
    ∃ fuel' curr cn, fuel = fuel' + 1 ∧ q[front]? = some curr ∧ h.read curr = some cn ∧
      ((cn.fileName = nm ∧ res = some curr ∧ q' = q) ∨
        (cn.fileName ≠ nm ∧ ∃ q2,
          findNode.siblings h h.length cn.nSibling (findNode.firstChild q cn) = some q2 ∧
          findNode.loop h nm fuel' q2 (front + 1) = some (res, q'))) := by
  by_cases hlt : front < q.length
  · right
    cases fuel with
    | zero =>
      rw [findNode.loop, if_pos hlt] at hrun
      cases hrun
    | succ fuel =>
      have hg : q[front]? = some q[front] := List.getElem?_eq_getElem hlt
      cases hr : h.read q[front] with
      | none =>
        rw [findNode.loop, if_pos hlt] at hrun
        simp only [hg, hr] at hrun
        cases hrun
      | some cn =>
        rw [findNode_loop_step h nm fuel hg hr] at hrun
        refine ⟨fuel, _, cn, rfl, hg, hr, ?_⟩
        by_cases hname : cn.fileName = nm
        · left
          rw [if_pos hname] at hrun
          simp only [Option.some.injEq, Prod.mk.injEq] at hrun
          exact ⟨hname, hrun.1.symm, hrun.2.symm⟩
        · right
          rw [if_neg hname] at hrun
          refine ⟨hname, ?_⟩
          cases hs : findNode.siblings h h.length cn.nSibling
              (findNode.firstChild q cn) with
          | none =>
            rw [hs] at hrun
            cases hrun
          | some q2 =>
            rw [hs] at hrun
            exact ⟨q2, rfl, hrun⟩
  · left
    rw [findNode_loop_exit h nm fuel hlt] at hrun
    simp only [Option.some.injEq, Prod.mk.injEq] at hrun
    exact ⟨hlt, hrun.1.symm, hrun.2.symm⟩

/-- Soundness of the outer loop: a returned node is reachable and has the name. -/
theorem findNode_loop_sound {h : Heap} {r : Nat} {nm : List Char} {fuel : Nat}
    {q : List Nat} {front : Nat} {p : Nat} {q' : List Nat}
    (hq : ∀ x ∈ q, Reach h r x)
    (hrun : findNode.loop h nm fuel q front = some (some p, q')) :
    Reach h r p ∧ nameOf h p = nm := by
  induction fuel generalizing q front with
  | zero =>
    rcases findNode_loop_inv hrun with ⟨-, hres, -⟩ | ⟨fuel', _, _, hf, -⟩
    · cases hres
    · cases hf
  | succ fuel ih =>
    rcases findNode_loop_inv hrun with ⟨-, hres, -⟩ |
      ⟨fuel', curr, cn, hf, hg, hr, ⟨hname, hres, -⟩ | ⟨-, q2, hs, hrest⟩⟩
    · cases hres
    · cases hres
      exact ⟨hq _ (List.getElem?_mem hg), by rw [nameOf_of_read hr, hname]⟩
    · cases hf
      have hcurr : Reach h r curr := hq _ (List.getElem?_mem hg)
      refine ih (siblings_reach ?_ (fun s hs' => Reach.sibling hcurr hr hs') hs) hrest
      intro x hx
      rcases firstChild_mem hx with hx | hx
      · exact hq x hx
      · exact Reach.child hcurr hr hx

/-- Termination of the outer loop on a well-linked tree. -/
theorem findNode_loop_total {h : Heap} {r : Nat} (nm : List Char) (hw : WellLinked h r)
    {fuel : Nat} {q : List Nat} {front : Nat}
    (hq : ∀ x ∈ q, Reach h r x) (hlen : q.length ≤ MAX_QUEUE)
    (hfuel : MAX_QUEUE ≤ front + fuel) :
    ∃ res q', findNode.loop h nm fuel q front = some (res, q') := by
  induction fuel generalizing q front with
  | zero =>
    exact ⟨none, q, findNode_loop_exit h nm 0 (by omega)⟩
  | succ fuel ih =>
    by_cases hlt : front < q.length
    · have hg : q[front]? = some q[front] := List.getElem?_eq_getElem hlt
      have hcurr : Reach h r q[front] := hq _ (List.getElem?_mem hg)
      obtain ⟨cn, hr, l, hl⟩ := hw _ hcurr
      rw [findNode_loop_step h nm fuel hg hr]
      by_cases hname : cn.fileName = nm
      · exact ⟨_, _, by rw [if_pos hname]⟩
      · have hs := siblings_of_chain hl hl.length_le (findNode.firstChild q cn)
        rw [if_neg hname, hs]
        have hq1 : ∀ x ∈ findNode.firstChild q cn, Reach h r x := by
          intro x hx
          rcases firstChild_mem hx with hx | hx
          · exact hq x hx
          · exact Reach.child hcurr hr hx
        exact ih (siblings_reach hq1 (fun s hs' => Reach.sibling hcurr hr hs') hs)
          (siblings_length_le (firstChild_length_le cn hlen) hs) (by omega)
    · exact ⟨none, q, findNode_loop_exit h nm _ hlt⟩

/-- On a well-linked tree `findNode` returns. -/
theorem findNode_run_total {h : Heap} {r : Nat} (nm : List Char) (hw : WellLinked h r) :
    ∃ res q', findNode.run h (some r) (some nm) = some (res, q') := by
  refine findNode_loop_total nm hw ?_ (by simp [MAX_QUEUE]) (by omega)
  intro x hx
  rw [List.mem_singleton.mp hx]
  exact Reach.root

/-- A node returned by `findNode` is reachable and has the name. -/
theorem findNode_run_sound {h : Heap} {r : Nat} {nm : List Char} {p : Nat} {q' : List Nat}
    (hrun : findNode.run h (some r) (some nm) = some (some p, q')) :
    Reach h r p ∧ nameOf h p = nm := by
  refine findNode_loop_sound ?_ hrun
  intro x hx
  rw [List.mem_singleton.mp hx]
  exact Reach.root

/-- C8: a node returned by `findNode` is reachable from the root through
`fChild` and `nSibling` links and has exactly the name that was searched; and
on a well-linked tree in which no reachable node has the name, `findNode`
returns `NULL`. -/
theorem findNode_sound_and_null (h : Heap) (r : Nat) (nm : List Char) :
    (∀ p, findNode h (some r) (some nm) = some (some p) →
      Reach h r p ∧ nameOf h p = nm) ∧
    (WellLinked h r → (∀ p, Reach h r p → nameOf h p ≠ nm) →
      findNode h (some r) (some nm) = some none) := by
  constructor
  · intro p hp
    simp only [findNode, Option.map_eq_some'] at hp
    obtain ⟨⟨res, q'⟩, hrun, hres⟩ := hp
    simp only at hres
    subst hres
    exact findNode_run_sound hrun
  · intro hw habs
    obtain ⟨res, q', hrun⟩ := findNode_run_total nm hw
    cases res with
    | none => simp only [findNode, hrun, Option.map_some']
    | some p =>
      obtain ⟨hreach, hname⟩ := findNode_run_sound hrun
      exact absurd hname (habs p hreach)

theorem enqueue_extends (q : List Nat) (p : Nat) : ∃ t, enqueue q p = q ++ t := by
  unfold enqueue
  split_ifs
  · exact ⟨[p], rfl⟩
  · exact ⟨[], by simp⟩

theorem firstChild_extends (q : List Nat) (cn : FileNode) :
    ∃ t, findNode.firstChild q cn = q ++ t := by
  unfold findNode.firstChild
  cases cn.fChild with
  | none => exact ⟨[], by simp⟩
  | some c => exact enqueue_extends q c

theorem siblings_extends {h : Heap} {fuel : Nat} {p : Ptr} {q q' : List Nat}
    (hrun : findNode.siblings h fuel p q = some q') : ∃ t, q' = q ++ t := by
  induction fuel generalizing p q with
  | zero =>
    cases p with
    | none =>
      simp only [findNode.siblings, Option.some.injEq] at hrun
      exact ⟨[], by simp [hrun]⟩
    | some s => simp [findNode.siblings] at hrun
  | succ fuel ih =>
    cases p with
    | none =>
      simp only [findNode.siblings, Option.some.injEq] at hrun
      exact ⟨[], by simp [hrun]⟩
    | some s =>
      simp only [findNode.siblings] at hrun
      cases hs : h.read s with
      | none => simp [hs] at hrun
      | some sn =>
        simp only [hs] at hrun
        obtain ⟨t, ht⟩ := ih hrun
        obtain ⟨t', ht'⟩ := enqueue_extends q s
        exact ⟨t' ++ t, by rw [ht, ht', List.append_assoc]⟩

/-- The `(back, rear)` pair that stands for the queue `q` whose slots below `k`
are held elsewhere. -/
theorem fastEnqueue_eq (q : List Nat) (k : Nat) (hk : k ≤ q.length) (p : Nat) :
    findNode.fastEnqueue ((q.drop k).reverse, q.length) p =
      (((enqueue q p).drop k).reverse, (enqueue q p).length) := by
  unfold findNode.fastEnqueue enqueue
  by_cases hlt : q.length < MAX_QUEUE
  · simp only [hlt, if_true, List.length_append, List.length_singleton]
    rw [List.drop_append_of_le_length hk]
    simp
  · simp only [hlt, if_false]

theorem fastFirstChild_eq (q : List Nat) (k : Nat) (hk : k ≤ q.length) (cn : FileNode) :
    findNode.fastFirstChild ((q.drop k).reverse, q.length) cn =
      (((findNode.firstChild q cn).drop k).reverse, (findNode.firstChild q cn).length) := by
  unfold findNode.fastFirstChild findNode.firstChild
  cases cn.fChild with
  | none => rfl
  | some c => exact fastEnqueue_eq q k hk c

theorem fastSiblings_eq (h : Heap) (fuel : Nat) (p : Ptr) (q : List Nat) (k : Nat)
    (hk : k ≤ q.length) :
    findNode.fastSiblings h fuel p ((q.drop k).reverse, q.length) =
      (findNode.siblings h fuel p q).map (fun q2 => ((q2.drop k).reverse, q2.length)) := by
  induction fuel generalizing p q with
  | zero =>
    cases p <;> simp [findNode.fastSiblings, findNode.siblings]
  | succ fuel ih =>
    cases p with
    | none => simp [findNode.fastSiblings, findNode.siblings]
    | some s =>
      simp only [findNode.fastSiblings, findNode.siblings]
      cases hs : h.read s with
      | none => simp
      | some sn =>
        simp only
        rw [fastEnqueue_eq q k hk s]
        obtain ⟨t, ht⟩ := enqueue_extends q s
        exact ih _ _ (by rw [ht]; simp; omega)

theorem drop_eq_cons_iff {l : List Nat} {n a : Nat} {t : List Nat}
    (hd : l.drop n = a :: t) : l[n]? = some a ∧ l.drop (n + 1) = t := by
  induction l generalizing n with
  | nil => simp at hd
  | cons x l ih =>
    cases n with
    | zero =>
      simp only [List.drop_zero, List.cons.injEq] at hd
      simp [hd.1, hd.2]
    | succ n =>
      simp only [List.drop_succ_cons] at hd
      simpa using ih hd

/-- The pending slots after `fastPending` are again a window of the queue. -/
theorem fastPending_eq (q : List Nat) (front k : Nat) (hfk : front ≤ k)
    (hk : k ≤ q.length) :
    ∃ k', front ≤ k' ∧ k' ≤ q.length ∧
      findNode.fastPending ((q.take k).drop front) (q.drop k).reverse =
        ((q.take k').drop front, (q.drop k').reverse) ∧
      ((q.take k').drop front = [] → ¬ front < q.length) := by
  cases hfl : (q.take k).drop front with
  | nil =>
    have hlen := congrArg List.length hfl
    simp only [List.length_drop, List.length_take, List.length_nil] at hlen
    have hkf : k = front := by omega
    subst hkf
    refine ⟨q.length, hk, le_refl _, ?_, ?_⟩
    · simp [findNode.fastPending, hfl]
    · intro hnil
      have hlen' := congrArg List.length hnil
      simp only [List.length_drop, List.length_take, List.length_nil] at hlen'
      omega
  | cons x xs =>
    refine ⟨k, hfk, hk, ?_, ?_⟩
    · simp [findNode.fastPending, hfl]
    · intro hnil
      rw [hnil] at hfl
      cases hfl

theorem fastLoop_eq (h : Heap) (nm : List Char) (fuel : Nat) (q : List Nat)
    (front k : Nat) (hfk : front ≤ k) (hk : k ≤ q.length) :
    findNode.fastLoop h nm fuel ((q.take k).drop front) (q.drop k).reverse q.length =
      (findNode.loop h nm fuel q front).map Prod.fst := by
  induction fuel generalizing q front k with
  | zero =>
    obtain ⟨k', hfk', hk', hnorm, hnil⟩ := fastPending_eq q front k hfk hk
    rw [findNode.fastLoop, hnorm]
    cases hfl : (q.take k').drop front with
    | nil =>
      rw [findNode_loop_exit h nm _ (hnil hfl)]
      rfl
    | cons curr rest =>
      have hlen := congrArg List.length hfl
      simp only [List.length_drop, List.length_take, List.length_cons] at hlen
      have hlt : front < q.length := by omega
      rw [findNode.loop, if_pos hlt]
      rfl
  | succ fuel ih =>
    obtain ⟨k', hfk', hk', hnorm, hnil⟩ := fastPending_eq q front k hfk hk
    rw [findNode.fastLoop, hnorm]
    cases hfl : (q.take k').drop front with
    | nil =>
      rw [findNode_loop_exit h nm _ (hnil hfl)]
      rfl
    | cons curr rest =>
      have hlen := congrArg List.length hfl
      simp only [List.length_drop, List.length_take, List.length_cons] at hlen
      have hlt : front < k' := by omega
      obtain ⟨hget, hrest⟩ := drop_eq_cons_iff hfl
      rw [List.getElem?_take, if_pos hlt] at hget
      simp only
      cases hr : h.read curr with
      | none =>
        rw [findNode.loop, if_pos (by omega)]
        simp only [hget, hr]
        rfl
      | some cn =>
        rw [findNode_loop_step h nm fuel hget hr]
        simp only
        by_cases hname : cn.fileName = nm
        · rw [if_pos hname, if_pos hname]
          rfl
        · rw [if_neg hname, if_neg hname]
          obtain ⟨t1, ht1⟩ := firstChild_extends q cn
          rw [fastFirstChild_eq q k' hk' cn,
            fastSiblings_eq h h.length cn.nSibling _ k' (by rw [ht1]; simp; omega)]
          cases hs : findNode.siblings h h.length cn.nSibling (findNode.firstChild q cn) with
          | none => rfl
          | some q2 =>
            obtain ⟨t2, ht2⟩ := siblings_extends hs
            have hq2 : q2 = q ++ (t1 ++ t2) := by rw [ht2, ht1, List.append_assoc]
            simp only [Option.map_some']
            have hrest' : rest = (q2.take k').drop (front + 1) := by
              rw [hq2, List.take_append_of_le_length hk', hrest]
            rw [hrest']
            exact ih q2 (front + 1) k' (by omega) (by rw [hq2]; simp; omega)

/-- The two-list search returns what `findNode` returns. -/
theorem findNode_eq_fast (h : Heap) (root : Nat) (nm : List Char) :
    findNode h (some root) (some nm) = findNode.fast h root nm := by
  have := fastLoop_eq h nm MAX_QUEUE [root] 0 1 (by omega) (by simp)
  simp only [List.take_succ_cons, List.take_zero, List.drop_zero, List.drop_succ_cons,
    List.drop_nil, List.reverse_nil, List.length_singleton] at this
  simp only [findNode, findNode.run, findNode.fast]
  exact this.symm

/-- C6 (as stated, refuted): the tree `sampleWide` is built by `mkdir`
commands, `e2` (cell 15) is an empty directory of it and `new` is a valid name;
after `createNode` and `insertNode` of `new` into `e2` the search for `new` from
the root returns `NULL`, because the queue of `findNode` is full before `e2` is
taken from it. -/
theorem findNode_misses_inserted_node :
    (match mkdirAll initialHeap 0
        ["d0", "d1", "d2", "d3", "d4", "d5", "d6", "d7", "d8", "d9", "d10", "d11"] with
      | none => none
      | some h1 =>
        match mkdir h1 0 0 12 "e0".toList with
        | none => none
        | some h2 =>
          match mkdir h2 0 0 13 "e1".toList with
          | none => none
          | some h3 => mkdir h3 0 0 14 "e2".toList) = some sampleWide ∧
    ancestors sampleWide 15 = some [15, 14, 13, 12, 0] ∧
    children sampleWide 15 = some [] ∧
    isValidName (some "new".toList) = 1 ∧
    (match createNode sampleWide 1 (some "new".toList) (some []) NodeType.TYPE_FILE with
      | (h1, node) => insertNode h1 2 (some 15) node) = some (sampleWideNew, 1) ∧
    findNode sampleWideNew (some 0) (some "new".toList) = some none := by
  refine ⟨by decide!, by decide!, by decide!, by decide!, by decide!, ?_⟩
  rw [findNode_eq_fast]
  decide!

theorem enqueue_mem_of_lt {q : List Nat} {p : Nat} {q' : List Nat} {t : List Nat}
    (hq' : q' = enqueue q p ++ t) (hlen : q'.length < MAX_QUEUE) : p ∈ q' := by
  have hlt : q.length < MAX_QUEUE := by
    obtain ⟨t', ht'⟩ := enqueue_extends q p
    rw [hq', ht'] at hlen
    simp only [List.length_append] at hlen
    omega
  rw [hq']
  unfold enqueue
  rw [if_pos hlt]
  simp

theorem siblings_first_mem {h : Heap} {fuel : Nat} {s : Nat} {q q' : List Nat}
    (hrun : findNode.siblings h fuel (some s) q = some q') (hlen : q'.length < MAX_QUEUE) :
    s ∈ q' := by
  cases fuel with
  | zero => simp [findNode.siblings] at hrun
  | succ fuel =>
    simp only [findNode.siblings] at hrun
    cases hs : h.read s with
    | none => simp [hs] at hrun
    | some sn =>
      simp only [hs] at hrun
      obtain ⟨t, ht⟩ := siblings_extends hrun
      exact enqueue_mem_of_lt ht hlen

theorem firstChild_mem_of_lt {q : List Nat} {cn : FileNode} {c : Nat} {q' t : List Nat}
    (hc : cn.fChild = some c) (hq' : q' = findNode.firstChild q cn ++ t)
    (hlen : q'.length < MAX_QUEUE) : c ∈ q' := by
  unfold findNode.firstChild at hq'
  rw [hc] at hq'
  exact enqueue_mem_of_lt hq' hlen

theorem findNode_loop_extends {h : Heap} {nm : List Char} {fuel : Nat} {q : List Nat}
    {front : Nat} {res : Ptr} {q' : List Nat}
    (hrun : findNode.loop h nm fuel q front = some (res, q')) : ∃ t, q' = q ++ t := by
  induction fuel generalizing q front with
  | zero =>
    rcases findNode_loop_inv hrun with ⟨-, -, hq⟩ | ⟨fuel', _, _, hf, -⟩
    · exact ⟨[], by simp [hq]⟩
    · cases hf
  | succ fuel ih =>
    rcases findNode_loop_inv hrun with ⟨-, -, hq⟩ |
      ⟨fuel', curr, cn, hf, hg, hr, ⟨-, -, hq⟩ | ⟨-, q2, hs, hrest⟩⟩
    · exact ⟨[], by simp [hq]⟩
    · exact ⟨[], by simp [hq]⟩
    · cases hf
      obtain ⟨t1, ht1⟩ := firstChild_extends q cn
      obtain ⟨t2, ht2⟩ := siblings_extends hs
      obtain ⟨t3, ht3⟩ := ih hrest
      exact ⟨t1 ++ t2 ++ t3, by rw [ht3, ht2, ht1]; simp⟩

/-- When the loop ends without a match and the queue never became full, every
cell of the queue has been processed. -/
theorem findNode_loop_complete {h : Heap} {nm : List Char} {fuel : Nat} {q : List Nat}
    {front : Nat} {q' : List Nat}
    (hrun : findNode.loop h nm fuel q front = some (none, q'))
    (hlen : q'.length < MAX_QUEUE) (hfront : front ≤ q.length)
    (hdone : ∀ i x, i < front → q[i]? = some x → Processed h nm q' x) :
    ∀ x ∈ q', Processed h nm q' x := by
  induction fuel generalizing q front with
  | zero =>
    rcases findNode_loop_inv hrun with ⟨hge, -, hq⟩ | ⟨fuel', _, _, hf, -⟩
    · subst hq
      intro x hx
      obtain ⟨i, hi, hxi⟩ := List.getElem_of_mem hx
      exact hdone i x (by omega) (by rw [List.getElem?_eq_getElem hi, hxi])
    · cases hf
  | succ fuel ih =>
    rcases findNode_loop_inv hrun with ⟨hge, -, hq⟩ |
      ⟨fuel', curr, cn, hf, hg, hr, ⟨-, hres, -⟩ | ⟨hname, q2, hs, hrest⟩⟩
    · subst hq
      intro x hx
      obtain ⟨i, hi, hxi⟩ := List.getElem_of_mem hx
      exact hdone i x (by omega) (by rw [List.getElem?_eq_getElem hi, hxi])
    · cases hres
    · cases hf
      obtain ⟨t1, ht1⟩ := firstChild_extends q cn
      obtain ⟨t2, ht2⟩ := siblings_extends hs
      obtain ⟨t3, ht3⟩ := findNode_loop_extends hrest
      have hlt : front < q.length := by
        by_contra hge
        rw [List.getElem?_eq_none (by omega)] at hg
        cases hg
      have hq2 : q2 = q ++ (t1 ++ t2) := by rw [ht2, ht1, List.append_assoc]
      have hq2len : q2.length < MAX_QUEUE := by
        rw [ht3] at hlen
        simp only [List.length_append] at hlen
        omega
      refine ih hrest (by rw [hq2]; simp; omega) ?_
      intro i x hi hx
      have hiq : i < q.length := by omega
      rw [hq2, List.getElem?_append_left hiq] at hx
      by_cases hif : i < front
      · exact hdone i x hif hx
      · have hifeq : i = front := by omega
        subst hifeq
        rw [hg] at hx
        cases hx
        refine ⟨cn, hr, hname, ?_, ?_⟩
        · intro c hc
          exact firstChild_mem_of_lt hc
            (show q' = findNode.firstChild q cn ++ (t2 ++ t3) by
              rw [ht3, ht2, List.append_assoc]) hlen
        · intro s hsib
          rw [hsib] at hs
          have := siblings_first_mem hs hq2len
          rw [ht3]
          exact List.mem_append_left _ this

/-- A set of processed cells that holds the root holds every reachable cell. -/
theorem reach_mem_of_processed {h : Heap} {nm : List Char} {Q : List Nat} {r : Nat}
    (hall : ∀ x ∈ Q, Processed h nm Q x) (hr : r ∈ Q) {p : Nat} (hp : Reach h r p) :
    p ∈ Q := by
  induction hp with
  | root => exact hr
  | child _ hread hc ih =>
    obtain ⟨n, hn, -, hfc, -⟩ := hall _ ih
    rw [hread] at hn
    cases hn
    exact hfc _ hc
  | sibling _ hread hs ih =>
    obtain ⟨n, hn, -, -, hsib⟩ := hall _ ih
    rw [hread] at hn
    cases hn
    exact hsib _ hs

/-- Completeness of `findNode` below the capacity of its queue: when it returns
`NULL` and the queue has not become full, no reachable node has the name. -/
theorem findNode_run_complete {h : Heap} {r : Nat} {nm : List Char} {q' : List Nat}
    (hrun : findNode.run h (some r) (some nm) = some (none, q'))
    (hlen : q'.length < MAX_QUEUE) {p : Nat} (hp : Reach h r p) : nameOf h p ≠ nm := by
  have hall := findNode_loop_complete hrun hlen (Nat.zero_le _)
    (fun i x hi _ => absurd hi (Nat.not_lt_zero i))
  obtain ⟨t, ht⟩ := findNode_loop_extends hrun
  have hr : r ∈ q' := by rw [ht]; simp
  obtain ⟨n, hn, hname, -⟩ := hall p (reach_mem_of_processed hall hr hp)
  rwa [nameOf_of_read hn]

theorem isValidName_length {n : List Char} (hv : isValidName (some n) = 1) :
    n.length ≤ 255 := by
  exact ((isValidName_eq_one n).mp hv).2.1

/-- `createNode` with a valid name: the new cell is the first one past the heap. -/
theorem createNode_valid (h : Heap) (now : Nat) {n : List Char}
    (content : Option (List Char)) (kind : NodeType) (hv : isValidName (some n) = 1) :
    createNode h now (some n) content kind =
      (h ++ [some
        { fileName := n
          fileContent := createNode.content content
          type := kind
          createdTime := now
          modifiedTime := now
          parent := none
          fChild := none
          nSibling := none }], some h.length) := by
  have hlen := isValidName_length hv
  have hname : strncpyz n MAX_NAME = n := by
    unfold strncpyz MAX_NAME
    exact List.take_of_length_le (by omega)
  simp [createNode, hv, Heap.malloc, hname]

/-- C6 (amended): in a well-linked tree with root `r`, for an empty directory
`D` of the tree and a valid name `n`, `createNode` followed by `insertNode`
into `D` succeeds, `findNode` returns, and when its queue has not become full
(fewer than `MAX_QUEUE` slots written) it returns a node whose name is `n`; the
listing of `D` is the one line for `n`. -/
theorem create_insert_findable (h : Heap) (r D : Nat) (dn : FileNode) (n : List Char)
    (content : Option (List Char)) (kind : NodeType) (nowCreate nowInsert : Nat)
    (fmt : Nat → List Char)
    (hw : WellLinked h r) (hD : Reach h r D) (hdn : h.read D = some dn)
    (hty : dn.type = NodeType.TYPE_FOLDER) (hempty : children h D = some [])
    (hv : isValidName (some n) = 1) :
    ∃ h1 N h2 res q,
      createNode h nowCreate (some n) content kind = (h1, some N) ∧
      insertNode h1 nowInsert (some D) (some N) = some (h2, 1) ∧
      findNode.run h2 (some r) (some n) = some (res, q) ∧
      (q.length < MAX_QUEUE → ∃ p, res = some p ∧ nameOf h2 p = n) ∧
      listDirectory h2 fmt (some D) false =
        some [if kind = NodeType.TYPE_FOLDER then n ++ ['/'] else n] := by
  have hfc : dn.fChild = none := by
    obtain ⟨dn', hdn', hc⟩ := children_eq_some.mp hempty
    rw [hdn] at hdn'
    cases hdn'
    cases hx : dn.fChild with
    | none => rfl
    | some c =>
      rw [hx] at hc
      simp [Follows] at hc
  have hDlt : D < h.length := Heap.read_lt hdn
  have hcreate := createNode_valid h nowCreate content kind hv
  generalize hnode : ({ fileName := n
                        fileContent := createNode.content content
                        type := kind
                        createdTime := nowCreate
                        modifiedTime := nowCreate
                        parent := none
                        fChild := none
                        nSibling := none } : FileNode) = node at hcreate
  have hnode_name : node.fileName = n := by rw [← hnode]
  have hnode_type : node.type = kind := by rw [← hnode]
  have hnode_fc : node.fChild = none := by rw [← hnode]
  have hnode_sib : node.nSibling = none := by rw [← hnode]
  have hold : ∀ q, q < h.length → Heap.read (h ++ [some node]) q = h.read q :=
    fun q hq => Heap.read_append_lt _ hq
  have hN1 : Heap.read (h ++ [some node]) h.length = some node :=
    Heap.read_append_length h node
  have hD1 : Heap.read (h ++ [some node]) D = some dn := by rw [hold D hDlt, hdn]
  have hl1 : IsChain (h ++ [some node]) dn.fChild [] := by
    rw [hfc]
    trivial
  obtain ⟨h2, hins, hsame, hch, -, -, hfcs, -, -, hsibs⟩ :=
    insertNode_ok nowInsert hD1 hty hN1 hl1 (by simp) hnode_sib (by simp)
  have hND : h.length ≠ D := by omega
  -- the cells of `h2`
  have hsib2 : ∀ q, q < h.length →
      (h2.read q).map FileNode.nSibling = (h.read q).map FileNode.nSibling := by
    intro q hq
    rw [hsibs q (by simp), hold q hq]
  have hfc2 : ∀ q, q < h.length → q ≠ D →
      (h2.read q).map FileNode.fChild = (h.read q).map FileNode.fChild := by
    intro q hq hqD
    rw [hfcs q hqD, hold q hq]
  obtain ⟨dn2, hdn2, hdn2c⟩ := children_eq_some.mp hch
  have hdn2fc : dn2.fChild = some h.length := by
    cases hx : dn2.fChild with
    | none =>
      rw [hx] at hdn2c
      simp [Follows] at hdn2c
    | some c =>
      rw [hx] at hdn2c
      rw [hdn2c.1]
  obtain ⟨nn2, hnn2, hnn2d⟩ := hsame.read_some hN1
  have hnn2sib : nn2.nSibling = none := by
    have := hsibs h.length (by simp)
    rw [hnn2, hN1] at this
    simpa [hnode_sib] using this
  have hnn2fc : nn2.fChild = none := by
    have := hfcs h.length hND
    rw [hnn2, hN1] at this
    simpa [hnode_fc] using this
  have hnn2name : nn2.fileName = n := by
    have := congrArg (fun d => d.1) hnn2d
    simpa [FileNode.data, hnode_name] using this
  have hnn2type : nn2.type = kind := by
    have := congrArg (fun d => d.2.2.1) hnn2d
    simpa [FileNode.data, hnode_type] using this
  -- reachability before and after
  have hup : ∀ p, Reach h r p → Reach h2 r p := by
    intro p hp
    induction hp with
    | root => exact Reach.root
    | @child p c pn _ hread hc ih =>
      have hpD : p ≠ D := by
        rintro rfl
        rw [hdn] at hread
        cases hread
        rw [hfc] at hc
        cases hc
      have := hfc2 p (Heap.read_lt hread) hpD
      rw [hread] at this
      obtain ⟨pn2, hpn2, hpn2c⟩ := map_read_eq_some this
      exact Reach.child ih hpn2 (hpn2c.trans hc)
    | @sibling p s pn _ hread hs ih =>
      have := hsib2 p (Heap.read_lt hread)
      rw [hread] at this
      obtain ⟨pn2, hpn2, hpn2c⟩ := map_read_eq_some this
      exact Reach.sibling ih hpn2 (hpn2c.trans hs)
  have hdown : ∀ p, Reach h2 r p → p = h.length ∨ Reach h r p := by
    intro p hp
    induction hp with
    | root => exact Or.inr Reach.root
    | @child p c pn2 _ hread hc ih =>
      rcases ih with rfl | ih
      · rw [hnn2] at hread
        cases hread
        rw [hnn2fc] at hc
        cases hc
      · by_cases hpD : p = D
        · subst hpD
          rw [hdn2] at hread
          cases hread
          rw [hdn2fc] at hc
          cases hc
          exact Or.inl rfl
        · obtain ⟨pn, hpn, -⟩ := hw p ih
          have := hfc2 p (Heap.read_lt hpn) hpD
          rw [hread, hpn] at this
          simp only [Option.map_some', Option.some.injEq] at this
          exact Or.inr (Reach.child ih hpn (this.symm.trans hc))
    | @sibling p s pn2 _ hread hs ih =>
      rcases ih with rfl | ih
      · rw [hnn2] at hread
        cases hread
        rw [hnn2sib] at hs
        cases hs
      · obtain ⟨pn, hpn, -⟩ := hw p ih
        have := hsib2 p (Heap.read_lt hpn)
        rw [hread, hpn] at this
        simp only [Option.map_some', Option.some.injEq] at this
        exact Or.inr (Reach.sibling ih hpn (this.symm.trans hs))
  have hw2 : WellLinked h2 r := by
    intro p hp
    rcases hdown p hp with rfl | hp
    · exact ⟨nn2, hnn2, [], by rw [hnn2sib]; trivial⟩
    · obtain ⟨pn, hpn, l, hl⟩ := hw p hp
      have := hsib2 p (Heap.read_lt hpn)
      rw [hpn] at this
      obtain ⟨pn2, hpn2, hpn2s⟩ := map_read_eq_some this
      refine ⟨pn2, hpn2, l, ?_⟩
      rw [hpn2s]
      refine hl.congr (fun q hq => ?_)
      obtain ⟨qn, hqn⟩ := hl.cells_allocated q hq
      exact hsib2 q (Heap.read_lt hqn)
  have hreachN : Reach h2 r h.length := Reach.child (hup D hD) hdn2 hdn2fc
  obtain ⟨res, q, hrun⟩ := findNode_run_total n hw2
  refine ⟨h ++ [some node], h.length, h2, res, q, hcreate, hins, hrun, ?_, ?_⟩
  · intro hq
    cases res with
    | none =>
      exact absurd (nameOf_of_read hnn2 ▸ hnn2name) (findNode_run_complete hrun hq hreachN)
    | some p => exact ⟨p, rfl, (findNode_run_sound hrun).2⟩
  · have hlen2 : 0 < h2.length := by
      have := Heap.read_lt hdn2
      omega
    obtain ⟨k, hk⟩ : ∃ k, h2.length = k + 1 := ⟨h2.length - 1, by omega⟩
    simp only [listDirectory, hdn2, hdn2fc, hk, listDirectory.loop, hnn2, hnn2sib]
    cases k <;>
      simp [listDirectory.loop, listDirectory.line, hnn2name, hnn2type]

/-! ## printPath -/

/-- The first loop of `printPath` on an ancestor chain: it fills the stack when
the chain fits, and writes past the array when it does not. -/
theorem printPath_push_eq {h : Heap} {p : Ptr} {up : List Nat} (hup : IsUp h p up)
    (free : Nat) (stack : List Nat) :
    printPath.push h free p stack =
      if up.length ≤ free then some (up.reverse ++ stack) else none := by
  induction up generalizing p free stack with
  | nil =>
    cases p with
    | none => cases free <;> simp [printPath.push]
    | some p => simp [Follows] at hup
  | cons q up ih =>
    cases p with
    | none => simp [Follows] at hup
    | some p =>
      obtain ⟨rfl, n, hn, hl⟩ := hup
      cases free with
      | zero => simp [printPath.push]
      | succ free =>
        simp only [printPath.push, hn, ih hl, List.length_cons, Nat.add_le_add_iff_right,
          List.reverse_cons, List.append_assoc, List.singleton_append]

theorem joinNames_cons_cons (h : Heap) (p q : Nat) (l : List Nat) :
    joinNames h (p :: q :: l) = nameOf h p ++ '/' :: joinNames h (q :: l) := rfl

/-- The second loop of `printPath`: the names joined by `/` when they fit in
the buffer `path`. -/
theorem printPath_render_eq {h : Heap} {stack : List Nat}
    (halloc : ∀ q ∈ stack, ∃ n, h.read q = some n) (hne : stack ≠ []) (path : List Char) :
    printPath.render h stack path =
      if (path ++ joinNames h stack).length < MAX_PATH_LENGTH then
        some (path ++ joinNames h stack)
      else none := by
  induction stack generalizing path with
  | nil => exact absurd rfl hne
  | cons t rest ih =>
    obtain ⟨tn, htn⟩ := halloc t (List.mem_cons_self _ _)
    cases rest with
    | nil =>
      simp only [printPath.render, htn, strcatPath, joinNames, nameOf_of_read htn]
      split_ifs <;> simp_all
    | cons u rest =>
      have ih' := ih (fun q hq => halloc q (List.mem_cons_of_mem _ hq)) (by simp)
      rw [printPath.render]
      simp only [htn, strcatPath, joinNames_cons_cons, nameOf_of_read htn]
      by_cases h1 : (path ++ tn.fileName).length < MAX_PATH_LENGTH
      · simp only [h1, if_true, ne_eq, reduceCtorEq, not_false_eq_true]
        by_cases h2 : (path ++ tn.fileName ++ ['/']).length < MAX_PATH_LENGTH
        · simp only [h2, if_true]
          rw [ih']
          simp only [List.append_assoc, List.singleton_append]
        · simp only [h2, if_false]
          rw [if_neg]
          simp only [List.length_append, List.length_cons, List.length_singleton,
            List.length_nil] at h2 ⊢
          omega
      · simp only [h1, if_false]
        rw [if_neg]
        simp only [List.length_append, List.length_cons] at h1 ⊢
        omega

/-- The path that `printPath` builds for a node with ancestor chain `up`
(node first, root last): the names from the root down joined by `/`, when the
chain fits in the stack of 100 entries and the path in the buffer. -/
theorem printPath_path_eq {h : Heap} {p : Nat} {up : List Nat} (hup : IsUp h (some p) up) :
    printPath.path h p =
      if up.length ≤ STACK_SIZE ∧ (joinNames h up.reverse).length < MAX_PATH_LENGTH then
        some (joinNames h up.reverse)
      else none := by
  have hne : up ≠ [] := by
    rintro rfl
    simp [Follows] at hup
  unfold printPath.path
  rw [printPath_push_eq hup]
  by_cases hfit : up.length ≤ STACK_SIZE
  · simp only [hfit, if_true, List.append_nil, true_and]
    rw [printPath_render_eq (fun q hq => hup.cells_allocated q (List.mem_reverse.mp hq))
      (by simpa using hne)]
    simp
  · simp [hfit]

theorem count_slash_joinNames (h : Heap) (l : List Nat) (hne : l ≠ [])
    (hnames : ∀ q ∈ l, '/' ∉ nameOf h q) :
    (joinNames h l).count '/' = l.length - 1 := by
  induction l with
  | nil => exact absurd rfl hne
  | cons t rest ih =>
    cases rest with
    | nil =>
      simp only [joinNames, List.length_singleton, Nat.sub_self]
      exact List.count_eq_zero.mpr (hnames t (by simp))
    | cons u rest =>
      rw [joinNames_cons_cons, List.count_append, List.count_cons_self,
        ih (by simp) (fun q hq => hnames q (List.mem_cons_of_mem _ hq)),
        List.count_eq_zero.mpr (hnames t (by simp))]
      simp

/-- Within the two arrays of `printPath` the path is right: for a node whose
ancestor chain `up` (node first, root last) has at most 100 cells, with valid
names and a path shorter than the buffer, `printPath` builds the names from the
root down joined by `/`, with one `/` for each level of depth. -/
theorem printPath_within_bounds {h : Heap} {p : Nat} {up : List Nat}
    (hup : ancestors h p = some up) (hdepth : up.length ≤ STACK_SIZE)
    (hfit : (joinNames h up.reverse).length < MAX_PATH_LENGTH)
    (hvalid : ∀ q ∈ up, isValidName (some (nameOf h q)) = 1) :
    printPath.path h p = some (joinNames h up.reverse) ∧
      (joinNames h up.reverse).count '/' = up.length - 1 := by
  have hup' : IsUp h (some p) up := ancestors_eq_some.mp hup
  have hne : up ≠ [] := by
    rintro rfl
    simp [Follows] at hup'
  refine ⟨by rw [printPath_path_eq hup', if_pos ⟨hdepth, hfit⟩], ?_⟩
  rw [count_slash_joinNames h up.reverse (by simpa using hne), List.length_reverse]
  intro q hq hmem
  have := ((isValidName_eq_one (nameOf h q)).mp (hvalid q (List.mem_reverse.mp hq))).2.2.1
  exact (this '/' hmem).1 rfl

/-- C9 (the code at a failing input): `deepChain` is the tree that 100 rounds
of `mkdir d`, `cd d` build, all its names are valid and its last directory has
depth 100 (101 cells on its ancestor chain).  For the directory of depth 99
`printPath` prints a path, for the one of depth 100 it has no result: the
101st `stack[++top] = temp` writes outside `stack[100]`. -/
theorem printPath_overflows_at_depth_100 :
    nestDirs 100 initialHeap 0 = some (deepChain, 100) ∧
    (ancestors deepChain 100).map List.length = some 101 ∧
    deepChain.all (fun c =>
      match c with
      | some n => decide (isValidName (some n.fileName) = 1)
      | none => true) = true ∧
    (printPath deepChain (some 99)).isSome = true ∧
    printPath deepChain (some 100) = none := by
  decide!

/-! ## mv -/

theorem mv_detach_found {h : Heap} (A : Nat) {x : Nat} {xn : FileNode} {p : Ptr}
    {r1 r2 : List Nat} (hc : IsChain h p (r1 ++ x :: r2)) {fuel : Nat}
    (hf : (r1 ++ x :: r2).length ≤ fuel) (hx : h.read x = some xn) (prev : Ptr) :
    mv.detach h A x fuel p prev = mv.unlink h A x xn (r1.getLast?.or prev) := by
  have hnd := hc.nodup
  induction r1 generalizing p fuel prev with
  | nil =>
    cases p with
    | none => simp [Follows] at hc
    | some p =>
      obtain ⟨rfl, n, hn, hl⟩ := hc
      cases fuel with
      | zero => simp at hf
      | succ fuel => simp [mv.detach, hx]
  | cons y r1 ih =>
    cases p with
    | none => simp [Follows] at hc
    | some p =>
      obtain ⟨rfl, n, hn, hl⟩ := hc
      cases fuel with
      | zero => simp at hf
      | succ fuel =>
        have hne : p ≠ x := by
          intro e
          have := (List.nodup_cons.mp hnd).1
          exact this (by simp [e])
        simp only [mv.detach, hn, if_neg hne]
        rw [ih hl (by simpa using hf) _ (List.nodup_cons.mp hnd).2]
        have : r1.getLast?.or (some p) = (p :: r1).getLast?.or prev := by
          rw [List.getLast?_cons]
          cases r1.getLast? <;> rfl
        rw [this]

/-- Taking the child `x` out of the child list of `A`, as `mv` does: the result
and the fields of the cells afterwards. -/
theorem mv_unlink_ok {h : Heap} {A x : Nat} {an xn : FileNode} {r1 r2 : List Nat}
    (hA : h.read A = some an) (hl : IsChain h an.fChild (r1 ++ x :: r2))
    (hx : h.read x = some xn) :
    ∃ h', mv.unlink h A x xn r1.getLast? = some h' ∧
      SameData h h' ∧
      children h' A = some (r1 ++ r2) ∧
      (∀ q, (h'.read q).map FileNode.parent = (h.read q).map FileNode.parent) ∧
      (∀ q, (h'.read q).map FileNode.modifiedTime = (h.read q).map FileNode.modifiedTime) ∧
      (∀ q, q ≠ A → (h'.read q).map FileNode.fChild = (h.read q).map FileNode.fChild) ∧
      (∀ q, q ≠ x → r1.getLast? ≠ some q →
        (h'.read q).map FileNode.nSibling = (h.read q).map FileNode.nSibling) ∧
      (h'.read x).map FileNode.nSibling = some none := by
  have hnd := hl.nodup
  have hxr2 : x ∉ r2 := (List.nodup_cons.mp (List.nodup_append.mp hnd).2.1).1
  have hxr1 : x ∉ r1 := fun hmem =>
    (List.nodup_append.mp hnd).2.2 hmem (List.mem_cons_self _ _)
  have htail : IsChain h xn.nSibling r2 := by
    obtain ⟨-, xn', hxn', hr2⟩ := (Follows.tail_from hl : IsChain h (some x) (x :: r2))
    rw [hx] at hxn'
    cases hxn'
    exact hr2
  unfold mv.unlink
  rcases List.eq_nil_or_concat' r1 with rfl | ⟨a, pv, rfl⟩
  · -- `x` is the first child
    simp only [List.getLast?_nil, hA]
    obtain ⟨xn1, hxn1⟩ := Heap.read_write_some { an with fChild := xn.nSibling } hA hx
    have hA1 := Heap.read_write_same { an with fChild := xn.nSibling } (Heap.read_lt hA)
    have hlen1 := Heap.length_write h A { an with fChild := xn.nSibling }
    have k1 : ∀ {α : Type} (f : FileNode → α), (∀ n v, f { n with fChild := v } = f n) →
        ∀ q, ((h.write A { an with fChild := xn.nSibling }).read q).map f =
          (h.read q).map f :=
      fun f hf q => Heap.map_read_write f _ hA (hf _ _) q
    generalize hh1 : h.write A { an with fChild := xn.nSibling } = h1 at *
    simp only [hxn1]
    have hX2 := Heap.read_write_same { xn1 with nSibling := none } (Heap.read_lt hxn1)
    have hlen2 := Heap.length_write h1 x { xn1 with nSibling := none }
    have k2 : ∀ {α : Type} (f : FileNode → α), (∀ n v, f { n with nSibling := v } = f n) →
        ∀ q, ((h1.write x { xn1 with nSibling := none }).read q).map f = (h1.read q).map f :=
      fun f hf q => Heap.map_read_write f _ hxn1 (hf _ _) q
    have n2 : ∀ q, q ≠ x →
        (h1.write x { xn1 with nSibling := none }).read q = h1.read q :=
      fun q hq => Heap.read_write_ne _ (Ne.symm hq)
    generalize hh2 : h1.write x { xn1 with nSibling := none } = h2 at *
    have hsib : ∀ q, q ≠ x →
        (h2.read q).map FileNode.nSibling = (h.read q).map FileNode.nSibling := by
      intro q hq
      rw [n2 q hq, k1 FileNode.nSibling (fun _ _ => rfl)]
    refine ⟨h2, rfl, ⟨by omega, fun q => ?_⟩, ?_, fun q => ?_, fun q => ?_, fun q hq => ?_,
      fun q hq _ => hsib q hq, ?_⟩
    · rw [k2 FileNode.data (fun _ _ => rfl), k1 FileNode.data (fun _ _ => rfl)]
    · rw [children_eq_some]
      have hfc : (h2.read A).map FileNode.fChild = some xn.nSibling := by
        rw [k2 FileNode.fChild (fun _ _ => rfl), hA1]
        rfl
      obtain ⟨an2, han2, han2c⟩ := map_read_eq_some hfc
      refine ⟨an2, han2, ?_⟩
      rw [han2c]
      exact htail.congr (fun q hq => hsib q (fun e => hxr2 (e ▸ hq)))
    · rw [k2 FileNode.parent (fun _ _ => rfl), k1 FileNode.parent (fun _ _ => rfl)]
    · rw [k2 FileNode.modifiedTime (fun _ _ => rfl), k1 FileNode.modifiedTime (fun _ _ => rfl)]
    · rw [k2 FileNode.fChild (fun _ _ => rfl), ← hh1, Heap.read_write_ne _ (Ne.symm hq)]
    · rw [hX2]
      rfl
  · -- `x` follows `pv`
    have hpvx : pv ≠ x := fun e => hxr1 (by simp [← e])
    obtain ⟨pvn, hpvn⟩ := hl.cells_allocated pv (by simp)
    simp only [List.getLast?_concat, hpvn]
    have hV1 := Heap.read_write_same { pvn with nSibling := xn.nSibling } (Heap.read_lt hpvn)
    have hX1 : (h.write pv { pvn with nSibling := xn.nSibling }).read x = some xn := by
      rw [Heap.read_write_ne _ hpvx, hx]
    have hlen1 := Heap.length_write h pv { pvn with nSibling := xn.nSibling }
    have k1 : ∀ {α : Type} (f : FileNode → α), (∀ n v, f { n with nSibling := v } = f n) →
        ∀ q, ((h.write pv { pvn with nSibling := xn.nSibling }).read q).map f =
          (h.read q).map f :=
      fun f hf q => Heap.map_read_write f _ hpvn (hf _ _) q
    have n1 : ∀ q, q ≠ pv →
        (h.write pv { pvn with nSibling := xn.nSibling }).read q = h.read q :=
      fun q hq => Heap.read_write_ne _ (Ne.symm hq)
    generalize hh1 : h.write pv { pvn with nSibling := xn.nSibling } = h1 at *
    simp only [hX1]
    have hX2 := Heap.read_write_same { xn with nSibling := none } (Heap.read_lt hX1)
    have hlen2 := Heap.length_write h1 x { xn with nSibling := none }
    have k2 : ∀ {α : Type} (f : FileNode → α), (∀ n v, f { n with nSibling := v } = f n) →
        ∀ q, ((h1.write x { xn with nSibling := none }).read q).map f = (h1.read q).map f :=
      fun f hf q => Heap.map_read_write f _ hX1 (hf _ _) q
    have n2 : ∀ q, q ≠ x →
        (h1.write x { xn with nSibling := none }).read q = h1.read q :=
      fun q hq => Heap.read_write_ne _ (Ne.symm hq)
    generalize hh2 : h1.write x { xn with nSibling := none } = h2 at *
    have keep : ∀ {α : Type} (f : FileNode → α), (∀ n v, f { n with nSibling := v } = f n) →
        ∀ q, (h2.read q).map f = (h.read q).map f := by
      intro α f hf q
      rw [k2 f hf, k1 f hf]
    refine ⟨h2, rfl, ⟨by omega, keep FileNode.data (fun _ _ => rfl)⟩, ?_,
      keep FileNode.parent (fun _ _ => rfl), keep FileNode.modifiedTime (fun _ _ => rfl),
      fun q _ => keep FileNode.fChild (fun _ _ => rfl) q, fun q hq hlast => ?_, ?_⟩
    · rw [children_eq_some]
      have hfc := keep FileNode.fChild (fun _ _ => rfl) A
      rw [hA] at hfc
      obtain ⟨an2, han2, han2c⟩ := map_read_eq_some hfc
      refine ⟨an2, han2, ?_⟩
      rw [han2c]
      show IsChain h2 an.fChild (a ++ [pv] ++ r2)
      rw [List.append_assoc, List.singleton_append]
      rw [List.append_assoc, List.singleton_append] at hl hnd
      have hV2 : h2.read pv = some { pvn with nSibling := xn.nSibling } := by
        rw [n2 pv hpvx, hV1]
      refine Follows.unlink hl hx hV2 rfl (fun q hq => ?_)
      have h1' := List.nodup_append.mp hnd
      have h2' := List.nodup_cons.mp h1'.2.1
      have hqn : q ≠ x ∧ q ≠ pv := by
        rcases hq with hq | hq
        · exact ⟨fun e => h1'.2.2 hq (by rw [e]; simp), fun e => h1'.2.2 hq (by rw [e]; simp)⟩
        · exact ⟨fun e => hxr2 (e ▸ hq), fun e => h2'.1 (by simp [← e, hq])⟩
      rw [n2 q hqn.1, n1 q hqn.2]
    · rw [n2 q hq, n1 q (fun e => hlast (by simp [e]))]
    · rw [hX2]
      rfl

theorem joinNames_congr {h h' : Heap} (l : List Nat)
    (hn : ∀ q ∈ l, nameOf h' q = nameOf h q) : joinNames h' l = joinNames h l := by
  induction l with
  | nil => rfl
  | cons t rest ih =>
    cases rest with
    | nil => simp [joinNames, hn t (by simp)]
    | cons u rest =>
      rw [joinNames_cons_cons, joinNames_cons_cons, hn t (by simp),
        ih (fun q hq => hn q (List.mem_cons_of_mem _ hq))]

theorem joinNames_snoc (h : Heap) (l : List Nat) (hne : l ≠ []) (x : Nat) :
    joinNames h (l ++ [x]) = joinNames h l ++ '/' :: nameOf h x := by
  induction l with
  | nil => exact absurd rfl hne
  | cons t rest ih =>
    cases rest with
    | nil => simp [joinNames]
    | cons u rest =>
      have := ih (by simp)
      simp only [List.cons_append] at this ⊢
      rw [joinNames_cons_cons, joinNames_cons_cons, this]
      simp

theorem parentOf_of_read {h : Heap} {q : Nat} {n : FileNode} (hq : h.read q = some n) :
    parentOf h q = n.parent := by
  simp [parentOf, hq]

/-- C10 (amended): when `mv` resolves the source name to `x`, a child of `A`,
and the destination name to the directory `B`, with `A ≠ B`, no node in both
child lists, `x` not on the ancestor chain of `B` (so `B` is neither `x` nor
inside `x`), and the final `insertNode` returns 1, then afterwards `x` is not a
child of `A`, it is the last child of `B`, its parent is `B`, and (for paths
that fit the stack and the buffer of `printPath`) the path of `x` is the path of
`B` followed by `/` and the name of `x`. -/
theorem mv_moves_node (h : Heap) (now root : Nat) (src dst : List Char) (x A B : Nat)
    (xn : FileNode) (lA lB up : List Nat) (pB : List Char) (h' : Heap)
    (hsrc : findNode h (some root) (some src) = some (some x))
    (hdst : findNode h (some root) (some dst) = some (some B))
    (hx : h.read x = some xn) (hpar : xn.parent = some A)
    (hA : children h A = some lA) (hxA : x ∈ lA)
    (hB : children h B = some lB) (hAB : A ≠ B) (hdisj : ∀ q ∈ lA, q ∉ lB)
    (hup : ancestors h B = some up) (hxup : x ∉ up)
    (hpB : printPath.path h B = some pB) (hdepth : up.length < STACK_SIZE)
    (hfit : pB.length + 1 + xn.fileName.length < MAX_PATH_LENGTH)
    (hmv : mv h now root src dst = some (h', 1)) :
    children h' A = some (lA.erase x) ∧ x ∉ lA.erase x ∧
      children h' B = some (lB ++ [x]) ∧ parentOf h' x = some B ∧
      printPath.path h' B = some pB ∧
      printPath.path h' x = some (pB ++ '/' :: xn.fileName) := by
  obtain ⟨an, hAr, hcA⟩ := children_eq_some.mp hA
  obtain ⟨bn, hBr, hcB⟩ := children_eq_some.mp hB
  obtain ⟨r1, r2, rfl⟩ := List.append_of_mem hxA
  have hndA := hcA.nodup
  have hxr1 : x ∉ r1 := fun hmem =>
    (List.nodup_append.mp hndA).2.2 hmem (List.mem_cons_self _ _)
  have hxr2 : x ∉ r2 := (List.nodup_cons.mp (List.nodup_append.mp hndA).2.1).1
  have herase : (r1 ++ x :: r2).erase x = r1 ++ r2 := by
    rw [List.erase_append_right _ hxr1, List.erase_cons_head]
  have hxlB : x ∉ lB := hdisj x (by simp)
  -- the run of `mv`
  have hty : bn.type = NodeType.TYPE_FOLDER := by
    by_contra hne
    simp [mv, hsrc, hdst, hBr, hne] at hmv
  obtain ⟨h1, hunl, hsame1, hchA1, hpar1, -, hfc1, hsib1, hxsib1⟩ := mv_unlink_ok hAr hcA hx
  have hdet : mv.detach h A x h.length an.fChild none = some h1 := by
    rw [mv_detach_found A hcA hcA.length_le hx none, Option.or_none, hunl]
  have hins : insertNode h1 now (some B) (some x) = some (h', 1) := by
    simpa [mv, hsrc, hdst, hBr, hty, hx, hpar, hAr, hdet] using hmv
  -- the heap after the detach
  obtain ⟨bn1, hBr1, hbn1d⟩ := hsame1.read_some hBr
  have hty1 : bn1.type = NodeType.TYPE_FOLDER := by
    have := congrArg (fun d => d.2.2.1) hbn1d
    simpa [FileNode.data, hty] using this
  have hfcB1 : bn1.fChild = bn.fChild := by
    have := hfc1 B (Ne.symm hAB)
    rw [hBr1, hBr] at this
    simpa using this
  have hlast_mem : ∀ q, r1.getLast? = some q → q ∈ r1 ++ x :: r2 := fun q hq =>
    List.mem_append_left _ (List.mem_of_getLast?_eq_some hq)
  have hcB1 : IsChain h1 bn1.fChild lB := by
    rw [hfcB1]
    refine hcB.congr (fun q hq => hsib1 q (fun e => hxlB (e ▸ hq)) (fun e => ?_))
    exact hdisj q (hlast_mem q e) hq
  obtain ⟨xn1, hxr1', hxn1s⟩ := map_read_eq_some hxsib1
  obtain ⟨xn1', hxr1'', hxn1d⟩ := hsame1.read_some hx
  rw [hxr1'] at hxr1''
  cases hxr1''
  have hxname1 : xn1.fileName = xn.fileName := by
    have := congrArg (fun d => d.1) hxn1d
    simpa [FileNode.data] using this
  have hnodup : ∀ c ∈ lB, nameOf h1 c ≠ xn1.fileName := by
    intro c hc hcn
    rw [insertNode_duplicate now hBr1 hxr1' hcB1 ⟨c, hc, hcn⟩] at hins
    simp at hins
  obtain ⟨h'', hins', hsame2, hchB2, hparx, hpar2, hfc2, -, -, hsib2⟩ :=
    insertNode_ok now hBr1 hty1 hxr1' hcB1 hxlB hxn1s hnodup
  rw [hins] at hins'
  simp only [Option.some.injEq, Prod.mk.injEq, and_true] at hins'
  subst hins'
  have hsame := hsame1.trans hsame2
  -- the child list of `A`
  have hchA2 : children h' A = some (r1 ++ r2) := by
    obtain ⟨an1, hAr1, hcA1⟩ := children_eq_some.mp hchA1
    have := hfc2 A hAB
    rw [hAr1] at this
    obtain ⟨an2, hAr2, han2c⟩ := map_read_eq_some this
    rw [children_eq_some]
    refine ⟨an2, hAr2, ?_⟩
    rw [han2c]
    refine hcA1.congr (fun q hq => hsib2 q (fun e => ?_))
    have hqA : q ∈ r1 ++ x :: r2 := by
      rcases List.mem_append.mp hq with hq | hq
      · exact List.mem_append_left _ hq
      · exact List.mem_append_right _ (List.mem_cons_of_mem _ hq)
    exact hdisj q hqA (List.mem_of_getLast?_eq_some e)
  -- the ancestor chains
  have hupB : IsUp h (some B) up := ancestors_eq_some.mp hup
  have hupB' : IsUp h' (some B) up := by
    refine hupB.congr (fun q hq => ?_)
    rw [hpar2 q (fun e => hxup (e ▸ hq)), hpar1 q]
  obtain ⟨xn2, hxr2', hxn2d⟩ := hsame.read_some hx
  have hxpar2 : xn2.parent = some B := by
    rw [← parentOf_of_read hxr2', hparx]
  have hupx' : IsUp h' (some x) (x :: up) := ⟨rfl, xn2, hxr2', by rw [hxpar2]; exact hupB'⟩
  have hupne : up ≠ [] := by
    rintro rfl
    simp [Follows] at hupB
  have hnames : ∀ l : List Nat, joinNames h' l = joinNames h l :=
    fun l => joinNames_congr l (fun q _ => hsame.nameOf_eq q)
  have hxname : nameOf h' x = xn.fileName := by
    rw [hsame.nameOf_eq, nameOf_of_read hx]
  have hBpath := printPath_path_eq hupB
  rw [hpB] at hBpath
  have hcond : up.length ≤ STACK_SIZE ∧
      (joinNames h up.reverse).length < MAX_PATH_LENGTH := by
    by_contra hn
    rw [if_neg hn] at hBpath
    cases hBpath
  rw [if_pos hcond] at hBpath
  simp only [Option.some.injEq] at hBpath
  refine ⟨by rw [herase]; exact hchA2, ?_, hchB2, hparx, ?_, ?_⟩
  · rw [herase]
    intro hmem
    rcases List.mem_append.mp hmem with hm | hm
    · exact hxr1 hm
    · exact hxr2 hm
  · rw [printPath_path_eq hupB', hnames, if_pos hcond, hBpath]
  · rw [printPath_path_eq hupx', List.reverse_cons,
      joinNames_snoc h' _ (by simpa using hupne), hnames, ← hBpath, hxname, if_pos]
    refine ⟨by simp only [List.length_cons]; omega, ?_⟩
    simp only [List.length_append, List.length_cons]
    omega

/-! ## Witnesses on the sample heaps -/

theorem mem_of_read {h : Heap} {p : Nat} {n : FileNode} (hp : h.read p = some n) :
    some n ∈ h := by
  unfold Heap.read at hp
  cases hg : h.get? p with
  | none =>
    rw [hg] at hp
    cases hp
  | some c =>
    rw [hg] at hp
    simp only [Option.join] at hp
    subst hp
    exact List.get?_mem hg

/-- The check `linksCheck` is enough for `WellLinked`. -/
theorem wellLinked_of_check {h : Heap} {r : Nat} (hc : linksCheck h = true)
    (hr : (h.read r).isSome = true) : WellLinked h r := by
  have hcell : ∀ p n, h.read p = some n →
      (∀ c, n.fChild = some c → (h.read c).isSome = true) ∧
      ∃ l, IsChain h n.nSibling l := by
    intro p n hp
    have hall := List.all_eq_true.mp hc (some n) (mem_of_read hp)
    simp only [Bool.and_eq_true] at hall
    refine ⟨fun c hfc => ?_, ?_⟩
    · have := hall.1
      rw [hfc] at this
      exact this
    · obtain ⟨l, hl⟩ := Option.isSome_iff_exists.mp hall.2
      exact ⟨l, follows_of_walk hl⟩
  have halloc : ∀ p, Reach h r p → ∃ n, h.read p = some n := by
    intro p hp
    induction hp with
    | root => exact Option.isSome_iff_exists.mp hr
    | child _ hread hfc _ => exact Option.isSome_iff_exists.mp ((hcell _ _ hread).1 _ hfc)
    | sibling _ hread hs _ =>
      obtain ⟨l, hl⟩ := (hcell _ _ hread).2
      rw [hs] at hl
      obtain ⟨n', l', hn', -, -⟩ := Follows.some_iff.mp hl
      exact ⟨n', hn'⟩
  intro p hp
  obtain ⟨n, hn⟩ := halloc p hp
  exact ⟨n, hn, (hcell p n hn).2⟩

theorem reach_lt_length {h : Heap} {r p : Nat} (hw : WellLinked h r) (hp : Reach h r p) :
    p < h.length := by
  obtain ⟨n, hn, -⟩ := hw p hp
  exact Heap.read_lt hn

theorem findNode_sound_and_null_witness :
    (Reach sampleShadow 0 3 ∧ nameOf sampleShadow 3 = "x".toList) ∧
      findNode sampleShadow (some 0) (some "zz".toList) = some none :=
  ⟨(findNode_sound_and_null sampleShadow 0 "x".toList).1 3 (by decide),
    (findNode_sound_and_null sampleShadow 0 "zz".toList).2
      (wellLinked_of_check (by decide) (by decide))
      (fun p hp => by
        have hlt : p < 4 := reach_lt_length (wellLinked_of_check (by decide) (by decide)) hp
        interval_cases p <;> decide)⟩

theorem create_insert_findable_witness :
    ∃ h1 N h2 res q,
      createNode sampleDir 1 (some "new".toList) none NodeType.TYPE_FILE = (h1, some N) ∧
      insertNode h1 2 (some 1) (some N) = some (h2, 1) ∧
      findNode.run h2 (some 0) (some "new".toList) = some (res, q) ∧
      (q.length < MAX_QUEUE → ∃ p, res = some p ∧ nameOf h2 p = "new".toList) ∧
      listDirectory h2 (fun _ => []) (some 1) false =
        some [if NodeType.TYPE_FILE = NodeType.TYPE_FOLDER then "new".toList ++ ['/']
          else "new".toList] :=
  create_insert_findable sampleDir 0 1 _ "new".toList none NodeType.TYPE_FILE 1 2
    (fun _ => []) (wellLinked_of_check (by decide) (by decide))
    (Reach.child Reach.root (by rfl) (by rfl)) (by rfl) (by rfl) (by decide) (by decide)

/-- C10 (as stated, refuted): in `root/{docs/{a.txt}, b}` the command
`mv b root` resolves the source to `b` (cell 3), a child of the root, and the
destination to the root itself; the final `insertNode` returns 1 and `b` is
still among the children of the directory it was taken from. -/
theorem mv_into_own_parent_keeps_child :
    findNode sampleDocs (some 0) (some "b".toList) = some (some 3) ∧
    parentOf sampleDocs 3 = some 0 ∧
    children sampleDocs 0 = some [1, 3] ∧
    findNode sampleDocs (some 0) (some "root".toList) = some (some 0) ∧
    (mv sampleDocs 7 0 "b".toList "root".toList).map
      (fun r => (r.2, children r.1 0)) = some (1, some [1, 3]) := by
  decide

theorem mv_moves_node_witness :
    children sampleDocsMv 1 = some ([2].erase 2) ∧ 2 ∉ [2].erase 2 ∧
      children sampleDocsMv 0 = some ([1, 3] ++ [2]) ∧ parentOf sampleDocsMv 2 = some 0 ∧
      printPath.path sampleDocsMv 0 = some "root".toList ∧
      printPath.path sampleDocsMv 2 = some ("root".toList ++ '/' :: "a.txt".toList) :=
  mv_moves_node sampleDocs 7 0 "a.txt".toList "root".toList 2 1 0 _ [2] [1, 3] [0]
    "root".toList sampleDocsMv (by decide) (by decide) (by rfl) (by rfl) (by decide)
    (by decide) (by decide) (by decide) (by decide) (by decide) (by decide) (by decide)
    (by decide) (by decide) (by decide)

/-! ## Invariants under the commands -/

/-- C11 (the code at a failing input): `sampleDir` is the tree after `mkdir sub`;
its root has no parent and both ancestor chains end.  The command
`mv root sub` then succeeds: afterwards the root has the parent `sub`, `sub` has
the parent `root`, and no ancestor chain ends any more. -/
theorem mv_root_into_child_makes_cycle :
    mkdir initialHeap 0 0 0 "sub".toList = some sampleDir ∧
    parentOf sampleDir 0 = none ∧
    ancestors sampleDir 0 = some [0] ∧ ancestors sampleDir 1 = some [1, 0] ∧
    (mv sampleDir 7 0 "root".toList "sub".toList).map
      (fun r => (r.2, parentOf r.1 0, parentOf r.1 1, ancestors r.1 0, ancestors r.1 1)) =
        some (1, some 1, some 0, none, none) := by
  decide

/-! ## rename -/

theorem rename_loop_absent {h : Heap} (now : Nat) {old : List Char} (new : List Char)
    {p : Ptr} {l : List Nat} (hc : IsChain h p l) {fuel : Nat} (hf : l.length ≤ fuel)
    (habs : ∀ c ∈ l, nameOf h c ≠ old) :
    rename.loop h now old new fuel p = some (h, RenameOutput.notFound) := by
  induction l generalizing p fuel with
  | nil =>
    cases p with
    | none => cases fuel <;> rfl
    | some p => simp [Follows] at hc
  | cons q l ih =>
    cases p with
    | none => simp [Follows] at hc
    | some p =>
      obtain ⟨rfl, n, hn, hl⟩ := hc
      cases fuel with
      | zero => simp at hf
      | succ fuel =>
        have hne : n.fileName ≠ old := by
          have := habs p (List.mem_cons_self _ _)
          rwa [nameOf_of_read hn] at this
        simp only [rename.loop, hn, if_neg hne]
        exact ih hl (by simpa using hf) (fun c hc => habs c (List.mem_cons_of_mem _ hc))

theorem rename_loop_found {h : Heap} (now : Nat) {old : List Char} (new : List Char)
    {p : Ptr} {r1 r2 : List Nat} {c : Nat} {cn : FileNode}
    (hc : IsChain h p (r1 ++ c :: r2)) {fuel : Nat} (hf : (r1 ++ c :: r2).length ≤ fuel)
    (hr1 : ∀ q ∈ r1, nameOf h q ≠ old) (hcn : h.read c = some cn)
    (hold : cn.fileName = old) :
    rename.loop h now old new fuel p =
      some (h.write c { cn with fileName := strncpyz new MAX_NAME, modifiedTime := now },
        RenameOutput.renamed) := by
  induction r1 generalizing p fuel with
  | nil =>
    cases p with
    | none => simp [Follows] at hc
    | some p =>
      obtain ⟨rfl, n, hn, hl⟩ := hc
      cases fuel with
      | zero => simp at hf
      | succ fuel => simp [rename.loop, hcn, hold]
  | cons x r1 ih =>
    cases p with
    | none => simp [Follows] at hc
    | some p =>
      obtain ⟨rfl, n, hn, hl⟩ := hc
      cases fuel with
      | zero => simp at hf
      | succ fuel =>
        have hne : n.fileName ≠ old := by
          have := hr1 p (List.mem_cons_self _ _)
          rwa [nameOf_of_read hn] at this
        simp only [rename.loop, hn, if_neg hne]
        exact ih hl (by simpa using hf) (fun q hq => hr1 q (List.mem_cons_of_mem _ hq))

theorem strncpyz_valid {n : List Char} (hv : isValidName (some n) = 1) :
    strncpyz n MAX_NAME = n := by
  have hlen := isValidName_length hv
  unfold strncpyz MAX_NAME
  exact List.take_of_length_le (by omega)

/-- The `rename` branch when the first child named `old` is `c`: the record of
`c` gets the new name and the time, nothing else is written. -/
theorem rename_ok {h : Heap} (now : Nat) {D : Nat} {dn : FileNode} {old new : List Char}
    {r1 r2 : List Nat} {c : Nat} (hD : h.read D = some dn)
    (hl : IsChain h dn.fChild (r1 ++ c :: r2)) (hr1 : ∀ q ∈ r1, nameOf h q ≠ old)
    (hc : nameOf h c = old) (hv : isValidName (some new) = 1) :
    ∃ cn, h.read c = some cn ∧
      rename h now D old new =
        some (h.write c { cn with fileName := new, modifiedTime := now },
          RenameOutput.renamed) := by
  obtain ⟨cn, hcn⟩ := hl.cells_allocated c (by simp)
  refine ⟨cn, hcn, ?_⟩
  rw [nameOf_of_read hcn] at hc
  have hv0 : isValidName (some new) ≠ 0 := by rw [hv]; decide
  simp only [rename, hv0, if_false, hD]
  rw [rename_loop_found now new hl hl.length_le hr1 hcn hc, strncpyz_valid hv]

/-- A write that changes the name and the time of a cell keeps every link, so
every child list is the same. -/
theorem children_write_name {h : Heap} {c : Nat} {cn : FileNode} (hcn : h.read c = some cn)
    (nm : List Char) (t : Nat) (D : Nat) :
    children (h.write c { cn with fileName := nm, modifiedTime := t }) D = children h D := by
  have hfc := Heap.map_read_write FileNode.fChild
    { cn with fileName := nm, modifiedTime := t } hcn (by rfl)
  have hsib := Heap.map_read_write FileNode.nSibling
    { cn with fileName := nm, modifiedTime := t } hcn (by rfl)
  have hlen := Heap.length_write h c { cn with fileName := nm, modifiedTime := t }
  generalize h.write c { cn with fileName := nm, modifiedTime := t } = h' at *
  have key : ∀ (h1 h2 : Heap),
      (∀ q, (h2.read q).map FileNode.fChild = (h1.read q).map FileNode.fChild) →
      (∀ q, (h2.read q).map FileNode.nSibling = (h1.read q).map FileNode.nSibling) →
      ∀ l, children h1 D = some l → children h2 D = some l := by
    intro h1 h2 hf hs l hl
    obtain ⟨dn, hdn, hch⟩ := children_eq_some.mp hl
    have := hf D
    rw [hdn] at this
    obtain ⟨dn2, hdn2, hdn2c⟩ := map_read_eq_some this
    rw [children_eq_some]
    refine ⟨dn2, hdn2, ?_⟩
    rw [hdn2c]
    exact hch.congr (fun q _ => hs q)
  cases hch : children h D with
  | some l => exact key h h' hfc hsib l hch
  | none =>
    cases hch' : children h' D with
    | none => rfl
    | some l =>
      have := key h' h (fun q => (hfc q).symm) (fun q => (hsib q).symm) l hch'
      rw [hch] at this
      cases this

theorem nameOf_write_name {h : Heap} {c : Nat} {cn : FileNode} (hcn : h.read c = some cn)
    (nm : List Char) (t : Nat) (q : Nat) :
    nameOf (h.write c { cn with fileName := nm, modifiedTime := t }) q =
      if q = c then nm else nameOf h q := by
  by_cases hq : q = c
  · subst hq
    rw [if_pos rfl, nameOf_of_read (Heap.read_write_same _ (Heap.read_lt hcn))]
  · rw [if_neg hq]
    unfold nameOf
    rw [Heap.read_write_ne _ (Ne.symm hq)]

/-- C12 (as stated, refuted): in `root/{b, a}` the commands `rename a b` and
`rename b a` both succeed, and afterwards the file that was `a` (cell 2) is
named `b` and its sibling that was `b` (cell 1) is named `a`: the second
`rename` takes the first child named `b`, which is the sibling. -/
theorem rename_round_trip_swaps_names :
    isValidName (some "a".toList) = 1 ∧ isValidName (some "b".toList) = 1 ∧
    children sampleBA 0 = some [1, 2] ∧
    nameOf sampleBA 1 = "b".toList ∧ nameOf sampleBA 2 = "a".toList ∧
    (match rename sampleBA 5 0 "a".toList "b".toList with
      | some (h1, RenameOutput.renamed) =>
        (rename h1 6 0 "b".toList "a".toList).map
          (fun r => (r.2, nameOf r.1 1, nameOf r.1 2))
      | _ => none) = some (RenameOutput.renamed, "a".toList, "b".toList) := by
  decide

/-- C12 (amended): when the first child named `old` of a directory is `c`, no
child before `c` in the list is named `new`, and both names are valid, then
`rename old new` followed by `rename new old` both succeed, every cell has its
original name again, and no creation time has changed. -/
theorem rename_round_trip (h : Heap) (now1 now2 : Nat) (D : Nat) (old new : List Char)
    (r1 r2 : List Nat) (c : Nat)
    (hl : children h D = some (r1 ++ c :: r2)) (hc : nameOf h c = old)
    (hr1 : ∀ q ∈ r1, nameOf h q ≠ old ∧ nameOf h q ≠ new)
    (hvnew : isValidName (some new) = 1) (hvold : isValidName (some old) = 1) :
    ∃ h1 h2, rename h now1 D old new = some (h1, RenameOutput.renamed) ∧
      rename h1 now2 D new old = some (h2, RenameOutput.renamed) ∧
      (∀ q, nameOf h2 q = nameOf h q) ∧
      (∀ q, (h1.read q).map FileNode.createdTime = (h.read q).map FileNode.createdTime) ∧
      (∀ q, (h2.read q).map FileNode.createdTime = (h.read q).map FileNode.createdTime) := by
  obtain ⟨dn, hD, hch⟩ := children_eq_some.mp hl
  have hnd := hch.nodup
  have hcr1 : c ∉ r1 := fun hmem =>
    (List.nodup_append.mp hnd).2.2 hmem (List.mem_cons_self _ _)
  obtain ⟨cn, hcn, hren1⟩ := rename_ok now1 hD hch (fun q hq => (hr1 q hq).1) hc hvnew
  have hl1 := (children_write_name hcn new now1 D).trans hl
  have hname1 := nameOf_write_name hcn new now1
  have hct1 := Heap.map_read_write FileNode.createdTime
    { cn with fileName := new, modifiedTime := now1 } hcn (by rfl)
  generalize h.write c { cn with fileName := new, modifiedTime := now1 } = h1 at *
  obtain ⟨dn1, hD1, hch1⟩ := children_eq_some.mp hl1
  have hr1' : ∀ q ∈ r1, nameOf h1 q ≠ new := by
    intro q hq
    have hqc : q ≠ c := by
      rintro rfl
      exact hcr1 hq
    rw [hname1, if_neg hqc]
    exact (hr1 q hq).2
  have hc1 : nameOf h1 c = new := by rw [hname1, if_pos rfl]
  obtain ⟨cn1, hcn1, hren2⟩ := rename_ok now2 hD1 hch1 hr1' hc1 hvold
  have hname2 := nameOf_write_name hcn1 old now2
  have hct2 := Heap.map_read_write FileNode.createdTime
    { cn1 with fileName := old, modifiedTime := now2 } hcn1 (by rfl)
  refine ⟨h1, _, hren1, hren2, ?_, hct1, fun q => (hct2 q).trans (hct1 q)⟩
  intro q
  rw [hname2, hname1]
  by_cases hq : q = c
  · rw [if_pos hq, hq, hc]
  · rw [if_neg hq, if_neg hq]

theorem rename_round_trip_witness :
    ∃ h1 h2, rename sampleBA 5 0 "b".toList "c".toList = some (h1, RenameOutput.renamed) ∧
      rename h1 6 0 "c".toList "b".toList = some (h2, RenameOutput.renamed) ∧
      (∀ q, nameOf h2 q = nameOf sampleBA q) ∧
      (∀ q, (h1.read q).map FileNode.createdTime =
        (sampleBA.read q).map FileNode.createdTime) ∧
      (∀ q, (h2.read q).map FileNode.createdTime =
        (sampleBA.read q).map FileNode.createdTime) :=
  rename_round_trip sampleBA 5 6 0 "b".toList "c".toList [] [2] 1 (by decide) (by decide)
    (by simp) (by decide) (by decide)

/-- C19: `rename` has no collision check.  In a directory with two distinct
children named `a` and `b` (`b` valid), `rename a b` succeeds, the child list is
the same list, and two distinct children are named `b`.  `rename` writes nothing
exactly when the new name is invalid or no child has the old name; otherwise
the first child with the old name gets the new name and the time. -/
theorem rename_no_collision_check (h : Heap) (now : Nat) (D : Nat) (l : List Nat)
    (ca cb : Nat) (a b : List Char)
    (hl : children h D = some l) (hca : ca ∈ l) (hcb : cb ∈ l) (hne : ca ≠ cb)
    (hna : nameOf h ca = a) (hnb : nameOf h cb = b) (hv : isValidName (some b) = 1) :
    (∃ h' c1 c2, rename h now D a b = some (h', RenameOutput.renamed) ∧
      children h' D = some l ∧ c1 ∈ l ∧ c2 ∈ l ∧ c1 ≠ c2 ∧
      nameOf h' c1 = b ∧ nameOf h' c2 = b) ∧
    (∀ old new, isValidName (some new) = 0 ∨ (∀ q ∈ l, nameOf h q ≠ old) →
      ∃ out, rename h now D old new = some (h, out) ∧ out ≠ RenameOutput.renamed) ∧
    (∀ old new, isValidName (some new) = 1 → (∃ q ∈ l, nameOf h q = old) →
      ∃ h' c, rename h now D old new = some (h', RenameOutput.renamed) ∧
        l.find? (fun q => decide (nameOf h q = old)) = some c ∧
        nameOf h' c = new ∧ (h'.read c).map FileNode.modifiedTime = some now) := by
  obtain ⟨dn, hD, hch⟩ := children_eq_some.mp hl
  have hgen : ∀ old new, isValidName (some new) = 1 → (∃ q ∈ l, nameOf h q = old) →
      ∃ h' c, rename h now D old new = some (h', RenameOutput.renamed) ∧
        l.find? (fun q => decide (nameOf h q = old)) = some c ∧
        nameOf h' c = new ∧ (h'.read c).map FileNode.modifiedTime = some now ∧
        children h' D = some l ∧ ∀ q, nameOf h' q = if q = c then new else nameOf h q := by
    intro old new hvn hex
    obtain ⟨r1, c, r2, hsplit, hcn, hr1, hfind⟩ := first_named_split h old l hex
    subst hsplit
    obtain ⟨cn, hcr, hren⟩ := rename_ok now hD hch hr1 hcn hvn
    refine ⟨_, c, hren, hfind, ?_, ?_, (children_write_name hcr new now D).trans hl,
      nameOf_write_name hcr new now⟩
    · rw [nameOf_write_name hcr, if_pos rfl]
    · rw [Heap.read_write_same _ (Heap.read_lt hcr)]
      rfl
  refine ⟨?_, ?_, ?_⟩
  · obtain ⟨h', c, hren, hfind, hnc, -, hch', hnames⟩ := hgen a b hv ⟨ca, hca, hna⟩
    have hcl : c ∈ l := List.mem_of_find?_eq_some hfind
    by_cases hab : a = b
    · refine ⟨h', ca, cb, hren, hch', hca, hcb, hne, ?_, ?_⟩
      · rw [hnames]
        split_ifs
        · rfl
        · rw [hna, hab]
      · rw [hnames]
        split_ifs
        · rfl
        · exact hnb
    · have hca' : nameOf h c = a := by
        have := List.find?_some hfind
        simpa using this
      have hccb : c ≠ cb := by
        rintro rfl
        exact hab (hca'.symm.trans hnb)
      refine ⟨h', c, cb, hren, hch', hcl, hcb, hccb, hnc, ?_⟩
      rw [hnames, if_neg (Ne.symm hccb)]
      exact hnb
  · intro old new hcase
    by_cases hvn : isValidName (some new) = 0
    · exact ⟨RenameOutput.invalidName, by simp [rename, hvn], by decide⟩
    · rcases hcase with h0 | habs
      · exact absurd h0 hvn
      · refine ⟨RenameOutput.notFound, ?_, by decide⟩
        simp only [rename, hvn, if_false, hD]
        exact rename_loop_absent now new hch hch.length_le habs
  · intro old new hvn hex
    obtain ⟨h', c, hren, hfind, hnc, hmt, -, -⟩ := hgen old new hvn hex
    exact ⟨h', c, hren, hfind, hnc, hmt⟩

theorem rename_no_collision_check_witness :
    (∃ h' c1 c2, rename sampleBA 5 0 "a".toList "b".toList =
        some (h', RenameOutput.renamed) ∧
      children h' 0 = some [1, 2] ∧ c1 ∈ [1, 2] ∧ c2 ∈ [1, 2] ∧ c1 ≠ c2 ∧
      nameOf h' c1 = "b".toList ∧ nameOf h' c2 = "b".toList) ∧
    (∀ old new, isValidName (some new) = 0 ∨ (∀ q ∈ [1, 2], nameOf sampleBA q ≠ old) →
      ∃ out, rename sampleBA 5 0 old new = some (sampleBA, out) ∧
        out ≠ RenameOutput.renamed) ∧
    (∀ old new, isValidName (some new) = 1 → (∃ q ∈ [1, 2], nameOf sampleBA q = old) →
      ∃ h' c, rename sampleBA 5 0 old new = some (h', RenameOutput.renamed) ∧
        [1, 2].find? (fun q => decide (nameOf sampleBA q = old)) = some c ∧
        nameOf h' c = new ∧ (h'.read c).map FileNode.modifiedTime = some 5) :=
  rename_no_collision_check sampleBA 5 0 [1, 2] 2 1 "a".toList "b".toList (by decide)
    (by decide) (by decide) (by decide) (by decide) (by decide) (by decide)

/-! ## findParent -/

theorem findParent_loop_absent {h : Heap} (B : Nat) {nm : List Char} {p : Ptr} {l : List Nat}
    (hc : IsChain h p l) {fuel : Nat} (hf : l.length ≤ fuel)
    (hl : ∀ q ∈ l, nameOf h q ≠ nm) (prev : Ptr) :
    findParent.loop h B nm fuel p prev = some none := by
  induction l generalizing p fuel prev with
  | nil =>
    cases p with
    | none => cases fuel <;> rfl
    | some p => simp [Follows] at hc
  | cons q l ih =>
    cases p with
    | none => simp [Follows] at hc
    | some p =>
      obtain ⟨rfl, n, hn, hl'⟩ := hc
      cases fuel with
      | zero => simp at hf
      | succ fuel =>
        have hne : n.fileName ≠ nm := by
          have := hl p (List.mem_cons_self _ _)
          rwa [nameOf_of_read hn] at this
        simp only [findParent.loop, hn, if_neg hne]
        exact ih hl' (by simpa using hf) (fun q hq => hl q (List.mem_cons_of_mem _ hq)) _

theorem findParent_loop_found {h : Heap} (B : Nat) {nm : List Char} {p : Ptr}
    {r1 r2 : List Nat} {c : Nat}
    (hc : IsChain h p (r1 ++ c :: r2)) {fuel : Nat} (hf : (r1 ++ c :: r2).length ≤ fuel)
    (hr1 : ∀ q ∈ r1, nameOf h q ≠ nm) (hnm : nameOf h c = nm) (prev : Ptr) :
    findParent.loop h B nm fuel p prev = some (some ((r1.getLast?.or prev).getD B)) := by
  induction r1 generalizing p fuel prev with
  | nil =>
    cases p with
    | none => simp [Follows] at hc
    | some p =>
      obtain ⟨rfl, n, hn, hl'⟩ := hc
      cases fuel with
      | zero => simp at hf
      | succ fuel =>
        have hnm' : n.fileName = nm := by rwa [nameOf_of_read hn] at hnm
        simp only [findParent.loop, hn, if_pos hnm']
        cases prev <;> rfl
  | cons x r1 ih =>
    cases p with
    | none => simp [Follows] at hc
    | some p =>
      obtain ⟨rfl, n, hn, hl'⟩ := hc
      cases fuel with
      | zero => simp at hf
      | succ fuel =>
        have hne : n.fileName ≠ nm := by
          have := hr1 p (List.mem_cons_self _ _)
          rwa [nameOf_of_read hn] at this
        simp only [findParent.loop, hn, if_neg hne]
        rw [ih hl' (by simpa using hf) (fun q hq => hr1 q (List.mem_cons_of_mem _ hq))]
        cases r1 with
        | nil => rfl
        | cons y r1 =>
          rw [List.getLast?_cons_cons, List.getLast?_eq_getLast _ (List.cons_ne_nil _ _)]
          rfl

/-- C17 (as stated, refuted): in `root/{docs/{a.txt}, b}` the child of the root
named `b` is cell 3, and `findParent(root, "b")` returns cell 1, the sibling
`docs` that precedes it; for the first child `docs` it returns the root. -/
theorem findParent_returns_previous_sibling :
    children sampleDocs 0 = some [1, 3] ∧ nameOf sampleDocs 3 = "b".toList ∧
    nameOf sampleDocs 1 = "docs".toList ∧
    findParent sampleDocs (some 0) (some "b".toList) = some (some 1) ∧
    findParent sampleDocs (some 0) (some "docs".toList) = some (some 0) := by
  decide

/-- C17 (amended): `findParent(B, n)` looks at the direct children of `B` only.
It returns NULL when none of them is named `n`; when the first child named `n`
is `c`, it returns the sibling just before `c` in the child list, and `B`
itself when `c` is the first child. -/
theorem findParent_spec (h : Heap) (B : Nat) (n : List Char) (l : List Nat)
    (hl : children h B = some l) :
    ((∀ q ∈ l, nameOf h q ≠ n) → findParent h (some B) (some n) = some none) ∧
    (∀ r1 c r2, l = r1 ++ c :: r2 → nameOf h c = n → (∀ q ∈ r1, nameOf h q ≠ n) →
      findParent h (some B) (some n) = some (some (r1.getLast?.getD B))) := by
  obtain ⟨bn, hB, hch⟩ := children_eq_some.mp hl
  constructor
  · intro habs
    simp only [findParent, hB]
    exact findParent_loop_absent B hch hch.length_le habs none
  · rintro r1 c r2 rfl hc hr1
    simp only [findParent, hB]
    rw [findParent_loop_found B hch hch.length_le hr1 hc none]
    simp

theorem findParent_spec_witness :
    ((∀ q ∈ [1, 3], nameOf sampleDocs q ≠ "a.txt".toList) →
      findParent sampleDocs (some 0) (some "a.txt".toList) = some none) ∧
    (∀ r1 c r2, [1, 3] = r1 ++ c :: r2 → nameOf sampleDocs c = "a.txt".toList →
      (∀ q ∈ r1, nameOf sampleDocs q ≠ "a.txt".toList) →
      findParent sampleDocs (some 0) (some "a.txt".toList) =
        some (some (r1.getLast?.getD 0))) :=
  findParent_spec sampleDocs 0 "a.txt".toList [1, 3] (by decide)

/-! ## createNode -/

/-- C14: `createNode` returns NULL exactly when `isValidName` gives 0, and
then allocates nothing.  Otherwise it allocates one cell that has the given
name and type, no parent, no child and no sibling, equal creation and
modification times, and as content: nothing when `content` is NULL, the given
content when it has at most 1023 bytes, and its first 1023 bytes when longer. -/
theorem createNode_spec (h : Heap) (now : Nat) (name : Option (List Char))
    (content : Option (List Char)) (kind : NodeType) :
    ((createNode h now name content kind).2 = none ↔ isValidName name = 0) ∧
    (isValidName name = 0 → createNode h now name content kind = (h, none)) ∧
    (∀ n, name = some n → isValidName name ≠ 0 →
      ∃ node, createNode h now name content kind = (h ++ [some node], some h.length) ∧
        node.fileName = n ∧ node.type = kind ∧ node.parent = none ∧ node.fChild = none ∧
        node.nSibling = none ∧ node.createdTime = now ∧ node.modifiedTime = node.createdTime ∧
        (content = none → node.fileContent = []) ∧
        (∀ c, content = some c →
          (c.length ≤ 1023 → node.fileContent = c) ∧
          (1023 < c.length → node.fileContent = c.take 1023))) := by
  have hvalid : ∀ n, name = some n → isValidName name ≠ 0 →
      createNode h now name content kind =
        (h ++ [some
          { fileName := n
            fileContent := createNode.content content
            type := kind
            createdTime := now
            modifiedTime := now
            parent := none
            fChild := none
            nSibling := none }], some h.length) := by
    rintro n rfl hv
    have h1 : isValidName (some n) = 1 := by
      rcases isValidName_zero_or_one (some n) with h0 | h1
      · exact absurd h0 hv
      · exact h1
    exact createNode_valid h now content kind h1
  refine ⟨⟨?_, ?_⟩, ?_, ?_⟩
  · intro hnone
    by_contra hv
    cases name with
    | none => exact hv (by rfl)
    | some n =>
      rw [hvalid n rfl hv] at hnone
      simp at hnone
  · intro h0
    simp [createNode, h0]
  · intro h0
    simp [createNode, h0]
  · intro n hn hv
    refine ⟨_, hvalid n hn hv, rfl, rfl, rfl, rfl, rfl, rfl, rfl, ?_, ?_⟩
    · rintro rfl
      rfl
    · rintro c rfl
      constructor
      · intro hc
        show List.take (MAX_CONTENT - 1) c = c
        exact List.take_of_length_le (by unfold MAX_CONTENT; omega)
      · intro _
        rfl

/-! ## Insertion of a new cell, and cp -/

/-- `insertNode` of the cell that `malloc` has just returned, into a directory
that has no child with its name: the full effect, relative to the heap before
the allocation. -/
theorem insertNode_fresh {h : Heap} (now : Nat) {D : Nat} {dn : FileNode} {l : List Nat}
    (node : FileNode) (hD : h.read D = some dn) (hty : dn.type = NodeType.TYPE_FOLDER)
    (hl : IsChain h dn.fChild l) (hsib : node.nSibling = none)
    (hdup : ∀ c ∈ l, nameOf h c ≠ node.fileName) :
    ∃ h', insertNode (h ++ [some node]) now (some D) (some h.length) = some (h', 1) ∧
      h'.length = h.length + 1 ∧
      children h' D = some (l ++ [h.length]) ∧
      (h'.read h.length).map FileNode.data = some node.data ∧
      parentOf h' h.length = some D ∧
      (h'.read h.length).map FileNode.fChild = some node.fChild ∧
      (∀ q, q < h.length → (h'.read q).map FileNode.data = (h.read q).map FileNode.data) ∧
      (∀ q, q < h.length →
        (h'.read q).map FileNode.parent = (h.read q).map FileNode.parent) ∧
      (∀ q, q < h.length → q ≠ D →
        (h'.read q).map FileNode.fChild = (h.read q).map FileNode.fChild) ∧
      (∀ q, q < h.length → q ≠ D →
        (h'.read q).map FileNode.modifiedTime = (h.read q).map FileNode.modifiedTime) ∧
      (h'.read D).map FileNode.modifiedTime = some now ∧
      (∀ q, q < h.length → l.getLast? ≠ some q →
        (h'.read q).map FileNode.nSibling = (h.read q).map FileNode.nSibling) := by
  have hDlt : D < h.length := Heap.read_lt hD
  have hold : ∀ q, q < h.length → Heap.read (h ++ [some node]) q = h.read q :=
    fun q hq => Heap.read_append_lt _ hq
  have hN1 : Heap.read (h ++ [some node]) h.length = some node :=
    Heap.read_append_length h node
  have hD1 : Heap.read (h ++ [some node]) D = some dn := by rw [hold D hDlt, hD]
  have hllt : ∀ q ∈ l, q < h.length := by
    intro q hq
    obtain ⟨n, hn⟩ := hl.cells_allocated q hq
    exact Heap.read_lt hn
  have hl1 : IsChain (h ++ [some node]) dn.fChild l :=
    Follows.congr (fun q hq => by rw [hold q (hllt q hq)]) hl
  have hNl : h.length ∉ l := fun hm => absurd (hllt _ hm) (lt_irrefl _)
  have hdup1 : ∀ c ∈ l, nameOf (h ++ [some node]) c ≠ node.fileName := by
    intro c hc
    have : nameOf (h ++ [some node]) c = nameOf h c := by
      unfold nameOf
      rw [hold c (hllt c hc)]
    rw [this]
    exact hdup c hc
  obtain ⟨h', hins, hsame, hch, hpar, hparf, hfcs, hmts, hmt, hsibs⟩ :=
    insertNode_ok now hD1 hty hN1 hl1 hNl hsib hdup1
  have hND : h.length ≠ D := by omega
  refine ⟨h', hins, ?_, hch, ?_, hpar, ?_, ?_, ?_, ?_, ?_, hmt, ?_⟩
  · rw [hsame.1]
    simp
  · rw [hsame.2, hN1]
    rfl
  · rw [hfcs _ hND, hN1]
    rfl
  · intro q hq
    rw [hsame.2, hold q hq]
  · intro q hq
    rw [hparf q (by omega), hold q hq]
  · intro q hq hqD
    rw [hfcs q hqD, hold q hq]
  · intro q hq hqD
    rw [hmts q hqD, hold q hq]
  · intro q hq hlast
    rw [hsibs q hlast, hold q hq]

theorem cp_loop_absent {h : Heap} (nowCreate nowInsert D : Nat) {src : List Char}
    (dst : List Char) {p : Ptr} {l : List Nat} (hc : IsChain h p l) {fuel : Nat}
    (hf : l.length ≤ fuel) (habs : ∀ c ∈ l, nameOf h c ≠ src) :
    cp.loop h nowCreate nowInsert D src dst fuel p = some h := by
  induction l generalizing p fuel with
  | nil =>
    cases p with
    | none => cases fuel <;> rfl
    | some p => simp [Follows] at hc
  | cons q l ih =>
    cases p with
    | none => simp [Follows] at hc
    | some p =>
      obtain ⟨rfl, n, hn, hl'⟩ := hc
      cases fuel with
      | zero => simp at hf
      | succ fuel =>
        have hne : n.fileName ≠ src := by
          have := habs p (List.mem_cons_self _ _)
          rwa [nameOf_of_read hn] at this
        simp only [cp.loop, hn, if_neg hne]
        exact ih hl' (by simpa using hf) (fun q hq => habs q (List.mem_cons_of_mem _ hq))

theorem cp_loop_found {h : Heap} (nowCreate nowInsert D : Nat) {src : List Char}
    (dst : List Char) {p : Ptr} {r1 r2 : List Nat} {c : Nat} {cn : FileNode}
    (hc : IsChain h p (r1 ++ c :: r2)) {fuel : Nat} (hf : (r1 ++ c :: r2).length ≤ fuel)
    (hr1 : ∀ q ∈ r1, nameOf h q ≠ src) (hcn : h.read c = some cn) (hnm : cn.fileName = src) :
    cp.loop h nowCreate nowInsert D src dst fuel p =
      if cn.type = NodeType.TYPE_FILE then
        insertOrFree (createNode h nowCreate (some dst) (some cn.fileContent)
          NodeType.TYPE_FILE) nowInsert D
      else some h := by
  induction r1 generalizing p fuel with
  | nil =>
    cases p with
    | none => simp [Follows] at hc
    | some p =>
      obtain ⟨rfl, n, hn, hl'⟩ := hc
      cases fuel with
      | zero => simp at hf
      | succ fuel =>
        rw [hcn] at hn
        cases hn
        simp only [cp.loop, hcn, if_pos hnm]
  | cons x r1 ih =>
    cases p with
    | none => simp [Follows] at hc
    | some p =>
      obtain ⟨rfl, n, hn, hl'⟩ := hc
      cases fuel with
      | zero => simp at hf
      | succ fuel =>
        have hne : n.fileName ≠ src := by
          have := hr1 p (List.mem_cons_self _ _)
          rwa [nameOf_of_read hn] at this
        simp only [cp.loop, hn, if_neg hne]
        exact ih hl' (by simpa using hf) (fun q hq => hr1 q (List.mem_cons_of_mem _ hq))

/-- C13: the `cp s t` command in a directory `D` with child list `l`.  When the
first child named `s` is a file `c` (its content fits the content array), `t`
is a valid name and no child is named `t`, the command allocates one cell, the
child list becomes `l` with that cell appended, the cell is a file named `t`
with the content of `c`, and the name, content, kind, times, parent and first
child of `c` are what they were.  When the first child named `s` is not a file,
or no child is named `s`, the heap is unchanged. -/
theorem cp_spec (h : Heap) (nowCreate nowInsert : Nat) (D : Nat) (dn : FileNode)
    (l : List Nat) (s t : List Char)
    (hD : h.read D = some dn) (hty : dn.type = NodeType.TYPE_FOLDER)
    (hl : children h D = some l) :
    (∀ r1 c r2 cn, l = r1 ++ c :: r2 → h.read c = some cn → cn.fileName = s →
      (∀ q ∈ r1, nameOf h q ≠ s) → cn.type = NodeType.TYPE_FILE →
      cn.fileContent.length < MAX_CONTENT → isValidName (some t) = 1 →
      (∀ q ∈ l, nameOf h q ≠ t) →
      ∃ h', cp h nowCreate nowInsert D s t = some h' ∧
        h'.length = h.length + 1 ∧
        children h' D = some (l ++ [h.length]) ∧
        nameOf h' h.length = t ∧
        (h'.read h.length).map FileNode.type = some NodeType.TYPE_FILE ∧
        (h'.read h.length).map FileNode.fileContent = some cn.fileContent ∧
        (h'.read c).map FileNode.data = some cn.data ∧
        (h'.read c).map FileNode.modifiedTime = some cn.modifiedTime ∧
        (h'.read c).map FileNode.parent = some cn.parent ∧
        (h'.read c).map FileNode.fChild = some cn.fChild) ∧
    (∀ r1 c r2 cn, l = r1 ++ c :: r2 → h.read c = some cn → cn.fileName = s →
      (∀ q ∈ r1, nameOf h q ≠ s) → cn.type ≠ NodeType.TYPE_FILE →
      cp h nowCreate nowInsert D s t = some h) ∧
    ((∀ q ∈ l, nameOf h q ≠ s) → cp h nowCreate nowInsert D s t = some h) := by
  obtain ⟨dn', hD', hch⟩ := children_eq_some.mp hl
  rw [hD] at hD'
  cases hD'
  refine ⟨?_, ?_, ?_⟩
  · rintro r1 c r2 cn rfl hcn hnm hr1 hfile hlen hv hdup
    have hcD : c ≠ D := by
      rintro rfl
      rw [hD] at hcn
      cases hcn
      rw [hty] at hfile
      cases hfile
    have hclt : c < h.length := Heap.read_lt hcn
    have hcontent : createNode.content (some cn.fileContent) = cn.fileContent := by
      show List.take (MAX_CONTENT - 1) cn.fileContent = cn.fileContent
      exact List.take_of_length_le (by omega)
    have hcreate := createNode_valid h nowCreate (some cn.fileContent) NodeType.TYPE_FILE hv
    rw [hcontent] at hcreate
    obtain ⟨h', hins, hlen', hch', hdata, -, -, hdatas, hpars, hfcs, hmts, -, -⟩ :=
      insertNode_fresh nowInsert
        { fileName := t
          fileContent := cn.fileContent
          type := NodeType.TYPE_FILE
          createdTime := nowCreate
          modifiedTime := nowCreate
          parent := none
          fChild := none
          nSibling := none } hD hty hch (by rfl) hdup
    have hcp : cp h nowCreate nowInsert D s t = some h' := by
      simp only [cp, hD]
      rw [cp_loop_found nowCreate nowInsert D t hch hch.length_le hr1 hcn hnm, if_pos hfile,
        hcreate]
      simp only [insertOrFree, hins]
      rfl
    obtain ⟨n', hn', hn'd⟩ := map_read_eq_some hdata
    simp only [FileNode.data, Prod.mk.injEq] at hn'd
    refine ⟨h', hcp, hlen', hch', ?_, ?_, ?_, ?_, ?_, ?_, ?_⟩
    · rw [nameOf_of_read hn']
      exact hn'd.1
    · rw [hn']
      exact congrArg some hn'd.2.2.1
    · rw [hn']
      exact congrArg some hn'd.2.1
    · rw [hdatas c hclt, hcn]
      rfl
    · rw [hmts c hclt hcD, hcn]
      rfl
    · rw [hpars c hclt, hcn]
      rfl
    · rw [hfcs c hclt hcD, hcn]
      rfl
  · rintro r1 c r2 cn rfl hcn hnm hr1 hnf
    simp only [cp, hD]
    rw [cp_loop_found nowCreate nowInsert D t hch hch.length_le hr1 hcn hnm, if_neg hnf]
  · intro habs
    simp only [cp, hD]
    exact cp_loop_absent nowCreate nowInsert D t hch hch.length_le habs

theorem cp_spec_witness :
    ∃ h', cp sampleDocs 5 6 1 "a.txt".toList "b.txt".toList = some h' ∧
      h'.length = sampleDocs.length + 1 ∧
      children h' 1 = some ([2] ++ [sampleDocs.length]) ∧
      nameOf h' sampleDocs.length = "b.txt".toList ∧
      (h'.read sampleDocs.length).map FileNode.type = some NodeType.TYPE_FILE ∧
      (h'.read sampleDocs.length).map FileNode.fileContent = some "hi".toList ∧
      (h'.read 2).map FileNode.data =
        some ("a.txt".toList, "hi".toList, NodeType.TYPE_FILE, 0) ∧
      (h'.read 2).map FileNode.modifiedTime = some 0 ∧
      (h'.read 2).map FileNode.parent = some (some 1) ∧
      (h'.read 2).map FileNode.fChild = some none :=
  (cp_spec sampleDocs 5 6 1 _ [2] "a.txt".toList "b.txt".toList (by rfl) (by rfl)
    (by decide)).1 [] 2 [] _ (by rfl) (by rfl) (by rfl) (by simp) (by rfl) (by decide)
    (by decide) (by decide)

/-! ## mv: the refused cases -/

theorem findNode_total {h : Heap} {r : Nat} (nm : List Char) (hw : WellLinked h r) :
    ∃ res, findNode h (some r) (some nm) = some res := by
  obtain ⟨res, q', hrun⟩ := findNode_run_total nm hw
  exact ⟨res, by simp [findNode, hrun]⟩

theorem findNode_sound {h : Heap} {r : Nat} {nm : List Char} {p : Nat}
    (hp : findNode h (some r) (some nm) = some (some p)) : Reach h r p ∧ nameOf h p = nm := by
  simp only [findNode, Option.map_eq_some'] at hp
  obtain ⟨⟨res, q'⟩, hrun, hres⟩ := hp
  simp only at hres
  subst hres
  exact findNode_run_sound hrun

theorem findNode_absent {h : Heap} {r : Nat} {nm : List Char} (hw : WellLinked h r)
    (habs : ∀ p, Reach h r p → nameOf h p ≠ nm) :
    findNode h (some r) (some nm) = some none := by
  obtain ⟨res, hres⟩ := findNode_total nm hw
  cases res with
  | none => exact hres
  | some p => exact absurd (findNode_sound hres).2 (habs p (findNode_sound hres).1)

/-- C15: on a well-linked tree, the `mv s d` command leaves the heap as it is
(every cell, hence every child list and every parent reference) and does not
reach `insertNode`, when no node of the tree is named `s`, when no node of the
tree is named `d` or `findNode` returns NULL for `d`, and when the node that
`findNode` returns for `d` is not a directory. -/
theorem mv_refused_unchanged (h : Heap) (now : Nat) (root : Nat) (s d : List Char)
    (hw : WellLinked h root) :
    ((∀ p, Reach h root p → nameOf h p ≠ s) → mv h now root s d = some (h, 0)) ∧
    ((∀ p, Reach h root p → nameOf h p ≠ d) → mv h now root s d = some (h, 0)) ∧
    (findNode h (some root) (some d) = some none → mv h now root s d = some (h, 0)) ∧
    (∀ b, findNode h (some root) (some d) = some (some b) →
      (h.read b).map FileNode.type ≠ some NodeType.TYPE_FOLDER →
      mv h now root s d = some (h, 0)) := by
  obtain ⟨rs, hs⟩ := findNode_total s hw
  obtain ⟨rd, hd⟩ := findNode_total d hw
  have hdnone : findNode h (some root) (some d) = some none → mv h now root s d = some (h, 0) := by
    intro hd0
    cases rs with
    | none => simp only [mv, hs, hd0]
    | some x => simp only [mv, hs, hd0]
  refine ⟨?_, ?_, hdnone, ?_⟩
  · intro habs
    have hs0 := findNode_absent hw habs
    simp only [mv, hs0, hd]
  · intro habs
    exact hdnone (findNode_absent hw habs)
  · intro b hb hty
    obtain ⟨bn, hbn, -⟩ := hw b (findNode_sound hb).1
    have hty' : bn.type ≠ NodeType.TYPE_FOLDER := by
      intro e
      apply hty
      rw [hbn, ← e]
      rfl
    cases rs with
    | none => simp only [mv, hs, hb]
    | some x => simp [mv, hs, hb, hbn, hty']

theorem mv_refused_unchanged_witness :
    findNode sampleDocs (some 0) (some "b".toList) = some (some 3) ∧
    (sampleDocs.read 3).map FileNode.type = some NodeType.TYPE_FILE ∧
    mv sampleDocs 7 0 "a.txt".toList "b".toList = some (sampleDocs, 0) :=
  ⟨by decide, by decide,
    (mv_refused_unchanged sampleDocs 7 0 "a.txt".toList "b".toList
      (wellLinked_of_check (by decide) (by decide))).2.2.2 3 (by decide) (by decide)⟩

/-! ## Listing after a sequence of insertions -/

theorem SameData.type_eq {h h' : Heap} (hs : SameData h h') (q : Nat) :
    (h'.read q).map FileNode.type = (h.read q).map FileNode.type := by
  have := hs.2 q
  cases h1 : h'.read q <;> cases h2 : h.read q <;> simp_all [FileNode.data]

/-- The lines of `listDirectory` are the lines of the children, in list order. -/
theorem listDirectory_of_children {h : Heap} (fmt : Nat → List Char) (b : Bool) {D : Nat}
    {l : List Nat} (hl : children h D = some l) :
    listDirectory h fmt (some D) b =
      some (l.filterMap (fun c => (h.read c).map (listDirectory.line fmt b))) := by
  obtain ⟨dn, hD, hch⟩ := children_eq_some.mp hl
  simp only [listDirectory, hD]
  have key : ∀ (l : List Nat) (p : Ptr) (fuel : Nat), IsChain h p l → l.length ≤ fuel →
      listDirectory.loop h fmt b fuel p =
        some (l.filterMap (fun c => (h.read c).map (listDirectory.line fmt b))) := by
    intro l
    induction l with
    | nil =>
      intro p fuel hc _
      cases p with
      | none => cases fuel <;> rfl
      | some p => simp [Follows] at hc
    | cons q l ih =>
      intro p fuel hc hf
      cases p with
      | none => simp [Follows] at hc
      | some p =>
        obtain ⟨rfl, n, hn, hl'⟩ := hc
        cases fuel with
        | zero => simp at hf
        | succ fuel =>
          simp only [listDirectory.loop, hn, ih _ _ hl' (by simpa using hf)]
          simp [List.filterMap_cons, hn]
  exact key l _ _ hch hch.length_le

theorem insertAll_children (now D : Nat) (nodes : List Nat) :
    ∀ (h : Heap) (l : List Nat), children h D = some l →
      (h.read D).map FileNode.type = some NodeType.TYPE_FOLDER →
      (l ++ nodes).Nodup →
      (∀ n ∈ nodes, (h.read n).map FileNode.nSibling = some none) →
      ((l ++ nodes).map (nameOf h)).Nodup →
      ∃ h', insertAll h now D nodes = some h' ∧ SameData h h' ∧
        children h' D = some (l ++ nodes) := by
  induction nodes with
  | nil =>
    intro h l hl _ _ _ _
    exact ⟨h, rfl, SameData.refl h, by simpa using hl⟩
  | cons n rest ih =>
    intro h l hl hty hnd hsib hnames
    obtain ⟨dn, hD, hch⟩ := children_eq_some.mp hl
    have hty' : dn.type = NodeType.TYPE_FOLDER := by simpa [hD] using hty
    obtain ⟨nn, hN, hnsib⟩ := map_read_eq_some (hsib n (List.mem_cons_self _ _))
    have hnd' := List.nodup_append.mp hnd
    have hNl : n ∉ l := fun hm => hnd'.2.2 hm (List.mem_cons_self _ _)
    have hrestl : ∀ q ∈ rest, q ∉ l := fun q hq hm =>
      hnd'.2.2 hm (List.mem_cons_of_mem _ hq)
    have hdup : ∀ c ∈ l, nameOf h c ≠ nn.fileName := by
      intro c hc e
      rw [← nameOf_of_read hN] at e
      rw [List.map_append] at hnames
      exact (List.nodup_append.mp hnames).2.2 (List.mem_map_of_mem _ hc)
        (e ▸ List.mem_map_of_mem _ (List.mem_cons_self n rest))
    obtain ⟨h1, hins, hsame, hch1, -, -, -, -, -, hsibs⟩ :=
      insertNode_ok now hD hty' hN hch hNl hnsib hdup
    have hnd1 : ((l ++ [n]) ++ rest).Nodup := by simpa using hnd
    have hsib1 : ∀ q ∈ rest, (h1.read q).map FileNode.nSibling = some none := by
      intro q hq
      rw [hsibs q (fun e => hrestl q hq (List.mem_of_getLast?_eq_some e))]
      exact hsib q (List.mem_cons_of_mem _ hq)
    have hnames1 : (((l ++ [n]) ++ rest).map (nameOf h1)).Nodup := by
      have : ((l ++ [n]) ++ rest).map (nameOf h1) = (l ++ n :: rest).map (nameOf h) := by
        rw [List.append_assoc]
        exact List.map_congr_left (fun q _ => hsame.nameOf_eq q)
      rw [this]
      exact hnames
    obtain ⟨h', hall, hsame', hch'⟩ :=
      ih h1 (l ++ [n]) hch1 ((hsame.type_eq D).trans hty) hnd1 hsib1 hnames1
    refine ⟨h', ?_, hsame.trans hsame', by simpa using hch'⟩
    simp only [insertAll, hins]
    simpa using hall

/-- C16: nodes with pairwise distinct names, each without a sibling, inserted
one after another with `insertNode` into a directory without children: every
insertion succeeds, and the non-detailed `listDirectory` prints one line per
node, in the order of insertion, the name followed by `/` for a directory and
the bare name for a file. -/
theorem insertAll_listing (h : Heap) (now : Nat) (D : Nat) (nodes : List Nat)
    (fmt : Nat → List Char)
    (hempty : children h D = some [])
    (hty : (h.read D).map FileNode.type = some NodeType.TYPE_FOLDER)
    (hnd : nodes.Nodup)
    (hsib : ∀ n ∈ nodes, (h.read n).map FileNode.nSibling = some none)
    (hnames : (nodes.map (nameOf h)).Nodup) :
    ∃ h', insertAll h now D nodes = some h' ∧ children h' D = some nodes ∧
      listDirectory h' fmt (some D) false =
        some (nodes.map (fun n =>
          if (h.read n).map FileNode.type = some NodeType.TYPE_FOLDER then nameOf h n ++ ['/']
          else nameOf h n)) := by
  obtain ⟨h', hall, hsame, hch⟩ :=
    insertAll_children now D nodes h [] hempty hty (by simpa using hnd) hsib
      (by simpa using hnames)
  rw [List.nil_append] at hch
  refine ⟨h', hall, hch, ?_⟩
  rw [listDirectory_of_children fmt false hch]
  congr 1
  have hex : ∀ n ∈ nodes, ∃ nn, h.read n = some nn := fun n hn =>
    (map_read_eq_some (hsib n hn)).imp (fun _ hx => hx.1)
  clear hall hch hnd hnames hsib
  induction nodes with
  | nil => rfl
  | cons n rest ih =>
    obtain ⟨nn, hnn⟩ := hex n (List.mem_cons_self _ _)
    obtain ⟨nn', hnn', hd⟩ := hsame.read_some hnn
    simp only [FileNode.data, Prod.mk.injEq] at hd
    rw [List.filterMap_cons, hnn', List.map_cons,
      ih (fun q hq => hex q (List.mem_cons_of_mem _ hq))]
    simp only [Option.map_some', hnn, nameOf_of_read hnn, Option.some.injEq]
    simp only [listDirectory.line, hd.1, hd.2.2.1]
    rfl

theorem insertAll_listing_witness :
    ∃ h', insertAll sampleLoose 3 0 [2, 1] = some h' ∧ children h' 0 = some [2, 1] ∧
      listDirectory h' (fun _ => []) (some 0) false =
        some ([2, 1].map (fun n =>
          if (sampleLoose.read n).map FileNode.type = some NodeType.TYPE_FOLDER then
            nameOf sampleLoose n ++ ['/']
          else nameOf sampleLoose n)) :=
  insertAll_listing sampleLoose 3 0 [2, 1] (fun _ => []) (by decide) (by decide) (by decide)
    (by decide) (by decide)

/-! ## Tree shape: child lists under the operations -/

theorem childList_of_children {h : Heap} {D : Nat} {l : List Nat}
    (hl : children h D = some l) : childList h D = l := by
  simp [childList, hl]

theorem children_lt {h : Heap} {D : Nat} {l : List Nat} (hl : children h D = some l) :
    D < h.length := by
  obtain ⟨dn, hD, -⟩ := children_eq_some.mp hl
  exact Heap.read_lt hD

theorem children_mem_lt {h : Heap} {D : Nat} {l : List Nat} (hl : children h D = some l)
    {q : Nat} (hq : q ∈ l) : q < h.length := by
  obtain ⟨dn, -, hch⟩ := children_eq_some.mp hl
  obtain ⟨n, hn⟩ := hch.cells_allocated q hq
  exact Heap.read_lt hn

theorem ChildrenDefined.children {h : Heap} (hc : ChildrenDefined h) {D : Nat} {n : FileNode}
    (hD : h.read D = some n) : ∃ l, UnixFS.children h D = some l :=
  Option.isSome_iff_exists.mp (hc D (Heap.read_lt hD) (by simp [hD]))

theorem PointBack.parent {h : Heap} (hb : PointBack h) {D : Nat} {l : List Nat}
    (hl : children h D = some l) {c : Nat} (hc : c ∈ l) : parentOf h c = some D :=
  hb D (children_lt hl) c (by rwa [childList_of_children hl])

theorem DistinctNames.names_nodup {h : Heap} (hd : DistinctNames h) {D : Nat} {l : List Nat}
    (hl : children h D = some l) : (l.map (nameOf h)).Nodup := by
  have := hd D (children_lt hl)
  rwa [childList_of_children hl] at this

theorem childrenDefined_intro {h : Heap}
    (H : ∀ D n, h.read D = some n → ∃ l, children h D = some l) : ChildrenDefined h := by
  intro D _ hD
  obtain ⟨n, hn⟩ := Option.isSome_iff_exists.mp hD
  obtain ⟨l, hl⟩ := H D n hn
  simp [hl]

theorem pointBack_intro {h : Heap}
    (H : ∀ D l, children h D = some l → ∀ c ∈ l, parentOf h c = some D) : PointBack h := by
  intro D _ c hc
  cases hl : children h D with
  | none => simp [childList, hl] at hc
  | some l =>
    rw [childList_of_children hl] at hc
    exact H D l hl c hc

theorem distinctNames_intro {h : Heap}
    (H : ∀ D l, children h D = some l → (l.map (nameOf h)).Nodup) : DistinctNames h := by
  intro D _
  cases hl : children h D with
  | none => simp [childList, hl]
  | some l =>
    rw [childList_of_children hl]
    exact H D l hl

/-- Two child lists of different cells share no cell. -/
theorem PointBack.disjoint {h : Heap} (hb : PointBack h) {D E : Nat} {l m : List Nat}
    (hl : children h D = some l) (hm : children h E = some m) (hne : D ≠ E) :
    ∀ q ∈ l, q ∉ m := by
  intro q hq hq'
  have h1 := hb.parent hl hq
  have h2 := hb.parent hm hq'
  rw [h1] at h2
  exact hne (Option.some.inj h2)

/-- A child list stays what it is when the first-child link of the cell and the
sibling links of the cells on the list are kept. -/
theorem children_frame {h h' : Heap} {D : Nat} {l : List Nat} (hl : children h D = some l)
    (hfc : (h'.read D).map FileNode.fChild = (h.read D).map FileNode.fChild)
    (hsib : ∀ q ∈ l, (h'.read q).map FileNode.nSibling = (h.read q).map FileNode.nSibling) :
    children h' D = some l := by
  obtain ⟨dn, hD, hch⟩ := children_eq_some.mp hl
  rw [hD] at hfc
  obtain ⟨dn', hD', hfc'⟩ := map_read_eq_some hfc
  refine children_eq_some.mpr ⟨dn', hD', ?_⟩
  rw [hfc']
  exact Follows.congr hsib hch

theorem children_unique_frame {h h' : Heap} {D : Nat} {l l' : List Nat}
    (hl : children h D = some l) (hl' : children h' D = some l')
    (hfc : (h'.read D).map FileNode.fChild = (h.read D).map FileNode.fChild)
    (hsib : ∀ q ∈ l, (h'.read q).map FileNode.nSibling = (h.read q).map FileNode.nSibling) :
    l' = l := by
  have := children_frame hl hfc hsib
  rw [hl'] at this
  exact Option.some.inj this

theorem nameOf_congr {h h' : Heap} {q : Nat}
    (hq : (h'.read q).map FileNode.fileName = (h.read q).map FileNode.fileName) :
    nameOf h' q = nameOf h q := by
  unfold nameOf
  cases h1 : h'.read q <;> cases h2 : h.read q <;> simp_all

theorem parentOf_congr {h h' : Heap} {q : Nat}
    (hq : (h'.read q).map FileNode.parent = (h.read q).map FileNode.parent) :
    parentOf h' q = parentOf h q := by
  unfold parentOf
  cases h1 : h'.read q <;> cases h2 : h.read q <;> simp_all

theorem read_none_of_map {α : Type} {f : FileNode → α} {h h' : Heap} {q : Nat}
    (hq : (h'.read q).map f = (h.read q).map f) (hn : h.read q = none) : h'.read q = none := by
  rw [hn] at hq
  cases h1 : h'.read q with
  | none => rfl
  | some n => simp [h1] at hq

theorem nodup_map_names_congr {h h' : Heap} {l : List Nat}
    (hn : ∀ q ∈ l, nameOf h' q = nameOf h q) (hd : (l.map (nameOf h)).Nodup) :
    (l.map (nameOf h')).Nodup := by
  rw [List.map_congr_left hn]
  exact hd

/-- `insertNode` of a node without a sibling, on a heap with distinct child
names: it is refused and changes nothing, or it succeeds and the child names
are distinct afterwards. -/
theorem insertNode_distinct {h : Heap} (hc : ChildrenDefined h) (hb : PointBack h)
    (hd : DistinctNames h) (now : Nat) {P N : Nat} {pn nn : FileNode}
    (hP : h.read P = some pn) (hN : h.read N = some nn) (hsib : nn.nSibling = none) :
    insertNode h now (some P) (some N) = some (h, 0) ∨
    ∃ h', insertNode h now (some P) (some N) = some (h', 1) ∧ DistinctNames h' := by
  obtain ⟨l, hl⟩ := hc.children hP
  obtain ⟨pn', hP', hch⟩ := children_eq_some.mp hl
  rw [hP] at hP'
  cases hP'
  by_cases hty : pn.type = NodeType.TYPE_FOLDER
  swap
  · exact Or.inl (insertNode_not_folder now hP hty)
  by_cases hdup : ∃ c ∈ l, nameOf h c = nn.fileName
  · exact Or.inl (insertNode_duplicate now hP hN hch hdup)
  push_neg at hdup
  have hNl : N ∉ l := fun hm => hdup N hm (nameOf_of_read hN)
  obtain ⟨h', hins, hsame, hch', -, -, hfcs, -, -, hsibs⟩ :=
    insertNode_ok now hP hty hN hch hNl hsib hdup
  refine Or.inr ⟨h', hins, distinctNames_intro ?_⟩
  intro D l' hl'
  refine nodup_map_names_congr (fun q _ => hsame.nameOf_eq q) ?_
  by_cases hDP : D = P
  · subst hDP
    rw [hch'] at hl'
    cases hl'
    rw [List.map_append]
    refine List.Nodup.append (hd.names_nodup hl) (by simp) ?_
    intro a ha ha'
    simp only [List.map_cons, List.map_nil, List.mem_singleton] at ha'
    obtain ⟨c, hcl, rfl⟩ := List.mem_map.mp ha
    exact hdup c hcl (ha'.trans (nameOf_of_read hN))
  · obtain ⟨dn', hD', -⟩ := children_eq_some.mp hl'
    cases hD : h.read D with
    | none =>
      rw [read_none_of_map (hsame.2 D) hD] at hD'
      cases hD'
    | some dn =>
      obtain ⟨lD, hlD⟩ := hc.children hD
      have : l' = lD := by
        refine children_unique_frame hlD hl' (hfcs D hDP) ?_
        intro q hq
        refine hsibs q (fun e => ?_)
        exact hb.disjoint hlD hl hDP q hq (List.mem_of_getLast?_eq_some e)
      rw [this]
      exact hd.names_nodup hlD

/-- `deleteNode` on a heap with distinct child names returns, and the child
names are distinct afterwards. -/
theorem deleteNode_distinct {h : Heap} (hc : ChildrenDefined h) (hb : PointBack h)
    (hd : DistinctNames h) (now : Nat) (root : Ptr) {P : Nat} {pn : FileNode}
    (hP : h.read P = some pn) (hPl : P ∉ childList h P) (nm : List Char) :
    ∃ h' r, deleteNode h now root (some P) (some nm) = some (h', r) ∧ DistinctNames h' := by
  obtain ⟨l, hl⟩ := hc.children hP
  rw [childList_of_children hl] at hPl
  obtain ⟨pn', hP', hch⟩ := children_eq_some.mp hl
  rw [hP] at hP'
  cases hP'
  rcases deleteNode_cases now root nm hP hch with
    ⟨-, hdel⟩ | ⟨r1, c, r2, cn, rfl, -, -, hcn, -, ⟨-, -, hdel⟩ | ⟨-, hdel⟩⟩
  · exact ⟨h, 0, hdel, hd⟩
  · exact ⟨h, 0, hdel, hd⟩
  obtain ⟨h', hrem, -, hch', hcnone, hPcell, hpv, hframe⟩ :=
    deleteNode_remove_ok now hP hch hPl hcn
  have hnd := hch.nodup
  have hcP : c ≠ P := fun e => hPl (e ▸ List.mem_append_right _ (List.mem_cons_self _ _))
  have hcl : c ∈ r1 ++ c :: r2 := List.mem_append_right _ (List.mem_cons_self _ _)
  have hnames : ∀ q, q ≠ c → nameOf h' q = nameOf h q := by
    intro q hqc
    by_cases hqP : q = P
    · subst hqP
      rw [nameOf_of_read hPcell, nameOf_of_read hP]
    · by_cases hqv : r1.getLast? = some q
      · obtain ⟨pvn, h1, h2⟩ := hpv q hqv
        rw [nameOf_of_read h1, nameOf_of_read h2]
      · unfold nameOf
        rw [hframe q hqc hqP hqv]
  have hsibs : ∀ q, q ≠ c → r1.getLast? ≠ some q →
      (h'.read q).map FileNode.nSibling = (h.read q).map FileNode.nSibling := by
    intro q hqc hqv
    by_cases hqP : q = P
    · subst hqP
      rw [hPcell, hP]
      rfl
    · rw [hframe q hqc hqP hqv]
  have hfcs : ∀ q, q ≠ c → q ≠ P →
      (h'.read q).map FileNode.fChild = (h.read q).map FileNode.fChild := by
    intro q hqc hqP
    by_cases hqv : r1.getLast? = some q
    · obtain ⟨pvn, h1, h2⟩ := hpv q hqv
      rw [h1, h2]
      rfl
    · rw [hframe q hqc hqP hqv]
  refine ⟨h', 1, hdel.trans hrem, distinctNames_intro ?_⟩
  intro D l' hl'
  by_cases hDP : D = P
  · subst hDP
    rw [hch'] at hl'
    cases hl'
    have hsub : (r1 ++ r2).Sublist (r1 ++ c :: r2) :=
      (List.sublist_cons_self c r2).append_left r1
    refine nodup_map_names_congr (fun q hq => hnames q ?_) ((hd.names_nodup hl).sublist (hsub.map _))
    rintro rfl
    have := List.nodup_append.mp hnd
    rcases List.mem_append.mp hq with h1 | h2
    · exact this.2.2 h1 (List.mem_cons_self _ _)
    · exact (List.nodup_cons.mp this.2.1).1 h2
  · obtain ⟨dn', hD', -⟩ := children_eq_some.mp hl'
    have hDc : D ≠ c := by
      rintro rfl
      rw [hcnone] at hD'
      cases hD'
    cases hD : h.read D with
    | none =>
      have hDv : r1.getLast? ≠ some D := by
        intro e
        obtain ⟨pvn, h1, -⟩ := hpv D e
        rw [hD] at h1
        cases h1
      rw [hframe D hDc hDP hDv, hD] at hD'
      cases hD'
    | some dn =>
      obtain ⟨lD, hlD⟩ := hc.children hD
      have hdis := hb.disjoint hlD hl hDP
      have hqc : ∀ q ∈ lD, q ≠ c := by
        rintro q hq rfl
        exact hdis q hq hcl
      have : l' = lD := by
        refine children_unique_frame hlD hl' (hfcs D hDc hDP) ?_
        intro q hq
        refine hsibs q (hqc q hq) (fun e => ?_)
        exact hdis q hq (List.mem_append_left _ (List.mem_of_getLast?_eq_some e))
      rw [this]
      exact nodup_map_names_congr (fun q hq => hnames q (hqc q hq)) (hd.names_nodup hlD)

/-- The tree shape and the distinct names carry over to a heap that has the
same cells below `h.length` and only cells without children above. -/
theorem shape_extend {h h1 : Heap} (hold : ∀ q, q < h.length → h1.read q = h.read q)
    (hnew : ∀ D n, h.length ≤ D → h1.read D = some n → children h1 D = some [])
    (hc : ChildrenDefined h) (hb : PointBack h) (hd : DistinctNames h) :
    ChildrenDefined h1 ∧ PointBack h1 ∧ DistinctNames h1 := by
  have hkeep : ∀ D l, children h D = some l → children h1 D = some l := by
    intro D l hl
    refine children_frame hl (by rw [hold D (children_lt hl)]) ?_
    intro q hq
    rw [hold q (children_mem_lt hl hq)]
  have hback : ∀ D l, children h1 D = some l →
      l = [] ∨ (children h D = some l) := by
    intro D l hl
    obtain ⟨dn, hD, -⟩ := children_eq_some.mp hl
    by_cases hlt : D < h.length
    · rw [hold D hlt] at hD
      obtain ⟨l0, hl0⟩ := hc.children hD
      have := hkeep D l0 hl0
      rw [hl] at this
      cases this
      exact Or.inr hl0
    · have := hnew D dn (by omega) hD
      rw [hl] at this
      cases this
      exact Or.inl rfl
  refine ⟨childrenDefined_intro ?_, pointBack_intro ?_, distinctNames_intro ?_⟩
  · intro D n hD
    by_cases hlt : D < h.length
    · rw [hold D hlt] at hD
      obtain ⟨l0, hl0⟩ := hc.children hD
      exact ⟨l0, hkeep D l0 hl0⟩
    · exact ⟨[], hnew D n (by omega) hD⟩
  · intro D l hl c hcl
    rcases hback D l hl with rfl | hl0
    · simp at hcl
    · have := hb.parent hl0 hcl
      unfold parentOf at this ⊢
      rwa [hold c (children_mem_lt hl0 hcl)]
  · intro D l hl
    rcases hback D l hl with rfl | hl0
    · simp
    · refine nodup_map_names_congr (fun q hq => ?_) (hd.names_nodup hl0)
      unfold nameOf
      rw [hold q (children_mem_lt hl0 hq)]

theorem children_of_no_child {h : Heap} {D : Nat} {n : FileNode} (hD : h.read D = some n)
    (hfc : n.fChild = none) : children h D = some [] := by
  refine children_eq_some.mpr ⟨n, hD, ?_⟩
  rw [hfc]
  trivial

theorem shape_malloc {h : Heap} (node : FileNode) (hfc : node.fChild = none)
    (hc : ChildrenDefined h) (hb : PointBack h) (hd : DistinctNames h) :
    ChildrenDefined (h ++ [some node]) ∧ PointBack (h ++ [some node]) ∧
      DistinctNames (h ++ [some node]) := by
  refine shape_extend (fun q hq => Heap.read_append_lt _ hq) ?_ hc hb hd
  intro D n hle hD
  have hlt : D < (h ++ [some node]).length := Heap.read_lt hD
  have hDeq : D = h.length := by
    simp at hlt
    omega
  subst hDeq
  rw [Heap.read_append_length] at hD
  cases hD
  exact children_of_no_child (Heap.read_append_length h _) hfc

theorem shape_malloc_free {h : Heap} (node : FileNode)
    (hc : ChildrenDefined h) (hb : PointBack h) (hd : DistinctNames h) :
    DistinctNames ((h ++ [some node]).free h.length) := by
  refine (@shape_extend h ((h ++ [some node]).free h.length) ?_ ?_ hc hb hd).2.2
  · intro q hq
    rw [Heap.read_free_ne (by omega), Heap.read_append_lt _ hq]
  · intro D n hle hD
    have hlt : D < ((h ++ [some node]).free h.length).length := Heap.read_lt hD
    have hDeq : D = h.length := by
      rw [Heap.length_free] at hlt
      simp at hlt
      omega
    subst hDeq
    rw [Heap.read_free_same] at hD
    cases hD

/-- The `cp` command on a heap with distinct child names returns, and the child
names are distinct afterwards. -/
theorem cp_distinct {h : Heap} (hc : ChildrenDefined h) (hb : PointBack h)
    (hd : DistinctNames h) (nowCreate nowInsert : Nat) {D : Nat} {dn : FileNode}
    (hD : h.read D = some dn) (s t : List Char) :
    ∃ h', cp h nowCreate nowInsert D s t = some h' ∧ DistinctNames h' := by
  obtain ⟨l, hl⟩ := hc.children hD
  obtain ⟨dn', hD', hch⟩ := children_eq_some.mp hl
  rw [hD] at hD'
  cases hD'
  by_cases hex : ∃ c ∈ l, nameOf h c = s
  swap
  · push_neg at hex
    refine ⟨h, ?_, hd⟩
    simp only [cp, hD]
    exact cp_loop_absent nowCreate nowInsert D t hch hch.length_le hex
  obtain ⟨r1, c, r2, rfl, hcs, hr1, -⟩ := first_named_split h s _ hex
  obtain ⟨cn, hcn⟩ := hch.cells_allocated c (List.mem_append_right _ (List.mem_cons_self _ _))
  have hnm : cn.fileName = s := by rwa [nameOf_of_read hcn] at hcs
  have hcp : cp h nowCreate nowInsert D s t =
      if cn.type = NodeType.TYPE_FILE then
        insertOrFree (createNode h nowCreate (some t) (some cn.fileContent)
          NodeType.TYPE_FILE) nowInsert D
      else some h := by
    simp only [cp, hD]
    exact cp_loop_found nowCreate nowInsert D t hch hch.length_le hr1 hcn hnm
  by_cases hfile : cn.type = NodeType.TYPE_FILE
  swap
  · exact ⟨h, by rw [hcp, if_neg hfile], hd⟩
  rw [if_pos hfile] at hcp
  rcases isValidName_zero_or_one (some t) with h0 | h1
  · refine ⟨h, ?_, hd⟩
    rw [hcp]
    simp [createNode, h0, insertOrFree]
  rw [createNode_valid h nowCreate (some cn.fileContent) NodeType.TYPE_FILE h1] at hcp
  generalize hnode : ({ fileName := t
                        fileContent := createNode.content (some cn.fileContent)
                        type := NodeType.TYPE_FILE
                        createdTime := nowCreate
                        modifiedTime := nowCreate
                        parent := none
                        fChild := none
                        nSibling := none } : FileNode) = node at hcp
  have hnfc : node.fChild = none := by rw [← hnode]
  have hnsib : node.nSibling = none := by rw [← hnode]
  obtain ⟨hc1, hb1, hd1⟩ := shape_malloc node hnfc hc hb hd
  have hD1 : Heap.read (h ++ [some node]) D = some dn := by
    rw [Heap.read_append_lt _ (Heap.read_lt hD), hD]
  rcases insertNode_distinct hc1 hb1 hd1 nowInsert hD1 (Heap.read_append_length h node) hnsib
    with hins | ⟨h', hins, hd'⟩
  · refine ⟨(h ++ [some node]).free h.length, ?_, shape_malloc_free node hc hb hd⟩
    rw [hcp]
    simp [insertOrFree, hins]
  · refine ⟨h', ?_, hd'⟩
    rw [hcp]
    simp [insertOrFree, hins]

/-- The detach loop of `mv` on a heap of tree shape, for a child `x` of `A`:
it returns, `x` leaves the child list of `A`, every other child list is what it
was, and the shape is kept, as are distinct names. -/
theorem mv_detach_shape {h : Heap} (hc : ChildrenDefined h) (hb : PointBack h)
    {A x : Nat} {an : FileNode} (hA : h.read A = some an)
    {r1 r2 : List Nat} (hl : children h A = some (r1 ++ x :: r2)) :
    ∃ h1, mv.detach h A x h.length an.fChild none = some h1 ∧ SameData h h1 ∧
      ChildrenDefined h1 ∧ PointBack h1 ∧ (DistinctNames h → DistinctNames h1) ∧
      children h1 A = some (r1 ++ r2) ∧
      (∀ D, D ≠ A → children h1 D = children h D) ∧
      (∀ q, parentOf h1 q = parentOf h q) ∧
      (h1.read x).map FileNode.nSibling = some none ∧
      (∀ q, q ∉ r1 ++ x :: r2 →
        (h1.read q).map FileNode.nSibling = (h.read q).map FileNode.nSibling) := by
  obtain ⟨an', hA', hch⟩ := children_eq_some.mp hl
  rw [hA] at hA'
  cases hA'
  have hxl : x ∈ r1 ++ x :: r2 := List.mem_append_right _ (List.mem_cons_self _ _)
  obtain ⟨xn, hx⟩ := hch.cells_allocated x hxl
  have hdet := mv_detach_found A hch hch.length_le hx none
  rw [Option.or_none] at hdet
  obtain ⟨h1, hunl, hsame, hch1, hpar, -, hfcs, hsibs, hxsib⟩ := mv_unlink_ok hA hch hx
  have hsub : (r1 ++ r2).Sublist (r1 ++ x :: r2) :=
    (List.sublist_cons_self x r2).append_left r1
  have hother : ∀ D, D ≠ A → children h1 D = children h D := by
    intro D hDA
    cases hD : h.read D with
    | none =>
      have hD1 := read_none_of_map (hsame.2 D) hD
      simp [children, hD, hD1]
    | some dn =>
      obtain ⟨lD, hlD⟩ := hc.children hD
      have hdis := hb.disjoint hlD hl hDA
      rw [hlD]
      refine children_frame hlD (hfcs D hDA) ?_
      intro q hq
      refine hsibs q ?_ ?_
      · rintro rfl
        exact hdis _ hq hxl
      · intro e
        exact hdis q hq (List.mem_append_left _ (List.mem_of_getLast?_eq_some e))
  have hparOf : ∀ q, parentOf h1 q = parentOf h q := fun q => parentOf_congr (hpar q)
  have hcases : ∀ D l, children h1 D = some l →
      (D = A ∧ l = r1 ++ r2) ∨ (D ≠ A ∧ children h D = some l) := by
    intro D l hl1
    by_cases hDA : D = A
    · subst hDA
      rw [hch1] at hl1
      cases hl1
      exact Or.inl ⟨rfl, rfl⟩
    · rw [hother D hDA] at hl1
      exact Or.inr ⟨hDA, hl1⟩
  refine ⟨h1, hdet.trans hunl, hsame, childrenDefined_intro ?_, pointBack_intro ?_,
    fun hd => distinctNames_intro ?_, hch1, hother, hparOf, hxsib, ?_⟩
  · intro D n hD
    by_cases hDA : D = A
    · subst hDA
      exact ⟨_, hch1⟩
    · rw [hother D hDA]
      cases hD0 : h.read D with
      | none =>
        rw [read_none_of_map (hsame.2 D) hD0] at hD
        cases hD
      | some dn => exact hc.children hD0
  · intro D l hl1 c hcl
    rw [hparOf]
    rcases hcases D l hl1 with ⟨rfl, rfl⟩ | ⟨-, hl0⟩
    · exact hb.parent hl (hsub.subset hcl)
    · exact hb.parent hl0 hcl
  · intro D l hl1
    refine nodup_map_names_congr (fun q _ => hsame.nameOf_eq q) ?_
    rcases hcases D l hl1 with ⟨rfl, rfl⟩ | ⟨-, hl0⟩
    · exact (hd.names_nodup hl).sublist (hsub.map _)
    · exact hd.names_nodup hl0
  · intro q hq
    refine hsibs q ?_ ?_
    · rintro rfl
      exact hq hxl
    · intro e
      exact hq (List.mem_append_left _ (List.mem_of_getLast?_eq_some e))

/-- When `findNode` resolves both names of `mv` and the destination is a
directory, the command is the detach loop followed by `insertNode`. -/
theorem mv_resolved {h : Heap} (now : Nat) {root : Nat} {s d : List Char} {x B : Nat}
    {xn bn : FileNode} (hs : findNode h (some root) (some s) = some (some x))
    (hd : findNode h (some root) (some d) = some (some B))
    (hx : h.read x = some xn) (hB : h.read B = some bn)
    (hty : bn.type = NodeType.TYPE_FOLDER) :
    (xn.parent = none → mv h now root s d = insertNode h now (some B) (some x)) ∧
    (∀ A an h1, xn.parent = some A → h.read A = some an →
      mv.detach h A x h.length an.fChild none = some h1 →
      mv h now root s d = insertNode h1 now (some B) (some x)) := by
  constructor
  · intro hp
    simp [mv, hs, hd, hx, hB, hty, hp]
  · intro A an h1 hp hA hdet
    simp [mv, hs, hd, hx, hB, hty, hp, hA, hdet]

/-- The `mv` command on a well-linked heap of tree shape with distinct child
names returns, and the child names are distinct afterwards. -/
theorem mv_distinct {h : Heap} {root : Nat} (hw : WellLinked h root)
    (hc : ChildrenDefined h) (hb : PointBack h) (hd : DistinctNames h)
    (hpl : ParentListed h) (hpa : ParentlessAlone h) (now : Nat) (s d : List Char) :
    ∃ h' r, mv h now root s d = some (h', r) ∧ DistinctNames h' := by
  obtain ⟨rs, hs⟩ := findNode_total s hw
  obtain ⟨rd, hdst⟩ := findNode_total d hw
  cases rs with
  | none => exact ⟨h, 0, by simp only [mv, hs, hdst], hd⟩
  | some x =>
  cases rd with
  | none => exact ⟨h, 0, by simp only [mv, hs, hdst], hd⟩
  | some B =>
  obtain ⟨xn, hx, -⟩ := hw x (findNode_sound hs).1
  obtain ⟨bn, hB, -⟩ := hw B (findNode_sound hdst).1
  by_cases hty : bn.type = NodeType.TYPE_FOLDER
  swap
  · exact ⟨h, 0, by simp [mv, hs, hdst, hB, hty], hd⟩
  obtain ⟨hnone, hsome⟩ := mv_resolved now hs hdst hx hB hty
  cases hp : xn.parent with
  | none =>
    have hsib : xn.nSibling = none := hpa x (Heap.read_lt hx) xn hx hp
    rw [hnone hp]
    rcases insertNode_distinct hc hb hd now hB hx hsib with hins | ⟨h', hins, hd'⟩
    · exact ⟨h, 0, hins, hd⟩
    · exact ⟨h', 1, hins, hd'⟩
  | some A =>
    have hxA : x ∈ childList h A :=
      hpl x (Heap.read_lt hx) A (by rw [parentOf_of_read hx, hp]; rfl)
    cases hlA : children h A with
    | none => simp [childList, hlA] at hxA
    | some lA =>
      rw [childList_of_children hlA] at hxA
      obtain ⟨r1, r2, rfl⟩ := List.append_of_mem hxA
      obtain ⟨an, hA, -⟩ := children_eq_some.mp hlA
      obtain ⟨h1, hdet, hsame, hc1, hb1, hd1, -, -, -, hxsib, -⟩ :=
        mv_detach_shape hc hb hA hlA
      rw [hsome A an h1 hp hA hdet]
      obtain ⟨bn1, hB1, -⟩ := hsame.read_some hB
      obtain ⟨xn1, hx1, hxs1⟩ := map_read_eq_some hxsib
      rcases insertNode_distinct hc1 hb1 (hd1 hd) now hB1 hx1 hxs1 with hins | ⟨h', hins, hd'⟩
      · exact ⟨h1, 0, hins, hd1 hd⟩
      · exact ⟨h', 1, hins, hd'⟩

/-- C18: sibling-name uniqueness is preserved by insert, delete, copy and move.
On a heap of tree shape (every allocated cell has a child list that ends, every
listed child points back to its directory) in which every child list has
pairwise distinct names: `insertNode` of a node without a sibling, `deleteNode`
in a directory that is not its own child, the `cp` command and the `mv` command
(on a well-linked tree where a cell with a parent is listed by it and a cell
without a parent has no sibling) all return, whether they succeed or are
refused, and afterwards every child list of the heap has pairwise distinct
names. -/
theorem distinct_names_preserved (h : Heap) (hc : ChildrenDefined h) (hb : PointBack h)
    (hd : DistinctNames h) :
    (∀ now P N, (h.read P).isSome → (h.read N).map FileNode.nSibling = some none →
      ∃ h' r, insertNode h now (some P) (some N) = some (h', r) ∧ DistinctNames h') ∧
    (∀ now root P nm, (h.read P).isSome → P ∉ childList h P →
      ∃ h' r, deleteNode h now root (some P) (some nm) = some (h', r) ∧ DistinctNames h') ∧
    (∀ nowCreate nowInsert D s t, (h.read D).isSome →
      ∃ h', cp h nowCreate nowInsert D s t = some h' ∧ DistinctNames h') ∧
    (∀ now root s d, WellLinked h root → ParentListed h → ParentlessAlone h →
      ∃ h' r, mv h now root s d = some (h', r) ∧ DistinctNames h') := by
  refine ⟨?_, ?_, ?_, ?_⟩
  · intro now P N hP hN
    obtain ⟨pn, hpn⟩ := Option.isSome_iff_exists.mp hP
    obtain ⟨nn, hnn, hsib⟩ := map_read_eq_some hN
    rcases insertNode_distinct hc hb hd now hpn hnn hsib with hins | ⟨h', hins, hd'⟩
    · exact ⟨h, 0, hins, hd⟩
    · exact ⟨h', 1, hins, hd'⟩
  · intro now root P nm hP hPl
    obtain ⟨pn, hpn⟩ := Option.isSome_iff_exists.mp hP
    exact deleteNode_distinct hc hb hd now root hpn hPl nm
  · intro nowCreate nowInsert D s t hD
    obtain ⟨dn, hdn⟩ := Option.isSome_iff_exists.mp hD
    exact cp_distinct hc hb hd nowCreate nowInsert hdn s t
  · intro now root s d hw hpl hpa
    exact mv_distinct hw hc hb hd hpl hpa now s d

theorem distinct_names_preserved_witness :
    (∃ h' r, insertNode sampleLoose 3 (some 0) (some 1) = some (h', r) ∧ DistinctNames h') ∧
    (∃ h' r, deleteNode sampleDocs 7 (some 0) (some 1) (some "a.txt".toList) = some (h', r) ∧
      DistinctNames h') ∧
    (∃ h', cp sampleDocs 5 6 1 "a.txt".toList "b.txt".toList = some h' ∧ DistinctNames h') ∧
    (∃ h' r, mv sampleDocs 7 0 "a.txt".toList "root".toList = some (h', r) ∧
      DistinctNames h') :=
  ⟨(distinct_names_preserved sampleLoose (by decide) (by decide) (by decide)).1 3 0 1
      (by decide) (by decide),
    (distinct_names_preserved sampleDocs (by decide) (by decide) (by decide)).2.1 7 (some 0) 1
      "a.txt".toList (by decide) (by decide),
    (distinct_names_preserved sampleDocs (by decide) (by decide) (by decide)).2.2.1 5 6 1
      "a.txt".toList "b.txt".toList (by decide),
    (distinct_names_preserved sampleDocs (by decide) (by decide) (by decide)).2.2.2 7 0
      "a.txt".toList "root".toList (wellLinked_of_check (by decide) (by decide))
      (by decide) (by decide)⟩

/-! ## mv when the destination refuses the node -/

/-- A cell reachable from a root without a sibling is the root or is on the
child list of some cell. -/
theorem reach_listed {h : Heap} {root : Nat} (hc : ChildrenDefined h)
    (hsib : (h.read root).map FileNode.nSibling = some none) {p : Nat}
    (hp : Reach h root p) : p = root ∨ ∃ D l, children h D = some l ∧ p ∈ l := by
  induction hp with
  | root => exact Or.inl rfl
  | @child p c n _ hread hfc _ =>
    obtain ⟨l, hl⟩ := hc.children hread
    obtain ⟨n', hn', hch⟩ := children_eq_some.mp hl
    rw [hread] at hn'
    cases hn'
    rw [hfc] at hch
    obtain ⟨_, l', _, rfl, _⟩ := Follows.some_iff.mp hch
    exact Or.inr ⟨p, _, hl, List.mem_cons_self _ _⟩
  | @sibling p s n _ hread hs ih =>
    rcases ih with rfl | ⟨D, l, hl, hpl⟩
    · rw [hread] at hsib
      simp only [Option.map_some', Option.some.injEq] at hsib
      rw [hsib] at hs
      cases hs
    · obtain ⟨dn, -, hch⟩ := children_eq_some.mp hl
      obtain ⟨a, b, rfl⟩ := List.append_of_mem hpl
      obtain ⟨n', _, hn', hl', htail⟩ := Follows.some_iff.mp (Follows.tail_from hch)
      rw [hread] at hn'
      cases hn'
      cases hl'
      rw [hs] at htail
      obtain ⟨_, b', _, rfl, _⟩ := Follows.some_iff.mp htail
      exact Or.inr ⟨D, _, hl, by simp⟩

theorem erase_middle {x : Nat} {r1 r2 : List Nat} (hnd : (r1 ++ x :: r2).Nodup) :
    (r1 ++ x :: r2).erase x = r1 ++ r2 ∧ x ∉ r1 ++ r2 := by
  have h1 := List.nodup_append.mp hnd
  have hx1 : x ∉ r1 := fun hm => h1.2.2 hm (List.mem_cons_self _ _)
  have hx2 : x ∉ r2 := (List.nodup_cons.mp h1.2.1).1
  constructor
  · rw [List.erase_append_right _ hx1, List.erase_cons_head]
  · simp [hx1, hx2]

/-- C20: the `mv` command is not atomic.  On a well-linked heap of tree shape
whose root has no parent and no sibling, when `findNode` resolves the source
name to `x`, a child of `A`, and the destination name to a directory `B` that
has a child other than `x` with the name of `x`: the command takes `x` out of
the child list of `A`, the final `insertNode` returns 0, and afterwards `x` is
still allocated, is on no child list, is not reachable from the root, and its
parent pointer is still `A`. -/
theorem mv_not_atomic (h : Heap) (now root : Nat) (s d : List Char) (x A B c : Nat)
    (lA lB : List Nat)
    (hw : WellLinked h root) (hc : ChildrenDefined h) (hb : PointBack h)
    (hroot : parentOf h root = none)
    (hrootsib : (h.read root).map FileNode.nSibling = some none)
    (hs : findNode h (some root) (some s) = some (some x))
    (hd : findNode h (some root) (some d) = some (some B))
    (hty : (h.read B).map FileNode.type = some NodeType.TYPE_FOLDER)
    (hlA : children h A = some lA) (hxA : x ∈ lA)
    (hlB : children h B = some lB) (hcB : c ∈ lB) (hcx : c ≠ x)
    (hname : nameOf h c = nameOf h x) :
    ∃ h', mv h now root s d = some (h', 0) ∧
      children h' A = some (lA.erase x) ∧ x ∉ lA.erase x ∧
      (h'.read x).isSome ∧
      (∀ D l, children h' D = some l → x ∉ l) ∧
      ¬ Reach h' root x ∧
      parentOf h' x = some A := by
  obtain ⟨xn, hx, -⟩ := hw x (findNode_sound hs).1
  obtain ⟨bn, hB, hbty⟩ := map_read_eq_some hty
  obtain ⟨an, hA, hchA⟩ := children_eq_some.mp hlA
  obtain ⟨r1, r2, rfl⟩ := List.append_of_mem hxA
  obtain ⟨herase, hxnot⟩ := erase_middle hchA.nodup
  have hpx : parentOf h x = some A := hb.parent hlA hxA
  have hp : xn.parent = some A := by rwa [parentOf_of_read hx] at hpx
  obtain ⟨h1, hdet, hsame, hc1, hb1, -, hch1, hother, hparOf, hxsib, hsibs⟩ :=
    mv_detach_shape hc hb hA hlA
  obtain ⟨bn1, hB1, -⟩ := hsame.read_some hB
  obtain ⟨xn1, hx1, -⟩ := hsame.read_some hx
  -- the destination still has the child `c` with the name of `x`
  have hB1l : ∃ l1, children h1 B = some l1 ∧ c ∈ l1 := by
    by_cases hBA : B = A
    · subst hBA
      rw [hlA] at hlB
      cases hlB
      refine ⟨_, hch1, ?_⟩
      rcases List.mem_append.mp hcB with h1' | h2'
      · exact List.mem_append_left _ h1'
      · rcases List.mem_cons.mp h2' with rfl | h3'
        · exact absurd rfl hcx
        · exact List.mem_append_right _ h3'
    · exact ⟨lB, by rw [hother B hBA, hlB], hcB⟩
  obtain ⟨l1, hl1, hcl1⟩ := hB1l
  obtain ⟨bn1', hB1', hchB1⟩ := children_eq_some.mp hl1
  rw [hB1] at hB1'
  cases hB1'
  have hdup : ∃ c ∈ l1, nameOf h1 c = xn1.fileName := by
    refine ⟨c, hcl1, ?_⟩
    rw [hsame.nameOf_eq, hname, ← hsame.nameOf_eq, nameOf_of_read hx1]
  have hmv : mv h now root s d = some (h1, 0) := by
    rw [(mv_resolved now hs hd hx hB hbty).2 A an h1 hp hA hdet]
    exact insertNode_duplicate now hB1 hx1 hchB1 hdup
  have hnolist : ∀ D l, children h1 D = some l → x ∉ l := by
    intro D l hl
    by_cases hDA : D = A
    · subst hDA
      rw [hch1] at hl
      cases hl
      exact hxnot
    · rw [hother D hDA] at hl
      exact fun hm => hb.disjoint hl hlA hDA x hm hxA
  have hxroot : x ≠ root := by
    rintro rfl
    rw [hroot] at hpx
    cases hpx
  have hrootA : root ∉ r1 ++ x :: r2 := by
    intro hm
    have := hb.parent hlA hm
    rw [hroot] at this
    cases this
  refine ⟨h1, hmv, by rw [herase]; exact hch1, by rw [herase]; exact hxnot, by simp [hx1],
    hnolist, ?_, by rw [hparOf, hpx]⟩
  intro hreach
  rcases reach_listed hc1 ((hsibs root hrootA).trans hrootsib) hreach with e | ⟨D, l, hl, hm⟩
  · exact hxroot e
  · exact hnolist D l hl hm

theorem mv_not_atomic_witness :
    ∃ h', mv sampleClash 7 0 "f".toList "c".toList = some (h', 0) ∧
      children h' 1 = some ([2].erase 2) ∧ 2 ∉ [2].erase 2 ∧
      (h'.read 2).isSome ∧
      (∀ D l, children h' D = some l → 2 ∉ l) ∧
      ¬ Reach h' 0 2 ∧
      parentOf h' 2 = some 1 :=
  mv_not_atomic sampleClash 7 0 "f".toList "c".toList 2 1 3 4 [2] [4]
    (wellLinked_of_check (by decide) (by decide)) (by decide) (by decide) (by decide)
    (by decide) (by decide) (by decide) (by decide) (by decide) (by decide) (by decide)
    (by decide) (by decide) (by decide)

/-! ## Modification times and array bounds -/

/-- C21 (the code at a failing input): in `root/{docs/{a.txt}, b}` with all
times 0, the command `mv a.txt root` at time 7 succeeds and takes `a.txt` out of
the child list of `docs`; afterwards the root, which received the node, has
modification time 7, and `docs`, which lost it, still has modification time 0.
`deleteNode` of the same child at time 7 sets the time of `docs` to 7.  No
creation time is changed by either. -/
theorem mv_keeps_time_of_source_directory :
    children sampleDocs 1 = some [2] ∧ children sampleDocs 0 = some [1, 3] ∧
    (sampleDocs.read 1).map FileNode.modifiedTime = some 0 ∧
    (mv sampleDocs 7 0 "a.txt".toList "root".toList).map
      (fun r => (r.2, children r.1 1, children r.1 0,
        (r.1.read 0).map FileNode.modifiedTime, (r.1.read 1).map FileNode.modifiedTime)) =
      some (1, some [], some [1, 3, 2], some 7, some 0) ∧
    (mv sampleDocs 7 0 "a.txt".toList "root".toList).map
      (fun r => r.1.map (Option.map FileNode.createdTime)) =
      some (sampleDocs.map (Option.map FileNode.createdTime)) ∧
    (deleteNode sampleDocs 7 (some 0) (some 1) (some "a.txt".toList)).map
      (fun r => (r.2, children r.1 1, (r.1.read 1).map FileNode.modifiedTime)) =
      some (1, some [], some 7) := by
  refine ⟨by decide, by decide, by decide, by decide, by decide, by decide⟩

theorem findNode_loop_length_le {h : Heap} {nm : List Char} {fuel : Nat} {q : List Nat}
    {front : Nat} {res : Ptr} {q' : List Nat} (hlen : q.length ≤ MAX_QUEUE)
    (hrun : findNode.loop h nm fuel q front = some (res, q')) : q'.length ≤ MAX_QUEUE := by
  induction fuel generalizing q front with
  | zero =>
    rcases findNode_loop_inv hrun with ⟨-, -, rfl⟩ | ⟨fuel', _, _, hf, -⟩
    · exact hlen
    · cases hf
  | succ fuel ih =>
    rcases findNode_loop_inv hrun with ⟨-, -, rfl⟩ | ⟨fuel', curr, cn, hf, -, -, hcase⟩
    · exact hlen
    · cases hf
      rcases hcase with ⟨-, -, rfl⟩ | ⟨-, q2, hsib, hrest⟩
      · exact hlen
      · exact ih (siblings_length_le (firstChild_length_le cn hlen) hsib) hrest

/-- C22: the queue of `findNode` never holds more than `MAX_QUEUE` slots, so
every write `queue[rear++]` and every read `queue[front++]` (made under
`front < rear`) has an index below `MAX_QUEUE`.  The first loop of `printPath`
has no such guard: for a node whose ancestor chain has the cells `up`, it fills
the stack when `up` has at most `STACK_SIZE` = 100 cells, and writes outside
`stack[100]` when `up` is longer. -/
theorem queue_in_bounds_stack_unchecked (h : Heap) (p : Nat) (up : List Nat)
    (hup : ancestors h p = some up) :
    (∀ root nm res q, findNode.run h root nm = some (res, q) → q.length ≤ MAX_QUEUE) ∧
    printPath.push h STACK_SIZE (some p) [] =
      (if up.length ≤ STACK_SIZE then some up.reverse else none) ∧
    (STACK_SIZE < up.length → printPath h (some p) = none) := by
  have hpush : printPath.push h STACK_SIZE (some p) [] =
      (if up.length ≤ STACK_SIZE then some up.reverse else none) := by
    rw [printPath_push_eq (ancestors_eq_some.mp hup), List.append_nil]
  refine ⟨?_, hpush, ?_⟩
  · intro root nm res q hrun
    cases root with
    | none =>
      simp only [findNode.run, Option.some.injEq, Prod.mk.injEq] at hrun
      rw [← hrun.2]
      simp
    | some r =>
      cases nm with
      | none =>
        simp only [findNode.run, Option.some.injEq, Prod.mk.injEq] at hrun
        rw [← hrun.2]
        simp
      | some nm => exact findNode_loop_length_le (by simp [MAX_QUEUE]) hrun
  · intro hdeep
    simp only [printPath, printPath.path, hpush, if_neg (Nat.not_le.mpr hdeep)]
    rfl

theorem queue_in_bounds_stack_unchecked_witness :
    nestDirs 100 initialHeap 0 = some (deepChain, 100) ∧
    (ChildrenDefined deepChain ∧ PointBack deepChain ∧ ParentListed deepChain ∧
      ParentlessAlone deepChain ∧ DistinctNames deepChain) ∧
    ((∀ root nm res q, findNode.run deepChain root nm = some (res, q) →
        q.length ≤ MAX_QUEUE) ∧
      printPath.push deepChain STACK_SIZE (some 100) [] =
        (if ((List.range 101).reverse).length ≤ STACK_SIZE
          then some ((List.range 101).reverse).reverse else none) ∧
      (STACK_SIZE < ((List.range 101).reverse).length → printPath deepChain (some 100) = none)) :=
  ⟨by decide!, ⟨by decide!, by decide!, by decide!, by decide!, by decide!⟩,
    queue_in_bounds_stack_unchecked deepChain 100 (List.range 101).reverse (by decide!)⟩

end UnixFS
